import Mathlib

/-! ac-lib: the GZip index parser and inflate driver (`src/ac_gzip.h`) and the
byte list they grow (`src/ac_mem.h`)

A shallow embedding of `ac_gzip_magic_match`, `ac_gzip_init`, `ac_list_realloc`
and `ac_gzip_inflate`. This first part is about the parser; the conventions of
the list and of the inflate driver stand before their definitions, and so do
those of the later parts: the allocator-backed list (`src/ac_alloc.h`), the
string (`src/ac_str.h`), rounding up, time and rotations (`src/ac_mem.h`,
`src/ac_time.h`, `src/ac_vec.h`) and the test harness (`src/ac_test.h`).

Modelling conventions.
* The input `ac_buf file` is given by the bytes it designates: a `List Byte`
  whose length is `file.size`; index `i` of the list is `file.data[i]`.
* A pointer into the file is the offset from `file.data`; `NULL` is `none`.
* Every load goes through `List.get?`-style indexing: a load outside
  `[0, file.size)` (undefined behaviour in C) is the outcome `Halt.oob`.
* `return false` inside `ac_gzip_init` is the outcome `Halt.ret_false`.
* `uint16_t` loads are little-endian (the header comments say so), and a
  value stored into a `uint16_t` is reduced modulo `2^16`.
* `size_t` offsets are natural numbers: inside `ac_gzip_init` an offset stays
  below `file.size + 2^16`, which does not wrap for the size of any object.
-/

namespace AcGzip

/-- One `unsigned char`. -/
abbrev Byte := Fin 256

/-- Ways a run of `ac_gzip_init` stops before line 170. -/
inductive Halt where
  /-- A load outside `[0, file.size)`. -/
  | oob
  /-- A `return false;` statement. -/
  | ret_false
  deriving DecidableEq, Repr

/-- The load `file.data[i]`, as a number. -/
def load8 (file : List Byte) (i : Nat) : Except Halt Nat :=
  match file[i]? with
  | some b => .ok b.val
  | none => .error .oob

/-- The load `*(const uint16_t*)(file.data + i)` on a little-endian host. -/
def load16 (file : List Byte) (i : Nat) : Except Halt Nat :=
  match load8 file i with
  | .error e => .error e
  | .ok lo =>
    match load8 file (i + 1) with
    | .error e => .error e
    | .ok hi => .ok (lo + 256 * hi)

/-- The load `*(const uint32_t*)(file.data + i)` on a little-endian host. -/
def load32 (file : List Byte) (i : Nat) : Except Halt Nat :=
  match load16 file i with
  | .error e => .error e
  | .ok lo =>
    match load16 file (i + 2) with
    | .error e => .error e
    | .ok hi => .ok (lo + 65536 * hi)

def AC_GZIP_MAGIC : Nat := 0x8b1f
def AC_GZIP_COMPRESSION_DEFLATE : Nat := 0x8
def AC_GZIP_FLAG_TEXT : Nat := 0x01
def AC_GZIP_FLAG_HCRC : Nat := 0x02
def AC_GZIP_FLAG_EXTRA : Nat := 0x04
def AC_GZIP_FLAG_NAME : Nat := 0x08
def AC_GZIP_FLAG_COMMENT : Nat := 0x10

/-- The type `ac_buf` as a span of the file: `data` is the offset from `file.data`
(`none` for `NULL`), `size` the byte count. -/
structure ac_buf where
  data : Option Nat
  size : Nat
  deriving DecidableEq, Repr

/-- The packed 10-byte `ac_gzip_header`. -/
structure ac_gzip_header where
  magic : Nat
  compression : Nat
  flags : Nat
  modified_time : Nat
  compression_flags : Nat
  os_id : Nat
  deriving DecidableEq, Repr

/-- The 8-byte `ac_gzip_footer`. -/
structure ac_gzip_footer where
  crc : Nat
  decompressed_size : Nat
  deriving DecidableEq, Repr

/-- The index `ac_gzip`. `buffer` holds the bytes of the original file
buffer; `extra`, `name`, `comment` and `rest` point into it. -/
structure ac_gzip where
  buffer : List Byte
  header : ac_gzip_header
  extra : ac_buf
  name : Option Nat
  comment : Option Nat
  header_crc : Nat
  rest : ac_buf
  footer : ac_gzip_footer
  deriving DecidableEq, Repr

/-- The value `(ac_gzip){}`: every field zero. -/
def ac_gzip_zero : ac_gzip :=
  { buffer := [], header := ⟨0, 0, 0, 0, 0, 0⟩, extra := ⟨none, 0⟩, name := none,
    comment := none, header_crc := 0, rest := ⟨none, 0⟩, footer := ⟨0, 0⟩ }

/-- The function `ac_gzip_magic_match` (lines 107-111). The second `return` of the source,
which compares `file.data[2]` with `AC_GZIP_COMPRESSION_DEFLATE`, follows an
unconditional `return` and is never executed. -/
def ac_gzip_magic_match (file : List Byte) : Except Halt Bool :=
  if file.length < 3 then .ok false
  else
    match load16 file 0 with
    | .error e => .error e
    | .ok m => .ok (m == AC_GZIP_MAGIC)

/-- The value `*header` for `header = (const ac_gzip_header*)file.data` (line 123, read
at line 172). -/
def ac_gzip_header_load (file : List Byte) : Except Halt ac_gzip_header :=
  match load16 file 0, load8 file 2, load8 file 3, load32 file 4, load8 file 8,
      load8 file 9 with
  | .ok magic, .ok compression, .ok flags, .ok mtime, .ok cflags, .ok os =>
    .ok ⟨magic, compression, flags, mtime, cflags, os⟩
  | _, _, _, _, _, _ => .error .oob

/-- The loop `for (; offset < file.size && file.data[offset]; ++offset) {}`
(lines 141 and 151): the value of `offset` when the loop exits. -/
def ac_gzip_init_scan (file : List Byte) (offset : Nat) : Except Halt Nat :=
  if offset < file.length then
    match load8 file offset with
    | .error e => .error e
    | .ok c => if c ≠ 0 then ac_gzip_init_scan file (offset + 1) else .ok offset
  else .ok offset
termination_by file.length - offset

/-- The block `// Extras.` (lines 125-135): new offset and `extra`. -/
def ac_gzip_init_extras (file : List Byte) (flags offset : Nat) :
    Except Halt (Nat × ac_buf) :=
  if flags &&& AC_GZIP_FLAG_EXTRA ≠ 0 then
    if offset + 2 ≥ file.length then .error .ret_false
    else
      match load16 file 0 with
      | .error e => .error e
      | .ok m =>
        let extra_size := (m + offset) % 65536
        let offset := offset + 2
        let extra : ac_buf := ⟨some offset, extra_size⟩
        let offset := offset + extra_size
        if offset ≥ file.length then .error .ret_false else .ok (offset, extra)
  else .ok (offset, ⟨none, 0⟩)

/-- The blocks `// Name.` (lines 137-145, `flag = AC_GZIP_FLAG_NAME`) and
`// Comment.` (lines 147-155, `flag = AC_GZIP_FLAG_COMMENT`), which are the
same code: new offset and the string pointer. -/
def ac_gzip_init_cstr (file : List Byte) (flags flag offset : Nat) :
    Except Halt (Nat × Option Nat) :=
  if flags &&& flag ≠ 0 then
    let p := offset
    match ac_gzip_init_scan file offset with
    | .error e => .error e
    | .ok offset =>
      let offset := offset + 1
      if offset ≥ file.length then .error .ret_false else .ok (offset, some p)
  else .ok (offset, none)

/-- The block `// Header CRC.` (lines 157-163): new offset and `hcrc`. -/
def ac_gzip_init_hcrc (file : List Byte) (flags offset : Nat) :
    Except Halt (Nat × Nat) :=
  if flags &&& AC_GZIP_FLAG_HCRC ≠ 0 then
    if offset + 2 ≥ file.length then .error .ret_false
    else
      match load16 file 0 with
      | .error e => .error e
      | .ok m => .ok (offset + 2, (m + offset) % 65536)
  else .ok (offset, 0)

/-- Lines 117-179 of `ac_gzip_init`: the index stored at line 170, or the way
the run stopped before. -/
def ac_gzip_init_body (file : List Byte) : Except Halt ac_gzip :=
  if file.length < 10 then .error .ret_false
  else
    match ac_gzip_magic_match file with
    | .error e => .error e
    | .ok false => .error .ret_false
    | .ok true =>
      match load8 file 3 with
      | .error e => .error e
      | .ok flags =>
        match ac_gzip_init_extras file flags 10 with
        | .error e => .error e
        | .ok (offset, extra) =>
          match ac_gzip_init_cstr file flags AC_GZIP_FLAG_NAME offset with
          | .error e => .error e
          | .ok (offset, name) =>
            match ac_gzip_init_cstr file flags AC_GZIP_FLAG_COMMENT offset with
            | .error e => .error e
            | .ok (offset, comment) =>
              match ac_gzip_init_hcrc file flags offset with
              | .error e => .error e
              | .ok (offset, hcrc) =>
                if offset ≥ file.length then .error .ret_false
                else
                  match ac_gzip_header_load file with
                  | .error e => .error e
                  | .ok header =>
                    .ok { buffer := file, header := header, extra := extra, name := name,
                          comment := comment, header_crc := hcrc,
                          rest := ⟨some offset, file.length - offset⟩, footer := ⟨0, 0⟩ }

/-- The call `ac_gzip_init(gzip, file)`: the returned `bool` and the final `*gzip`;
`none` when the run loads outside the buffer. The incoming `*gzip` is
overwritten by `(ac_gzip){}` at line 115 before anything else happens, so every
`return false` leaves the zero index. -/
def ac_gzip_init (_gzip : ac_gzip) (file : List Byte) : Option (Bool × ac_gzip) :=
  match ac_gzip_init_body file with
  | .ok g => some (true, g)
  | .error .ret_false => some (false, ac_gzip_zero)
  | .error .oob => none

/-- The byte `b[i]` of a buffer as a number (0 beyond the end). -/
def byte (file : List Byte) (i : Nat) : Nat := (file.getD i 0).val

/-- The bytes a span designates inside the file. -/
def ac_buf_bytes (file : List Byte) (b : ac_buf) : List Byte :=
  match b.data with
  | none => []
  | some off => (file.drop off).take b.size

/-- The C string a `const char*` into the file designates: the bytes from the
pointer up to, not including, the first zero byte. -/
def ac_cstr (file : List Byte) (p : Nat) : List Byte :=
  (file.drop p).takeWhile (fun c => c ≠ 0)

/-- The header record `*(const ac_gzip_header*)file.data` of a buffer of at
least 10 bytes, field by field. -/
def header_of (file : List Byte) : ac_gzip_header :=
  ⟨byte file 0 + 256 * byte file 1, byte file 2, byte file 3,
   byte file 4 + 256 * byte file 5 + 65536 * (byte file 6 + 256 * byte file 7),
   byte file 8, byte file 9⟩

/-- The value of `offset` when line 140 (`name = file.data + offset`) is
reached: where the name field starts for the code. `none` when the extras
block returned before. -/
def ac_gzip_name_offset (file : List Byte) : Option Nat :=
  match ac_gzip_init_extras file (byte file 3) 10 with
  | .ok (offset, _) => some offset
  | .error _ => none

/-- The value of `offset` when line 150 (`comment = file.data + offset`) is
reached: where the comment field starts for the code. `none` when an earlier
block returned before. -/
def ac_gzip_comment_offset (file : List Byte) : Option Nat :=
  match ac_gzip_init_extras file (byte file 3) 10 with
  | .ok (offset, _) =>
    match ac_gzip_init_cstr file (byte file 3) AC_GZIP_FLAG_NAME offset with
    | .ok (offset, _) => some offset
    | .error _ => none
  | .error _ => none

/-- Follows the specification (section 4.2, step 3), not the code: the
offset at which the name field starts in the container format. When the EXTRA
flag is set, a 16-bit little-endian length is read at offset 10, the offset
advances by 2 and then by that length; otherwise the field starts at offset
10. -/
def spec_name_start (file : List Byte) : Nat :=
  if byte file 3 &&& AC_GZIP_FLAG_EXTRA ≠ 0 then 10 + 2 + (byte file 10 + 256 * byte file 11)
  else 10

/-- A buffer of 35640 bytes with the EXTRA and NAME flags: the fixed header
`1f 8b 08 0c 00 00 00 00 00 ff`, the length field `2a 8b` (35626), 35625
bytes `01`, one byte `00` at index 35637, and two bytes `01`. In the container
format the extra field is `[12, 35638)` and the name field starts at 35638. -/
def demo_extra_unterminated : List Byte :=
  [0x1f, 0x8b, 8, 0x0c, 0, 0, 0, 0, 0, 0xff, 0x2a, 0x8b] ++
    (List.replicate 35625 1 ++ [0, 1, 1])

/-- A buffer with no optional field: fixed header `1f 8b 08 01 78 56 34 12 02
03`, then two more bytes. -/
def demo_plain : List Byte := [0x1f, 0x8b, 8, 1, 0x78, 0x56, 0x34, 0x12, 2, 3, 0xaa, 0xbb]

/-- The index `ac_gzip_init` stores for `demo_plain`. -/
def demo_plain_index : ac_gzip :=
  { buffer := demo_plain, header := ⟨0x8b1f, 8, 1, 0x12345678, 2, 3⟩, extra := ⟨none, 0⟩,
    name := none, comment := none, header_crc := 0, rest := ⟨some 10, 2⟩, footer := ⟨0, 0⟩ }

/-- An index none of whose scalar fields is zero, to stand for an arbitrary
earlier content of `*gzip`. -/
def demo_dirty : ac_gzip :=
  { buffer := [1, 2, 3], header := ⟨1, 2, 3, 4, 5, 6⟩, extra := ⟨some 1, 1⟩, name := some 2,
    comment := some 0, header_crc := 7, rest := ⟨some 2, 1⟩, footer := ⟨5, 6⟩ }

/-- Scenario C of the specification: the fixed header with the NAME flag, the
name `"a.txt"` with its terminator at index 15, then two more bytes. -/
def demo_named : List Byte :=
  [0x1f, 0x8b, 8, 8, 0, 0, 0, 0, 0, 0xff, 0x61, 0x2e, 0x74, 0x78, 0x74, 0, 3, 0]

/-- The index `ac_gzip_init` stores for `demo_named`. -/
def demo_named_index : ac_gzip :=
  { buffer := demo_named, header := ⟨0x8b1f, 8, 8, 0, 0, 0xff⟩, extra := ⟨none, 0⟩,
    name := some 10, comment := none, header_crc := 0, rest := ⟨some 16, 2⟩,
    footer := ⟨0, 0⟩ }

end AcGzip

/-! ## The byte list and its allocator (`src/ac_mem.h`)

Conventions.
* A heap block is its address together with its bytes; a `uint8_t*` that is
  not `NULL` is a block.
* An allocator is its two function pointers over a state of some type `α`,
  passed along explicitly; fresh memory holds arbitrary bytes, given by the
  `fill` the allocation function returns with the address.
* `memcpy` outside a block is a trap, not a value.
-/

namespace AcMem

open AcGzip (Byte)

/-- A heap block as a `uint8_t*` sees it: its address and its bytes. -/
structure ac_block where
  addr : Nat
  bytes : List Byte
  deriving DecidableEq, Repr

/-- The type `ac_list(uint8_t)` (lines 301-309). -/
structure ac_list_uint8_t where
  data : Option ac_block
  len : Nat
  cap : Nat
  deriving DecidableEq, Repr

/-- The type `ac_allocator` (lines 205-209) over a state of type `α`. `alloc`
(a function pointer that is not null: `ac_alloc` calls it without a test)
returns `none` for `NULL`, else the address and the content of the fresh
memory; `free` is `none` for a null function pointer and takes the address
passed to it (`none` for `NULL`). -/
structure ac_allocator (α : Type) where
  state : α
  alloc : α → Nat → Option (Nat × (Nat → Byte)) × α
  free : Option (α → Option Nat → α)

/-- The function `ac_alloc` (lines 211-213): the block or `NULL`, and the allocator after
the call. -/
def ac_alloc {α : Type} (a : ac_allocator α) (size : Nat) :
    Option ac_block × ac_allocator α :=
  match a.alloc a.state size with
  | (some (addr, fill), s) => (some ⟨addr, (List.range size).map fill⟩, { a with state := s })
  | (none, s) => (none, { a with state := s })

/-- The function `ac_free` (lines 215-217). -/
def ac_free {α : Type} (a : ac_allocator α) (ptr : Option ac_block) : ac_allocator α :=
  match a.free with
  | some f => { a with state := f a.state (ptr.map (fun b => b.addr)) }
  | none => a

/-- The macro `ac_min` (`src/ac_math.h`, lines 14-19). -/
def ac_min (a b : Nat) : Nat := if a < b then a else b

/-- The call `memcpy(dst, src, n)` on the bytes of two blocks: `none` when `n`
exceeds either block. -/
def ac_memcpy (dst src : List Byte) (n : Nat) : Option (List Byte) :=
  if n ≤ src.length ∧ n ≤ dst.length then some (src.take n ++ dst.drop n) else none

/-- The macro `ac_list_realloc(list_ptr, alloc_ptr, new_cap)` (lines 317-330)
at element type `uint8_t`: the list and the allocator afterwards, or `none`
when the `memcpy` leaves a block. -/
def ac_list_realloc {α : Type} (l : ac_list_uint8_t) (a : ac_allocator α) (new_cap : Nat) :
    Option (ac_list_uint8_t × ac_allocator α) :=
  let element_size := 1
  let r := ac_alloc a (element_size * new_cap)
  let new_len := ac_min l.len new_cap
  let copy_size := element_size * new_len
  let copied : Option (Option ac_block) :=
    match r.1, l.data with
    | some nb, some ob =>
      if copy_size ≠ 0 then
        match ac_memcpy nb.bytes ob.bytes copy_size with
        | some bs => some (some { nb with bytes := bs })
        | none => none
      else some (some nb)
    | nd, _ => some nd
  match copied with
  | none => none
  | some new_data =>
    some ({ data := new_data, len := new_len, cap := new_cap }, ac_free r.2 l.data)

/-- An allocator for examples: its state is the next address and the
addresses freed so far; it hands out blocks filled with `0xee` for requests of
at most `budget` bytes and returns `NULL` for larger ones. -/
def demo_allocator (budget : Nat) : ac_allocator (Nat × List (Option Nat)) :=
  { state := (1000, []),
    alloc := fun s size =>
      if size ≤ budget then (some (s.1, fun _ => 0xee), (s.1 + size + 1, s.2))
      else (none, s),
    free := some (fun s p => (s.1, s.2 ++ [p])) }

/-- An allocator for examples that never fails: its state is the next
address and the addresses freed so far. -/
def demo_malloc : ac_allocator (Nat × List (Option Nat)) :=
  { state := (1000, []),
    alloc := fun s size => (some (s.1, fun _ => 0xee), (s.1 + size + 1, s.2)),
    free := some (fun s p => (s.1, s.2 ++ [p])) }

end AcMem

/-! ## The inflate driver (`src/ac_gzip.h`, lines 183-253)

Conventions.
* The decompressor (miniz, which is not part of the sources here) is a
  parameter: any state machine that, handed the stream, reports a status,
  consumes some input and writes some bytes. The driver enforces what the
  stream counters enforce in C: a call consumes at most `avail_in` bytes and
  writes at most `avail_out` bytes, at `next_out`.
* `next_in` and `next_out` are offsets from `gzip->rest.data` and `out->data`.
* `avail_in` and `avail_out` are the 32-bit fields (`unsigned int`) of the
  decompressor's `mz_stream`: the `size_t` values that lines 196, 198 and 236
  store in them are reduced modulo `2 ^ 32`. `total_in` and `total_out` are
  its `mz_ulong` counters; the driver only reads them.
* The function returns `void`; the model returns the `return` statement taken
  (`inflate_exit`) with the final state, or a `Trap`.
* The loop is run for at most `fuel` iterations.
-/

namespace AcGzip

open AcMem

/-- Status values of the decompressor as the driver tells them apart. -/
inductive mz_status where
  | MZ_OK
  | MZ_STREAM_END
  /-- Any other status value. -/
  | MZ_OTHER (code : Int)
  deriving DecidableEq, Repr

/-- The fields of `mz_stream` the driver sets or reads. `avail_in` and
`avail_out` are 32-bit: every value the driver stores in them is below
`2 ^ 32`. -/
structure mz_stream where
  next_in : Nat
  avail_in : Nat
  total_in : Nat
  next_out : Nat
  avail_out : Nat
  total_out : Nat
  deriving DecidableEq, Repr

/-- What one call of `mz_inflate` does: its status, how many input bytes it
takes, the bytes it writes at `next_out`, and its new internal state. -/
structure mz_reply (σ : Type) where
  status : mz_status
  consumed : Nat
  written : List Byte
  state : σ

/-- Modelled from the spec: the external decompressor, whose code (miniz) is
not under `src/`. Section 6 of the specification: it accepts an input byte span
and an output byte span, and on each invocation reports a status plus running
totals of the bytes consumed and produced. `init` is `mz_inflateInit2`, `step`
is `mz_inflate` (handed the internal state, the input bytes at `next_in` and
the stream counters), `finish` is `mz_inflateEnd`. -/
structure mz_inflater (σ : Type) where
  init : mz_status × σ
  step : σ → List Byte → mz_stream → mz_reply σ
  finish : σ → mz_status

/-- Ways a run of `ac_gzip_inflate` ends without returning. -/
inductive Trap where
  /-- The loop has not exited within the iterations allowed. -/
  | out_of_fuel
  /-- A `memcpy` outside a block. -/
  | bad_copy
  /-- A store of the decompressor outside the output block or through `NULL`. -/
  | bad_store
  /-- A load of the footer outside the bytes of `rest`. -/
  | bad_load
  deriving DecidableEq, Repr

/-- The `return` statements of `ac_gzip_inflate`. -/
inductive inflate_exit where
  /-- Line 185. -/
  | rest_too_short
  /-- Line 204. -/
  | init_failed
  /-- Line 220. -/
  | decode_error
  /-- Line 227. -/
  | input_exhausted
  /-- Line 243. -/
  | end_failed
  /-- Line 250. -/
  | no_footer
  /-- The end of the function, after line 252. -/
  | done
  deriving DecidableEq, Repr

/-- The variables of `ac_gzip_inflate`: `*gzip`, `*out`, the allocator, the
stream, the state of the decompressor, and two counters that are not in the
code: the calls made to the decompressor (`mz_inflateInit2`, `mz_inflate`,
`mz_inflateEnd`) and the regrowths of the output buffer. -/
structure inflate_state (σ α : Type) where
  gzip : ac_gzip
  out : ac_list_uint8_t
  alloc : ac_allocator α
  stream : mz_stream
  dec : σ
  calls : Nat
  grows : Nat

/-- A store of the bytes `w` at offset `off` of the block `data`: `none` when
it leaves the block or goes through `NULL`. Storing nothing touches nothing. -/
def mz_store (data : Option ac_block) (off : Nat) (w : List Byte) : Option (Option ac_block) :=
  if w = [] then some data
  else
    match data with
    | none => none
    | some b =>
      if off + w.length ≤ b.bytes.length then
        some (some { b with bytes := b.bytes.take off ++ w ++ b.bytes.drop (off + w.length) })
      else none

/-- The call `mz_inflate(&stream, MZ_SYNC_FLUSH)` (line 210): the status, and
the state with the stream counters advanced and the written bytes stored. -/
def mz_inflate {σ α : Type} (D : mz_inflater σ) (st : inflate_state σ α) :
    Except Trap (mz_status × inflate_state σ α) :=
  let s := st.stream
  let input := ((ac_buf_bytes st.gzip.buffer st.gzip.rest).drop s.next_in).take s.avail_in
  let r := D.step st.dec input s
  let c := min r.consumed s.avail_in
  let w := r.written.take s.avail_out
  match mz_store st.out.data s.next_out w with
  | none => .error .bad_store
  | some data =>
    .ok (r.status,
      { st with
        out := { st.out with data := data }
        stream := { next_in := s.next_in + c, avail_in := s.avail_in - c,
                    total_in := s.total_in + c, next_out := s.next_out + w.length,
                    avail_out := s.avail_out - w.length, total_out := s.total_out + w.length }
        dec := r.state
        calls := st.calls + 1 })

/-- The block `// Output is full. Reallocate.` (lines 231-237), entered when
`stream.avail_out` is 0. Line 236 stores `out->cap - offset` in the 32-bit
field `avail_out`. -/
def ac_gzip_inflate_regrow {σ α : Type} (st : inflate_state σ α) :
    Except Trap (inflate_state σ α) :=
  let out := { st.out with len := st.out.cap }
  let offset := out.cap
  match ac_list_realloc out st.alloc (2 * out.cap) with
  | none => .error .bad_copy
  | some (out, alloc) =>
    .ok { st with
          out := out
          alloc := alloc
          stream := { st.stream with next_out := offset,
                                     avail_out := (out.cap - offset) % 4294967296 }
          grows := st.grows + 1 }

/-- The loop `while (true)` (lines 208-238), for at most `fuel` iterations:
`none` with the state when it is left by `break`, or the `return` taken. -/
def ac_gzip_inflate_loop {σ α : Type} (D : mz_inflater σ) :
    Nat → inflate_state σ α → Except Trap (Option inflate_exit × inflate_state σ α)
  | 0, _ => .error .out_of_fuel
  | fuel + 1, st =>
    match mz_inflate D st with
    | .error t => .error t
    | .ok (status, st) =>
      if status = .MZ_STREAM_END then .ok (none, st)
      else if status ≠ .MZ_OK then
        .ok (some .decode_error, { st with calls := st.calls + 1 })
      else if st.stream.avail_in = 0 then
        .ok (some .input_exhausted, { st with calls := st.calls + 1 })
      else if st.stream.avail_out = 0 then
        match ac_gzip_inflate_regrow st with
        | .error t => .error t
        | .ok st => ac_gzip_inflate_loop D fuel st
      else ac_gzip_inflate_loop D fuel st

/-- The part `// Finish up.` (lines 240-252), reached by `break`. -/
def ac_gzip_inflate_finish {σ α : Type} (D : mz_inflater σ) (st : inflate_state σ α) :
    Except Trap (inflate_exit × inflate_state σ α) :=
  let st := { st with calls := st.calls + 1 }
  if D.finish st.dec ≠ .MZ_OK then .ok (.end_failed, st)
  else
    let st := { st with out := { st.out with len := st.stream.total_out } }
    if st.stream.total_in + 8 > st.gzip.rest.size then .ok (.no_footer, st)
    else
      let rest := ac_buf_bytes st.gzip.buffer st.gzip.rest
      match load32 rest st.stream.total_in, load32 rest (st.stream.total_in + 4) with
      | .ok crc, .ok size =>
        .ok (.done, { st with gzip := { st.gzip with footer := ⟨crc, size⟩ } })
      | _, _ => .error .bad_load

/-- The state in which the loop is entered (lines 187-198): `out->len = 0`,
the first allocation, and the stream bound to `rest` and to the output. Lines
196 and 198 store `rest.size` and `out->cap` in the 32-bit fields `avail_in`
and `avail_out`. -/
def ac_gzip_inflate_start {σ α : Type} (D : mz_inflater σ) (gzip : ac_gzip)
    (out : ac_list_uint8_t) (alloc : ac_allocator α) : Except Trap (inflate_state σ α) :=
  let out := { out with len := 0 }
  let grown :=
    if out.cap < 2 * gzip.rest.size then ac_list_realloc out alloc (2 * gzip.rest.size)
    else some (out, alloc)
  match grown with
  | none => .error .bad_copy
  | some (out, alloc) =>
    .ok { gzip := gzip, out := out, alloc := alloc,
          stream := { next_in := 0, avail_in := gzip.rest.size % 4294967296, total_in := 0,
                      next_out := 0, avail_out := out.cap % 4294967296, total_out := 0 },
          dec := D.init.2, calls := 1, grows := 0 }

/-- The function `ac_gzip_inflate(gzip, out, alloc)` with the decompressor `D`, its loop
run for at most `fuel` iterations: the `return` taken and the final state. -/
def ac_gzip_inflate {σ α : Type} (fuel : Nat) (D : mz_inflater σ) (gzip : ac_gzip)
    (out : ac_list_uint8_t) (alloc : ac_allocator α) :
    Except Trap (inflate_exit × inflate_state σ α) :=
  if gzip.rest.size < 8 then
    .ok (.rest_too_short,
      { gzip := gzip, out := out, alloc := alloc, stream := ⟨0, 0, 0, 0, 0, 0⟩,
        dec := D.init.2, calls := 0, grows := 0 })
  else
    match ac_gzip_inflate_start D gzip out alloc with
    | .error t => .error t
    | .ok st =>
      if D.init.1 ≠ .MZ_OK then .ok (.init_failed, st)
      else
        match ac_gzip_inflate_loop D fuel st with
        | .error t => .error t
        | .ok (some e, st) => .ok (e, st)
        | .ok (none, st) => ac_gzip_inflate_finish D st

/-- The length the output list has at any point of the loop: 0 before the
first regrowth, half the capacity after one. -/
def len_policy {σ α : Type} (st : inflate_state σ α) : Prop :=
  (st.grows = 0 → st.out.len = 0) ∧ (st.grows ≠ 0 → st.out.cap = 2 * st.out.len)

/-- One byte folded into a CRC-32 register, bit by bit, with the reflected
polynomial `0xEDB88320`. -/
def crc32_byte (c : Nat) (b : Byte) : Nat :=
  (List.range 8).foldl (fun c _ => if c % 2 = 1 then (c / 2) ^^^ 0xEDB88320 else c / 2)
    (c ^^^ b.val)

/-- Modelled from the spec: the CRC32 of the gzip container format that the
footer declares (specification, sections 3 and 4.3 step 8). The sources under
`src/` compute no checksum; this definition only serves to state what the
claims say about one. -/
def crc32 (x : List Byte) : Nat := (x.foldl crc32_byte 0xFFFFFFFF) ^^^ 0xFFFFFFFF

/-- What of a run of `ac_gzip_inflate` does not involve the values of the
output bytes: the `return` taken, the index, the length and capacity of the
output list, the stream counters and the two counters of calls and regrowths. -/
def inflate_outcome {σ α : Type} (r : Except Trap (inflate_exit × inflate_state σ α)) :
    Except Trap (inflate_exit × ac_gzip × Nat × Nat × mz_stream × Nat × Nat) :=
  match r with
  | .error t => .error t
  | .ok (e, st) => .ok (e, st.gzip, st.out.len, st.out.cap, st.stream, st.calls, st.grows)

/-- The little-endian 32-bit value of the four bytes of `rest` from offset `i`. -/
def rest_le32 (gzip : ac_gzip) (i : Nat) : Nat :=
  byte (ac_buf_bytes gzip.buffer gzip.rest) i
    + 256 * byte (ac_buf_bytes gzip.buffer gzip.rest) (i + 1)
    + 65536 * byte (ac_buf_bytes gzip.buffer gzip.rest) (i + 2)
    + 16777216 * byte (ac_buf_bytes gzip.buffer gzip.rest) (i + 3)

/-- The reply of a call of `mz_inflate` (line 210) made in the internal state
`s` with the stream `v`, when `inp` are the bytes of `rest`: the decompressor
is handed the `avail_in` bytes at `next_in`. -/
def mz_call {σ : Type} (D : mz_inflater σ) (inp : List Byte) (s : σ) (v : mz_stream) :
    mz_reply σ :=
  D.step s ((inp.drop v.next_in).take v.avail_in) v

/-- The stream as a call of `mz_inflate` that consumed `c` bytes and wrote `n`
bytes leaves it. -/
def mz_advance (v : mz_stream) (c n : Nat) : mz_stream :=
  { next_in := v.next_in + c, avail_in := v.avail_in - c, total_in := v.total_in + c,
    next_out := v.next_out + n, avail_out := v.avail_out - n, total_out := v.total_out + n }

/-- The behaviour of the decompressor `D` on the input `inp` over the
configurations `I` (an internal state with a stream): in a configuration of
`I` with input and output space left and at most `|x|` bytes produced, the
call of `mz_inflate` (1) reports `MZ_OK` or `MZ_STREAM_END`, (2) writes, in the
space it is handed, the bytes of `x` that follow the first `total_out`, (3)
reports `MZ_STREAM_END` only with all of `x` written, and then `mz_inflateEnd`
reports `MZ_OK`, and (4) when it reports `MZ_OK` leaves input unconsumed, has
written or consumed at least one byte, and the configuration it leaves is in
`I` again. `I` is also kept when the driver, the output space used up, hands
over as much space again as is filled (the regrowth of lines 231-237). -/
def mz_produces_within {σ : Type} (I : σ → mz_stream → Prop) (D : mz_inflater σ)
    (inp x : List Byte) : Prop :=
  (∀ (s : σ) (v : mz_stream), I s v → v.avail_out = 0 →
    I s { v with avail_out := v.next_out }) ∧
  ∀ (s : σ) (v : mz_stream), I s v →
    0 < v.avail_in → 0 < v.avail_out → v.total_out ≤ x.length →
    ((mz_call D inp s v).status = .MZ_OK ∨ (mz_call D inp s v).status = .MZ_STREAM_END) ∧
    (mz_call D inp s v).written.take v.avail_out =
      (x.drop v.total_out).take ((mz_call D inp s v).written.take v.avail_out).length ∧
    ((mz_call D inp s v).status = .MZ_STREAM_END →
      v.total_out + ((mz_call D inp s v).written.take v.avail_out).length = x.length ∧
      D.finish (mz_call D inp s v).state = .MZ_OK) ∧
    ((mz_call D inp s v).status = .MZ_OK →
      (mz_call D inp s v).consumed < v.avail_in ∧
      (0 < ((mz_call D inp s v).written.take v.avail_out).length ∨
        0 < (mz_call D inp s v).consumed) ∧
      I (mz_call D inp s v).state
        (mz_advance v (mz_call D inp s v).consumed
          ((mz_call D inp s v).written.take v.avail_out).length))

/-- The decompressor `D`, run on the input `inp` with first `avail_in` bytes
of input and `avail_out` bytes of output space, produces the byte sequence
`x` without ever failing: `mz_inflateInit2` reports `MZ_OK`, and over the
configurations the run goes through (some set `I` that holds the first one)
it behaves as `mz_produces_within` says, so that stream-complete comes after
finitely many calls and before the input runs out. Nothing is asked of the
decompressor on inputs, states or streams the run does not meet. -/
def mz_produces {σ : Type} (D : mz_inflater σ) (inp : List Byte) (avail_in avail_out : Nat)
    (x : List Byte) : Prop :=
  D.init.1 = .MZ_OK ∧
  ∃ I : σ → mz_stream → Prop,
    I D.init.2 ⟨0, avail_in, 0, 0, avail_out, 0⟩ ∧ mz_produces_within I D inp x

/-- The invariant of the loop under a decompressor that produces `x` and an
allocator that never fails: the output block holds `cap` bytes, the output
cursor and the space left add up to `cap`, the cursor is at `total_out`, the
first `total_out` bytes of the block are those of `x`, and there is input and
output space left. -/
def loop_inv {σ α : Type} (x : List Byte) (st : inflate_state σ α) : Prop :=
  (∀ s n, (st.alloc.alloc s n).1 ≠ none) ∧
  ∃ b, st.out.data = some b ∧ b.bytes.length = st.out.cap ∧
    st.stream.next_out + st.stream.avail_out = st.out.cap ∧
    st.stream.next_out = st.stream.total_out ∧
    b.bytes.take st.stream.total_out = x.take st.stream.total_out ∧
    st.stream.total_out ≤ x.length ∧ 0 < st.stream.avail_in ∧ 0 < st.stream.avail_out

/-- The address and size of a block, or `NULL`: what is left of a `uint8_t*`
when the values of the bytes are set aside. -/
def block_shape (d : Option ac_block) : Option (Nat × Nat) :=
  d.map (fun b => (b.addr, b.bytes.length))

/-- Two decompressors that behave alike but for the values of the bytes they
write: same statuses, same counts of bytes consumed and written, same
internal states. -/
def mz_alike {σ : Type} (D1 D2 : mz_inflater σ) : Prop :=
  D1.init = D2.init ∧ (∀ s, D1.finish s = D2.finish s) ∧
  ∀ (s : σ) (inp : List Byte) (v : mz_stream),
    (D1.step s inp v).status = (D2.step s inp v).status ∧
    (D1.step s inp v).consumed = (D2.step s inp v).consumed ∧
    (D1.step s inp v).written.length = (D2.step s inp v).written.length ∧
    (D1.step s inp v).state = (D2.step s inp v).state

/-- Two states that differ at most in the values of the bytes of the output
block. -/
def state_alike {σ α : Type} (s1 s2 : inflate_state σ α) : Prop :=
  s1.gzip = s2.gzip ∧ s1.out.len = s2.out.len ∧ s1.out.cap = s2.out.cap ∧
  block_shape s1.out.data = block_shape s2.out.data ∧ s1.alloc = s2.alloc ∧
  s1.stream = s2.stream ∧ s1.dec = s2.dec ∧ s1.calls = s2.calls ∧ s1.grows = s2.grows

/-- Two results that are the same trap, or two values related by `R`. -/
def result_alike {A : Type} (R : A → A → Prop) : Except Trap A → Except Trap A → Prop
  | .error t1, .error t2 => t1 = t2
  | .ok a1, .ok a2 => R a1 a2
  | _, _ => False

/-- A decompressor for examples that plays a script: each call of `mz_inflate`
takes the next entry (status, input bytes consumed, bytes written); past the
script it reports an error. `mz_inflateInit2` and `mz_inflateEnd` report the
statuses given. -/
def scripted_inflater (init_status end_status : mz_status)
    (script : List (mz_status × Nat × List Byte)) :
    mz_inflater (List (mz_status × Nat × List Byte)) :=
  { init := (init_status, script),
    step := fun s _ _ =>
      match s with
      | [] => ⟨.MZ_OTHER (-5), 0, [], []⟩
      | (status, consumed, written) :: tl => ⟨status, consumed, written, tl⟩,
    finish := fun _ => end_status }

/-- A decompressor for examples that produces the bytes `x` from a compressed
stream of `used` bytes: each call writes as much of the rest of `x` as the
output space takes, and the call that writes the last byte of `x` consumes the
input up to `used` and reports `MZ_STREAM_END`. -/
def chunk_inflater (x : List Byte) (used : Nat) : mz_inflater Unit :=
  { init := (.MZ_OK, ()),
    step := fun _ _ s =>
      let w := (x.drop s.total_out).take s.avail_out
      if s.total_out + w.length = x.length then ⟨.MZ_STREAM_END, used - s.total_in, w, ()⟩
      else ⟨.MZ_OK, 0, w, ()⟩,
    finish := fun _ => .MZ_OK }

/-- An index whose `rest` is the 10 bytes `03 00` (an empty DEFLATE stream)
and a footer declaring CRC32 `0x04030201` and size `0x08070605`. -/
def demo_index : ac_gzip :=
  { buffer := [0x1f, 0x8b, 8, 0, 0, 0, 0, 0, 0, 0xff, 3, 0, 1, 2, 3, 4, 5, 6, 7, 8],
    header := ⟨0x8b1f, 8, 0, 0, 0, 0xff⟩, extra := ⟨none, 0⟩, name := none, comment := none,
    header_crc := 0, rest := ⟨some 10, 10⟩, footer := ⟨0, 0⟩ }

/-- An index whose `rest` is exactly 8 bytes: a footer and no payload. -/
def demo_index_bare : ac_gzip :=
  { buffer := [0x1f, 0x8b, 8, 0, 0, 0, 0, 0, 0, 0xff, 1, 2, 3, 4, 5, 6, 7, 8],
    header := ⟨0x8b1f, 8, 0, 0, 0, 0xff⟩, extra := ⟨none, 0⟩, name := none, comment := none,
    header_crc := 0, rest := ⟨some 10, 8⟩, footer := ⟨0, 0⟩ }

/-- An index whose `rest` is 7 bytes, less than a footer. -/
def demo_index_short : ac_gzip :=
  { buffer := [0x1f, 0x8b, 8, 0, 0, 0, 0, 0, 0, 0xff, 1, 2, 3, 4, 5, 6, 7],
    header := ⟨0x8b1f, 8, 0, 0, 0, 0xff⟩, extra := ⟨none, 0⟩, name := none, comment := none,
    header_crc := 0, rest := ⟨some 10, 7⟩, footer := ⟨0, 0⟩ }

/-- An output list in use: a block of 4 bytes at address 500, 3 of them in
the list. -/
def demo_out : ac_list_uint8_t := ⟨some ⟨500, [1, 2, 3, 4]⟩, 3, 4⟩

/-- A state of the loop for examples: the index `demo_index`, an output block
of capacity 4 with nothing written, 10 input bytes, and a decompressor about
to write the 4 bytes `09 08 07 06` with one input byte consumed. -/
def demo_state :
    inflate_state (List (mz_status × Nat × List Byte)) (Nat × List (Option Nat)) :=
  { gzip := demo_index, out := ⟨some ⟨500, [1, 2, 3, 4]⟩, 0, 4⟩, alloc := demo_allocator 100,
    stream := ⟨0, 10, 0, 0, 4, 0⟩,
    dec := [(.MZ_OK, 1, [9, 8, 7, 6]), (.MZ_STREAM_END, 1, [5])], calls := 1, grows := 0 }

/-- A script for examples: a first call that consumes one byte, writes 20
bytes `61` and reports `MZ_OK`, and a second call that consumes one byte,
writes the byte `62` and reports `MZ_STREAM_END`. -/
def demo_script : List (mz_status × Nat × List Byte) :=
  [(.MZ_OK, 1, List.replicate 20 0x61), (.MZ_STREAM_END, 1, [0x62])]

/-- The configurations that a run of `demo_script` on 10 bytes of input meets
from 20 bytes of output space: the first one, the one its first call leaves
(the output space used up), and the one after the regrowth. -/
def demo_script_cfg (s : List (mz_status × Nat × List Byte)) (v : mz_stream) : Prop :=
  (s = demo_script ∧ v = ⟨0, 10, 0, 0, 20, 0⟩) ∨
  (s = demo_script.tail ∧ v = ⟨1, 9, 1, 20, 0, 20⟩) ∨
  (s = demo_script.tail ∧ v = ⟨1, 9, 1, 20, 20, 20⟩)

/-- An output list whose block holds `2 ^ 32` bytes, all of them capacity. -/
def demo_out_4g : ac_list_uint8_t :=
  ⟨some ⟨500, List.replicate 4294967296 0⟩, 0, 4294967296⟩

/-- The state in which the loop is entered on `demo_index` with the output
list `demo_out_4g`: the capacity `2 ^ 32` is kept, and line 198 leaves 0 in
the 32-bit field `avail_out`. The decompressor is about to consume one byte,
write nothing and report `MZ_OK`. -/
def demo_state_4g :
    inflate_state (List (mz_status × Nat × List Byte)) (Nat × List (Option Nat)) :=
  { gzip := demo_index, out := demo_out_4g, alloc := demo_malloc,
    stream := ⟨0, 10, 0, 0, 0, 0⟩, dec := [(.MZ_OK, 1, [])], calls := 1, grows := 0 }

end AcGzip

/-! ## The allocator-backed list of `src/ac_alloc.h`

`ac_lista(T)` is a list that carries its allocator. The heap and whatever an
allocator's `state` points to form the world `ω`, passed through every call
that may allocate or release. A list owns its block, so the block's elements
travel with the list value. Sizes are natural numbers: no object of `2 ^ 64`
bytes exists, so the `size_t` products and sums here do not wrap, as long as
the capacity asked for is one whose byte size is a `size_t`. For other
capacities `ac_lista_realloc_wrap` follows the macro with its products
reduced modulo `2 ^ 64`. -/

namespace AcAlloc

/-- A block of elements of type `τ` in the heap: its address and what it
holds. -/
structure ac_array (τ : Type) where
  addr : Nat
  elems : List τ
  deriving DecidableEq, Repr

/-- The memory block `ac_mem` (lines 14-17): `data` is an address or NULL. -/
structure ac_mem where
  data : Option Nat
  cap : Nat
  deriving DecidableEq, Repr

/-- The struct `ac_allocator2` (lines 26-30): a state pointer and two function
pointers, each of which may be NULL. The functions act on the world. -/
structure ac_allocator2 (ω : Type) where
  state : Option Nat
  alloc : Option (Option Nat → Nat → ω → ac_mem × ω)
  free : Option (Option Nat → ac_mem → ω → ω)

/-- The function `ac_allocator2_is_empty` (lines 32-34). -/
def ac_allocator2_is_empty {ω : Type} (a : ac_allocator2 ω) : Bool :=
  a.state.isNone && a.alloc.isNone && a.free.isNone

/-- The function `ac_alloc2` (lines 36-39): the zero block when `alloc` is
NULL. -/
def ac_alloc2 {ω : Type} (a : ac_allocator2 ω) (cap : Nat) (w : ω) : ac_mem × ω :=
  match a.alloc with
  | some f => f a.state cap w
  | none => (⟨none, 0⟩, w)

/-- The function `ac_free2` (lines 41-43): nothing when `free` is NULL. -/
def ac_free2 {ω : Type} (a : ac_allocator2 ω) (m : ac_mem) (w : ω) : ω :=
  match a.free with
  | some f => f a.state m w
  | none => w

/-- What the code takes from outside the repository: `malloc` and `free` of
the C library, the size of the element type, and the content of memory that
was allocated and not yet written (`junk p i` is element `i` of the block at
`p`). -/
structure ac_env (ω τ : Type) where
  malloc : Nat → ω → Option Nat × ω
  free : Nat → ω → ω
  junk : Nat → Nat → τ
  element_size : Nat
  element_size_pos : 0 < element_size

/-- The function `ac_sys_malloc` (lines 49-52). -/
def ac_sys_malloc {ω τ : Type} (env : ac_env ω τ) (_state : Option Nat) (cap : Nat)
    (w : ω) : ac_mem × ω :=
  (⟨(env.malloc cap w).1, cap⟩, (env.malloc cap w).2)

/-- The function `ac_sys_free` (lines 54-57). -/
def ac_sys_free {ω τ : Type} (env : ac_env ω τ) (_state : Option Nat) (m : ac_mem)
    (w : ω) : ω :=
  match m.data with
  | some p => env.free p w
  | none => w

/-- The function `ac_mallocator2` (lines 59-64): `state` is left NULL. -/
def ac_mallocator2 {ω τ : Type} (env : ac_env ω τ) : ac_allocator2 ω :=
  { state := none, alloc := some (ac_sys_malloc env), free := some (ac_sys_free env) }

/-- The struct `ac_lista(T)` (lines 72-79). -/
structure ac_lista (ω τ : Type) where
  alloc : ac_allocator2 ω
  data : Option (ac_array τ)
  len : Nat
  cap : Nat

/-- The macro `ac_lista_mem` (lines 82-83). -/
def ac_lista_mem {ω τ : Type} (l : ac_lista ω τ) : ac_mem :=
  ⟨l.data.map (fun b => b.addr), l.cap⟩

/-- The macro `ac_lista_free` (lines 86-87). -/
def ac_lista_free {ω τ : Type} (l : ac_lista ω τ) (w : ω) : ω :=
  ac_free2 l.alloc (ac_lista_mem l) w

/-- The call `memcpy(dst, src, n * sizeof(T))`: `none` when `n` elements are
not there to read or to write. -/
def ac_memcpy {τ : Type} (dst src : List τ) (n : Nat) : Option (List τ) :=
  if n ≤ src.length ∧ n ≤ dst.length then some (src.take n ++ dst.drop n) else none

/-- The allocator a list holds once `ac_lista_realloc` has passed its first
statement (lines 95-97). -/
def ac_lista_allocator {ω τ : Type} (env : ac_env ω τ) (l : ac_lista ω τ) :
    ac_allocator2 ω :=
  if ac_allocator2_is_empty l.alloc && l.data.isNone then ac_mallocator2 env else l.alloc

/-- The macro `ac_lista_realloc` (lines 93-115), for a capacity whose byte
size `element_size * new_cap` is a `size_t` (there it is
`ac_lista_realloc_wrap`). The result is `none` when the `memcpy` leaves a
block. -/
def ac_lista_realloc {ω τ : Type} (env : ac_env ω τ) (l : ac_lista ω τ) (new_cap : Nat)
    (w : ω) : Option (ac_lista ω τ × ω) :=
  let alloc := ac_lista_allocator env l
  let element_size := env.element_size
  let r := ac_alloc2 alloc (element_size * new_cap) w
  match r.1.data with
  | none => some ({ l with alloc := alloc }, r.2)
  | some p =>
    let fresh : List τ := (List.range new_cap).map (env.junk p)
    let len := l.len
    let new_len := if len < new_cap then len else new_cap
    let copy_size := element_size * new_len
    let copied : Option (List τ) :=
      match l.data with
      | some ob => if copy_size ≠ 0 then ac_memcpy fresh ob.elems new_len else some fresh
      | none => some fresh
    match copied with
    | none => none
    | some es =>
      some ({ alloc := alloc, data := some ⟨p, es⟩, len := new_len, cap := new_cap },
        ac_free2 alloc (ac_lista_mem l) r.2)

/-- The macro `ac_lista_realloc` (lines 93-115) for any `new_cap` that is a
`size_t`, with its two `size_t` products (lines 101 and 106) reduced modulo
`2 ^ 64`. The block obtained for `size` bytes holds `size / element_size`
whole elements, whatever `new_cap` is. The result is `none` when the `memcpy`
leaves a block, or copies a part of an element. -/
def ac_lista_realloc_wrap {ω τ : Type} (env : ac_env ω τ) (l : ac_lista ω τ) (new_cap : Nat)
    (w : ω) : Option (ac_lista ω τ × ω) :=
  let alloc := ac_lista_allocator env l
  let element_size := env.element_size
  let size := (element_size * new_cap) % 18446744073709551616
  let r := ac_alloc2 alloc size w
  match r.1.data with
  | none => some ({ l with alloc := alloc }, r.2)
  | some p =>
    let fresh : List τ := (List.range (size / element_size)).map (env.junk p)
    let len := l.len
    let new_len := if len < new_cap then len else new_cap
    let copy_size := (element_size * new_len) % 18446744073709551616
    let copied : Option (List τ) :=
      match l.data with
      | some ob =>
        if copy_size ≠ 0 then
          if copy_size % element_size = 0 then
            ac_memcpy fresh ob.elems (copy_size / element_size)
          else none
        else some fresh
      | none => some fresh
    match copied with
    | none => none
    | some es =>
      some ({ alloc := alloc, data := some ⟨p, es⟩, len := new_len, cap := new_cap },
        ac_free2 alloc (ac_lista_mem l) r.2)

/-- A pointer to an element: the block it points into (NULL when `none`) and
the index. `NULL` itself is `⟨none, 0⟩`. -/
structure ac_ptr where
  base : Option Nat
  index : Nat
  deriving DecidableEq, Repr

/-- The capacity `ac_lista_next_exg` asks for when it grows the list (lines
123-124). -/
def ac_lista_next_cap {ω τ : Type} (m b min_cap : Nat) (l : ac_lista ω τ) : Nat :=
  let new_cap_raw := l.cap * m + b
  if new_cap_raw ≠ 0 then new_cap_raw else min_cap

/-- The macro `ac_lista_next_exg` (lines 120-135): the pointer it evaluates
to, the list and the world. -/
def ac_lista_next_exg {ω τ : Type} (env : ac_env ω τ) (m b min_cap : Nat)
    (l : ac_lista ω τ) (w : ω) : Option (ac_ptr × ac_lista ω τ × ω) :=
  let grown : Option (ac_lista ω τ × ω) :=
    if l.len ≥ l.cap then ac_lista_realloc env l (ac_lista_next_cap m b min_cap l) w
    else some (l, w)
  match grown with
  | none => none
  | some (l1, w1) =>
    if l1.len < l1.cap then
      some (⟨l1.data.map (fun b => b.addr), l1.len⟩, { l1 with len := l1.len + 1 }, w1)
    else some (⟨none, 0⟩, l1, w1)

/-- The macro `ac_lista_next_ex` (line 140). -/
def ac_lista_next_ex {ω τ : Type} (env : ac_env ω τ) (l : ac_lista ω τ) (w : ω) :
    Option (ac_ptr × ac_lista ω τ × ω) :=
  ac_lista_next_exg env 2 0 1 l w

/-- A list whose `data` and `cap` agree: no block and no capacity, or a block
of `cap` elements. -/
def ac_lista_wf {ω τ : Type} (l : ac_lista ω τ) : Prop :=
  match l.data with
  | none => l.cap = 0
  | some b => b.elems.length = l.cap

/-- The elements of a list: the first `len` of its block. -/
def ac_lista_elems {ω τ : Type} (l : ac_lista ω τ) : List τ :=
  match l.data with
  | none => []
  | some b => b.elems.take l.len

/-- An allocator that gives a block for every request. -/
def ac_alloc2_succeeds {ω : Type} (a : ac_allocator2 ω) : Prop :=
  ∀ n w, (ac_alloc2 a n w).1.data ≠ none

/-- An allocator that gives no block at all. -/
def ac_alloc2_fails {ω : Type} (a : ac_allocator2 ω) : Prop :=
  ∀ n w, (ac_alloc2 a n w).1.data = none

/-- A world for examples: the next free address and the addresses released so
far. -/
abbrev demo_world : Type := Nat × List Nat

/-- An environment for examples over bytes: `malloc` hands out addresses in
order and fails above `budget` bytes, `free` records the address, fresh
memory holds `0xAA`. -/
def demo_env (budget : Nat) : ac_env demo_world (Fin 256) :=
  { malloc := fun n w => if n ≤ budget then (some w.1, (w.1 + n + 1, w.2)) else (none, w),
    free := fun p w => (w.1, p :: w.2),
    junk := fun _ _ => 0xAA,
    element_size := 1,
    element_size_pos := Nat.one_pos }

/-- The zero allocator `(ac_allocator2){}`. -/
def ac_allocator2_zero {ω : Type} : ac_allocator2 ω := ⟨none, none, none⟩

/-- A list of three bytes in a block of three at address 500, with the
`malloc` allocator of `demo_env budget`. -/
def demo_lista (budget : Nat) : ac_lista demo_world (Fin 256) :=
  ⟨ac_mallocator2 (demo_env budget), some ⟨500, [1, 2, 3]⟩, 3, 3⟩

/-- An environment for examples over 8-byte elements (`uint64_t`, as numbers):
`malloc` and `free` as in `demo_env`, fresh memory holds 0. -/
def demo_env_u64 (budget : Nat) : ac_env demo_world Nat :=
  { malloc := fun n w => if n ≤ budget then (some w.1, (w.1 + n + 1, w.2)) else (none, w),
    free := fun p w => (w.1, p :: w.2),
    junk := fun _ _ => 0,
    element_size := 8,
    element_size_pos := by decide }

/-- A list of three 8-byte elements in a block of three at address 500, with
the `malloc` allocator of `demo_env_u64 budget`. -/
def demo_lista_u64 (budget : Nat) : ac_lista demo_world Nat :=
  ⟨ac_mallocator2 (demo_env_u64 budget), some ⟨500, [1, 2, 3]⟩, 3, 3⟩

end AcAlloc

/-! ## The string of `src/ac_str.h`

`ac_str` is `ac_lista(char)`. A `char` is a byte. The text that `snprintf`
makes of its format and arguments is the input `t` of the model. Here the code
adds an `int` to a `size_t`, so these sums are taken modulo `2 ^ 64`. -/

namespace AcStr

open AcAlloc

/-- The type `ac_str` (line 10). -/
abbrev ac_str (ω : Type) : Type := ac_lista ω (Fin 256)

/-- The function `ac_str_init` (lines 32-34). -/
def ac_str_init {ω : Type} (alloc : ac_allocator2 ω) : ac_str ω := ⟨alloc, none, 0, 0⟩

/-- The function `ac_str_free` (lines 36-39). -/
def ac_str_free {ω : Type} (s : ac_str ω) (w : ω) : ac_str ω × ω :=
  (⟨ac_allocator2_zero, none, 0, 0⟩, ac_free2 s.alloc (ac_lista_mem s) w)

/-- The constant `INT_MAX` of a 32-bit `int`. -/
def INT_MAX : Nat := 2147483647

/-- The number of values of a `size_t`. -/
def SIZE_MOD : Nat := 18446744073709551616

/-- The C library's `snprintf(dst + off, size, ...)` for a format and
arguments that make the text `t`, as ISO C describes it: with `size = 0`
nothing is written; otherwise the first `size - 1` characters of `t` and a
NUL; the value is the length of `t`, or negative when that is no `int`. The
result is `none` when a character is written outside the block. -/
def snprintf (dst : Option (ac_array (Fin 256))) (off size : Nat) (t : List (Fin 256)) :
    Option (Option (ac_array (Fin 256)) × Int) :=
  if INT_MAX < t.length then some (dst, -1)
  else if size = 0 then some (dst, (t.length : Int))
  else
    match dst with
    | none => none
    | some b =>
      let out := t.take (size - 1) ++ [0]
      if off + out.length ≤ b.elems.length then
        some (some ⟨b.addr, b.elems.take off ++ out ++ b.elems.drop (off + out.length)⟩,
          (t.length : Int))
      else none

/-- The capacity `ac_to_str` asks for when it grows a string of capacity `cap`
(lines 64-66). `printed` is what the first `snprintf` returned. -/
def ac_to_str_cap (cap : Nat) (printed : Int) : Nat :=
  let fit_cap := (((cap : Int) + printed + 1) % (SIZE_MOD : Int)).toNat
  let grow_cap := (2 * cap) % SIZE_MOD
  if fit_cap > grow_cap then fit_cap else grow_cap

/-- The second half of the macro `ac_to_str` (lines 64-79): grow the string
and print again. `printed` is what the first `snprintf` returned. -/
def ac_to_str_grow {ω : Type} (env : ac_env ω (Fin 256)) (s : ac_str ω) (printed : Int)
    (t : List (Fin 256)) (w : ω) : Option (Int × ac_str ω × ω) :=
  let cap := ac_to_str_cap s.cap printed
  match ac_lista_realloc env s cap w with
  | none => none
  | some (s1, w1) =>
    if s1.cap > s1.len then
      let size := s1.cap - s1.len
      match snprintf s1.data s1.len size t with
      | none => none
      | some (d, printed1) =>
        if 0 ≤ printed1 ∧ printed1 < (size : Int) then
          some (printed1, { s1 with data := d, len := s1.len + printed1.toNat }, w1)
        else some (0, { s1 with data := d }, w1)
    else some (printed, s1, w1)

/-- The macro `ac_to_str` (lines 46-81) for a format and arguments that make
the text `t`: the value of the expression, the string and the world.
`print_max` is the constant `AC_PRINT_MAX` (lines 18-22), which is `RSIZE_MAX`
or `INT_MAX` as the platform has it. -/
def ac_to_str {ω : Type} (env : ac_env ω (Fin 256)) (print_max : Nat) (s : ac_str ω)
    (t : List (Fin 256)) (w : ω) : Option (Int × ac_str ω × ω) :=
  if s.cap > s.len then
    let size_raw := s.cap - s.len
    let size := if size_raw < print_max then size_raw else print_max
    match snprintf s.data s.len size t with
    | none => none
    | some (d, printed) =>
      if 0 ≤ printed ∧ printed < (size : Int) then
        some (printed, { s with data := d, len := s.len + printed.toNat }, w)
      else ac_to_str_grow env { s with data := d } printed t w
  else
    match snprintf none 0 0 t with
    | none => none
    | some (_, printed) => ac_to_str_grow env s printed t w

/-- A string `"abc"` in a block of three at address 500, with the `malloc`
allocator of `demo_env budget`. -/
def demo_str (budget : Nat) : ac_str demo_world :=
  ⟨ac_mallocator2 (demo_env budget), some ⟨500, [97, 98, 99]⟩, 3, 3⟩

/-- A string `"abc"` in a fixed buffer of six characters at address 500, with
the empty allocator: nothing can be allocated for it. -/
def demo_str_fixed : ac_str demo_world :=
  ⟨ac_allocator2_zero, some ⟨500, [97, 98, 99, 0, 0, 0]⟩, 3, 6⟩

end AcStr

/-! ## Deleting from the plain list of `src/ac_mem.h`

`ac_list(T)` has no allocator. The model covers element types whose `==` is
equality of values. -/

namespace AcMem

/-- The struct `ac_list(T)` (lines 302-308): `data` holds the elements of the
block it points to, or is NULL. -/
structure ac_list (τ : Type) where
  data : Option (List τ)
  len : Nat
  cap : Nat
  deriving DecidableEq, Repr

/-- The `size_t` value `n - 1`, which is `SIZE_MAX` at `n = 0`. -/
def size_pred (n : Nat) : Nat := if n = 0 then 2 ^ 64 - 1 else n - 1

/-- The load `data[i]`: `none` when no element is there. -/
def ac_list_load {τ : Type} (l : ac_list τ) (i : Nat) : Option τ :=
  match l.data with
  | none => none
  | some es => es[i]?

/-- The store `data[i] = x`: `none` when no element is there. -/
def ac_list_store {τ : Type} (l : ac_list τ) (i : Nat) (x : τ) : Option (ac_list τ) :=
  match l.data with
  | none => none
  | some es => if i < es.length then some { l with data := some (es.set i x) } else none

/-- The macro `ac_list_del_nth` (lines 340-345). -/
def ac_list_del_nth {τ : Type} (l : ac_list τ) (i : Nat) : Option (ac_list τ) :=
  let moved : Option (ac_list τ) :=
    if i < size_pred l.len then
      match ac_list_load l (size_pred l.len) with
      | none => none
      | some x => ac_list_store l i x
    else some l
  match moved with
  | none => none
  | some l1 => some { l1 with len := size_pred l1.len }

/-- The loop of `ac_list_del_value` (lines 352-358) at index `i` with `n`
iterations to go until `i` reaches `len`. -/
def ac_list_del_value_loop {τ : Type} [DecidableEq τ] (l : ac_list τ) (value : τ) :
    Nat → Nat → Option (Bool × ac_list τ)
  | 0, _ => some (false, l)
  | n + 1, i =>
    match ac_list_load l i with
    | none => none
    | some x =>
      if x = value then
        match ac_list_del_nth l i with
        | none => none
        | some l1 => some (true, l1)
      else ac_list_del_value_loop l value n (i + 1)

/-- The macro `ac_list_del_value` (lines 349-359): the value of the expression
and the list. -/
def ac_list_del_value {τ : Type} [DecidableEq τ] (l : ac_list τ) (value : τ) :
    Option (Bool × ac_list τ) :=
  ac_list_del_value_loop l value l.len 0

/-- A list whose first `len` elements are in its block. -/
def ac_list_wf {τ : Type} (l : ac_list τ) : Prop :=
  match l.data with
  | none => l.len = 0
  | some es => l.len ≤ es.length

/-- The elements of a list: the first `len` of its block. -/
def ac_list_elems {τ : Type} (l : ac_list τ) : List τ :=
  match l.data with
  | none => []
  | some es => es.take l.len

/-- A list of four numbers in a block of five. -/
def demo_list : ac_list Nat := ⟨some [7, 8, 7, 9, 0], 4, 5⟩

end AcMem

namespace AcGzip

/-- A buffer with a name and a comment: the fixed header with the NAME and
COMMENT flags, the name `"a"` with its terminator at index 11, the comment
`"cd"` with its terminator at index 14, then two more bytes. -/
def demo_named_commented : List Byte :=
  [0x1f, 0x8b, 8, 0x18, 0, 0, 0, 0, 0, 0xff, 0x61, 0, 0x63, 0x64, 0, 3, 0]

end AcGzip

/-! ## Rounding up, time and rotations (`src/ac_mem.h`, `src/ac_time.h`, `src/ac_vec.h`)

`size_t`, `uint64_t` and `int64_t` values are numbers reduced modulo `2 ^ 64`
where the code computes them. The time functions are those of the Linux and
macOS branch of `src/ac_time.h`. The `float` arithmetic of `src/ac_vec.h` is
read as the arithmetic of a ring `R`. -/

namespace AcMem

/-- The function `ac_align_up` (lines 18-20) on `size_t` values; `none` is the
division by zero. -/
def ac_align_up (offset align : Nat) : Option Nat :=
  if align = 0 then none
  else
    some ((offset + size_pred align) % 18446744073709551616 / align * align
      % 18446744073709551616)

end AcMem

namespace AcTime

/-- The conversion of a `uint64_t` value to `int64_t`. -/
def to_int64 (n : Nat) : Int :=
  if n < 9223372036854775808 then (n : Int) else (n : Int) - 18446744073709551616

/-- The conversion of an `int64_t` value to `uint64_t`. -/
def to_uint64 (i : Int) : Nat := (i % 18446744073709551616).toNat

/-- The struct `ac_time` (lines 11-13). -/
structure ac_time where
  ticks : Nat
  deriving DecidableEq, Repr

/-- The struct `ac_dtime` (lines 16-18). -/
structure ac_dtime where
  dticks : Int
  deriving DecidableEq, Repr

/-- The function `ac_time_freq` (line 90). -/
def ac_time_freq : Nat := 1000000

/-- The function `ac_time_1970_midnight` (line 92). -/
def ac_time_1970_midnight : ac_time := ⟨0⟩

/-- The function `ac_time_2000_noon` (lines 93-99). -/
def ac_time_2000_noon : ac_time := ⟨946728000000000⟩

/-- The function `ac_time_diff` (lines 177-179): the `uint64_t` difference,
stored in an `int64_t`. -/
def ac_time_diff (a b : ac_time) : ac_dtime :=
  ⟨to_int64 ((a.ticks + 18446744073709551616 - b.ticks % 18446744073709551616)
    % 18446744073709551616)⟩

/-- The function `ac_time_ms_since_1970` (lines 185-189). The division is one
of `uint64_t` values, as `ticks_per_ms` is a `uint64_t`; its result is
returned as an `int64_t`. -/
def ac_time_ms_since_1970 (a : ac_time) : Int :=
  let ticks_per_ms := ac_time_freq / 1000
  let d := ac_time_diff a ac_time_1970_midnight
  to_int64 (to_uint64 d.dticks / ticks_per_ms)

/-- The function `ac_time_from_ms_since_1970` (lines 191-194). -/
def ac_time_from_ms_since_1970 (a : Nat) : ac_time :=
  let ticks_per_ms := ac_time_freq / 1000
  ⟨(a * ticks_per_ms + ac_time_1970_midnight.ticks) % 18446744073709551616⟩

end AcTime

namespace AcVec

/-- The struct `ac_v3f` (lines 12-14). -/
structure ac_v3f (R : Type) where
  x : R
  y : R
  z : R

/-- The struct `ac_v4f` (lines 16-18). -/
structure ac_v4f (R : Type) where
  x : R
  y : R
  z : R
  w : R

/-- The struct `ac_mat4f` (lines 20-22): `col0` to `col3` are `col[0]` to
`col[3]`. -/
structure ac_mat4f (R : Type) where
  col0 : ac_v4f R
  col1 : ac_v4f R
  col2 : ac_v4f R
  col3 : ac_v4f R

/-- The function `ac_v3f_x` (line 184). -/
def ac_v3f_x {R : Type} [Ring R] : ac_v3f R := ⟨1, 0, 0⟩

/-- The function `ac_v3f_y` (line 185). -/
def ac_v3f_y {R : Type} [Ring R] : ac_v3f R := ⟨0, 1, 0⟩

/-- The function `ac_v3f_z` (line 186). -/
def ac_v3f_z {R : Type} [Ring R] : ac_v3f R := ⟨0, 0, 1⟩

/-- The function `ac_v4f_x` (line 188). -/
def ac_v4f_x {R : Type} [Ring R] : ac_v4f R := ⟨1, 0, 0, 0⟩

/-- The function `ac_v4f_y` (line 189). -/
def ac_v4f_y {R : Type} [Ring R] : ac_v4f R := ⟨0, 1, 0, 0⟩

/-- The function `ac_v4f_z` (line 190). -/
def ac_v4f_z {R : Type} [Ring R] : ac_v4f R := ⟨0, 0, 1, 0⟩

/-- The function `ac_v4f_w` (line 191). -/
def ac_v4f_w {R : Type} [Ring R] : ac_v4f R := ⟨0, 0, 0, 1⟩

/-- The function `ac_mat4f_rot_cs` (lines 351-370). -/
def ac_mat4f_rot_cs {R : Type} [Ring R] (a : ac_v3f R) (ct st : R) : ac_mat4f R :=
  let cc := 1 - ct
  let xs := a.x * st
  let ys := a.y * st
  let zs := a.z * st
  let xyc := a.x * a.y * cc
  let xzc := a.x * a.z * cc
  let yzc := a.y * a.z * cc
  let x2 := ct + cc + a.x * a.x
  let y2 := ct + cc * a.y * a.y
  let z2 := ct + cc * a.z * a.z
  ⟨⟨x2, zs + xyc, -ys + xzc, 0⟩,
   ⟨-zs + xyc, y2, xs + yzc, 0⟩,
   ⟨ys + xzc, -xs + yzc, z2, 0⟩,
   ac_v4f_w⟩

/-- The function `ac_mat4f_rotx_cs` (lines 376-383). -/
def ac_mat4f_rotx_cs {R : Type} [Ring R] (ct st : R) : ac_mat4f R :=
  ⟨ac_v4f_x, ⟨0, ct, st, 0⟩, ⟨0, -st, ct, 0⟩, ac_v4f_w⟩

/-- The function `ac_mat4f_roty_cs` (lines 385-392). -/
def ac_mat4f_roty_cs {R : Type} [Ring R] (ct st : R) : ac_mat4f R :=
  ⟨⟨ct, 0, st, 0⟩, ac_v4f_y, ⟨-st, 0, ct, 0⟩, ac_v4f_w⟩

/-- The function `ac_mat4f_rotz_cs` (lines 394-401). -/
def ac_mat4f_rotz_cs {R : Type} [Ring R] (ct st : R) : ac_mat4f R :=
  ⟨⟨ct, st, 0, 0⟩, ⟨-st, ct, 0, 0⟩, ac_v4f_z, ac_v4f_w⟩

end AcVec

/-! ## Pushing onto the allocator-backed list, and repeating a character -/

namespace AcAlloc

/-- The statement `*(ac_lista_next_ex(&l)) = v`, as line 305 of
`src/ac_test.h` has it: the slot, the list and the world. The result is `none`
when the store goes through NULL or leaves the block. -/
def ac_lista_push {ω τ : Type} (env : ac_env ω τ) (l : ac_lista ω τ) (v : τ) (w : ω) :
    Option (ac_ptr × ac_lista ω τ × ω) :=
  match ac_lista_next_ex env l w with
  | none => none
  | some (q, l1, w1) =>
    match q.base, l1.data with
    | some _, some b =>
      if q.index < b.elems.length then
        some (q, ⟨l1.alloc, some ⟨b.addr, b.elems.set q.index v⟩, l1.len, l1.cap⟩, w1)
      else none
    | _, _ => none

/-- One `ac_lista_push` after the other for the values of a list: the slots in
order, the list and the world. -/
def ac_lista_push_all {ω τ : Type} (env : ac_env ω τ) :
    List τ → ac_lista ω τ → ω → Option (List ac_ptr × ac_lista ω τ × ω)
  | [], l, w => some ([], l, w)
  | v :: vs, l, w =>
    match ac_lista_push env l v w with
    | none => none
    | some (q, l1, w1) =>
      match ac_lista_push_all env vs l1 w1 with
      | none => none
      | some (qs, l2, w2) => some (q :: qs, l2, w2)

/-- An environment for examples over bytes whose `malloc` never fails. -/
def demo_env_all : ac_env demo_world (Fin 256) :=
  { malloc := fun n w => (some w.1, (w.1 + n + 1, w.2)),
    free := fun p w => (w.1, p :: w.2),
    junk := fun _ _ => 0xAA,
    element_size := 1,
    element_size_pos := Nat.one_pos }

end AcAlloc

namespace AcStr

open AcAlloc

/-- The call `memset(dst + off, c, count)`: `none` when a byte is written
outside the block. A call that writes no byte does nothing. -/
def ac_memset (dst : Option (ac_array (Fin 256))) (off : Nat) (c : Fin 256) (count : Nat) :
    Option (Option (ac_array (Fin 256))) :=
  if count = 0 then some dst
  else
    match dst with
    | none => none
    | some b =>
      if off + count ≤ b.elems.length then
        some (some ⟨b.addr,
          b.elems.take off ++ List.replicate count c ++ b.elems.drop (off + count)⟩)
      else none

/-- The function `ac_str_repeat_char` (lines 84-89). The result is `none` when
the `memset` writes outside the block. -/
def ac_str_repeat_char {ω : Type} (env : ac_env ω (Fin 256)) (s : ac_str ω) (c : Fin 256)
    (count : Nat) (w : ω) : Option (ac_str ω × ω) :=
  let len_after_write := s.len + count
  let grown : Option (ac_str ω × ω) :=
    if len_after_write ≥ s.cap then ac_lista_realloc env s len_after_write w
    else some (s, w)
  match grown with
  | none => none
  | some (s1, w1) =>
    match ac_memset s1.data s1.len c count with
    | none => none
    | some d => some (⟨s1.alloc, d, len_after_write, s1.cap⟩, w1)

end AcStr

/-! ## The test harness of `src/ac_test.h`

What the harness prints, and the strings it builds for that, are left out:
they take no part in what is counted or returned. The call stack
`ac_test_state.stack` is given by its elements `[0, stack.len)`, and a push
onto it is taken to get its memory. A node of the stack keeps the one field
that is not for printing, `failures`.

A test function is given by the steps it runs after `ac_test_begin`
(`ac_test_body`). The conditions of its expectations are the values they take
in the run. The field `trace` is a ghost: it records every `ac_test_run` that
is entered and every expectation or `ac_test_fail` that fails, at the place
where the test code has them. -/

namespace AcTest

/-- The struct `ac_test_stack_node` (lines 114-130), field `failures`. -/
structure ac_test_stack_node where
  failures : Nat
  deriving DecidableEq, Repr

/-- What the ghost trace records. -/
inductive ac_test_event where
  /-- An `ac_test_run` was entered. -/
  | run
  /-- An expectation failed, or an `ac_test_fail` was evaluated. -/
  | failed
  deriving DecidableEq, Repr

/-- The struct `ac_test_state` (lines 189-206), without the fields for
printing, and with the ghost `trace`. -/
structure ac_test_state where
  stack : List ac_test_stack_node
  expect_test_begin : Bool
  cases_run : Nat
  failures : Nat
  trace : List ac_test_event
  deriving DecidableEq, Repr

/-- The state `ac_test_init` leaves (lines 450-454, 233-251). -/
def ac_test_init : ac_test_state := ⟨[], false, 0, 0, []⟩

/-- The statement `++n->failures` for the node at index `i` of the stack. -/
def ac_test_bump (stack : List ac_test_stack_node) (i : Nat) : List ac_test_stack_node :=
  match stack[i]? with
  | some n => stack.set i ⟨n.failures + 1⟩
  | none => stack

/-- The function `ac_test_fail_` (lines 289-299). -/
def ac_test_fail_fn (s : ac_test_state) : ac_test_state :=
  let s1 := { s with failures := s.failures + 1 }
  if s1.stack.length ≠ 0 then { s1 with stack := ac_test_bump s1.stack (s1.stack.length - 1) }
  else s1

/-- The macro `ac_test_fail` (lines 381-398, 579): the value of the expression
and the state. -/
def ac_test_fail (s : ac_test_state) : Bool × ac_test_state :=
  (false, ac_test_fail_fn { s with trace := s.trace ++ [.failed] })

/-- The macro `ac_test_expect` (lines 401-408, 582): the value of the
expression and the state. -/
def ac_test_expect (cond : Bool) (s : ac_test_state) : Bool × ac_test_state :=
  let result := cond
  if !result then (result, (ac_test_fail s).2) else (result, s)

/-- The function `ac_test_before_call_` (lines 302-311). -/
def ac_test_before_call_ (s : ac_test_state) : ac_test_state :=
  { s with stack := s.stack ++ [⟨0⟩], expect_test_begin := true, cases_run := s.cases_run + 1 }

/-- The macro `ac_test_begin` (lines 471-483): whether the test function goes
on (it returns when the expectation fails), and the state. -/
def ac_test_begin (s : ac_test_state) : Bool × ac_test_state :=
  let p := ac_test_expect (decide (s.stack.length ≠ 0) && s.expect_test_begin) s
  if !p.1 then (false, p.2) else (true, { p.2 with expect_test_begin := false })

/-- The function `ac_test_after_call_` (lines 332-374). -/
def ac_test_after_call_ (s : ac_test_state) : Bool × ac_test_state :=
  if s.stack.length = 0 then (false, s)
  else
    match s.stack[s.stack.length - 1]? with
    | none => (false, s)
    | some n =>
      let test_case_ok := decide (n.failures = 0)
      let stack1 :=
        if !test_case_ok then
          if s.stack.length > 2 then ac_test_bump s.stack (s.stack.length - 2) else s.stack
        else s.stack
      (test_case_ok, { s with stack := stack1.take (s.stack.length - 1) })

/-- The macro `ac_test_run` (lines 566-576) for a test function `func`, which
is given by what it does to the state. -/
def ac_test_run (func : ac_test_state → ac_test_state) (s : ac_test_state) :
    Bool × ac_test_state :=
  let s1 := ac_test_before_call_ { s with trace := s.trace ++ [.run] }
  let s2 := func s1
  let p := ac_test_expect (decide (s2.stack.length ≠ 0) && !s2.expect_test_begin) s2
  ac_test_after_call_ p.2

/-- The steps of a test function after its `ac_test_begin`. With `returns` a
step is `if (!step) return;`. -/
inductive ac_test_body where
  /-- The end of the function. -/
  | done
  /-- The step `ac_test_fail(...)`. -/
  | fail (returns : Bool) (rest : ac_test_body)
  /-- The step `ac_test_expect(cond, ...)`. -/
  | expect (cond returns : Bool) (rest : ac_test_body)
  /-- The step `ac_test_run(f)` for a function `f` that calls `ac_test_begin` and then runs
  `callee`. -/
  | run (callee : ac_test_body) (returns : Bool) (rest : ac_test_body)
  /-- The step `ac_test_run(f)` for a function `f` that does not call `ac_test_begin`, and
  so can use nothing of the harness. -/
  | run_no_begin (returns : Bool) (rest : ac_test_body)
  deriving DecidableEq, Repr

/-- A test function that calls `ac_test_begin` and then the function `k`. -/
def ac_test_begin_then (k : ac_test_state → ac_test_state) (s : ac_test_state) :
    ac_test_state :=
  if (ac_test_begin s).1 then k (ac_test_begin s).2 else (ac_test_begin s).2

/-- The run of the steps of a test function. -/
def ac_test_exec : ac_test_body → ac_test_state → ac_test_state
  | .done, s => s
  | .fail returns rest, s =>
    if returns && !(ac_test_fail s).1 then (ac_test_fail s).2
    else ac_test_exec rest (ac_test_fail s).2
  | .expect cond returns rest, s =>
    if returns && !(ac_test_expect cond s).1 then (ac_test_expect cond s).2
    else ac_test_exec rest (ac_test_expect cond s).2
  | .run callee returns rest, s =>
    if returns && !(ac_test_run (ac_test_begin_then (ac_test_exec callee)) s).1 then
      (ac_test_run (ac_test_begin_then (ac_test_exec callee)) s).2
    else ac_test_exec rest (ac_test_run (ac_test_begin_then (ac_test_exec callee)) s).2
  | .run_no_begin returns rest, s =>
    if returns && !(ac_test_run id s).1 then (ac_test_run id s).2
    else ac_test_exec rest (ac_test_run id s).2

/-- A test function that calls `ac_test_begin` and then runs `body`. -/
def ac_test_case (body : ac_test_body) : ac_test_state → ac_test_state :=
  ac_test_begin_then (ac_test_exec body)

/-- A test function without a nested `ac_test_run`. -/
def ac_test_leaf : ac_test_body → Bool
  | .done => true
  | .fail _ rest => ac_test_leaf rest
  | .expect _ _ rest => ac_test_leaf rest
  | .run _ _ _ => false
  | .run_no_begin _ _ => false

/-- A test function without a nested `ac_test_run` in which no `ac_test_fail`
and no expectation with a false condition stands. As a step returns only when
it fails, the first such step is always reached. -/
def ac_test_leaf_passes : ac_test_body → Bool
  | .done => true
  | .fail _ _ => false
  | .expect cond _ rest => cond && ac_test_leaf_passes rest
  | .run _ _ _ => false
  | .run_no_begin _ _ => false

/-- Steps in which every nested function, at every depth, calls
`ac_test_begin`. -/
def ac_test_all_begin : ac_test_body → Bool
  | .done => true
  | .fail _ rest => ac_test_all_begin rest
  | .expect _ _ rest => ac_test_all_begin rest
  | .run callee _ rest => ac_test_all_begin callee && ac_test_all_begin rest
  | .run_no_begin _ _ => false

/-- The counters of the state agree with the ghost trace. -/
def ac_test_tally_ok (s : ac_test_state) : Prop :=
  s.cases_run = s.trace.count .run ∧ s.failures = s.trace.count .failed

/-- Steps with no `ac_test_fail` and no false expectation of their own, whose
nested functions are all as in `ac_test_all_begin`. -/
def ac_test_nested_only : ac_test_body → Bool
  | .done => true
  | .fail _ _ => false
  | .expect cond _ rest => cond && ac_test_nested_only rest
  | .run callee _ rest => ac_test_all_begin callee && ac_test_nested_only rest
  | .run_no_begin _ _ => false

/-- Steps none of which, at any depth, is of the form `if (!step) return;`. -/
def ac_test_no_returns : ac_test_body → Bool
  | .done => true
  | .fail returns rest => !returns && ac_test_no_returns rest
  | .expect _ returns rest => !returns && ac_test_no_returns rest
  | .run callee returns rest =>
    !returns && ac_test_no_returns callee && ac_test_no_returns rest
  | .run_no_begin returns rest => !returns && ac_test_no_returns rest

/-- The number of `ac_test_run` steps, at every depth. -/
def ac_test_runs : ac_test_body → Nat
  | .done => 0
  | .fail _ rest => ac_test_runs rest
  | .expect _ _ rest => ac_test_runs rest
  | .run callee _ rest => 1 + ac_test_runs callee + ac_test_runs rest
  | .run_no_begin _ rest => 1 + ac_test_runs rest

/-- The number of `ac_test_fail` steps and of expectations with a false
condition, at every depth. -/
def ac_test_fails : ac_test_body → Nat
  | .done => 0
  | .fail _ rest => 1 + ac_test_fails rest
  | .expect cond _ rest => (if cond then 0 else 1) + ac_test_fails rest
  | .run callee _ rest => ac_test_fails callee + ac_test_fails rest
  | .run_no_begin _ rest => ac_test_fails rest

/-- The function `single_case_fail` of `src/ac_test_test.h` (lines 21-24),
after its `ac_test_begin`. -/
def single_case_fail : ac_test_body := .fail false .done

/-- The function `nested_case_fail` of `src/ac_test_test.h` (lines 50-53),
after its `ac_test_begin`. -/
def nested_case_fail : ac_test_body := .run single_case_fail false .done

/-- The function `nested_case_2_fail` of `src/ac_test_test.h` (lines 62-67),
after its `ac_test_begin`. -/
def nested_case_2_fail : ac_test_body :=
  .run single_case_fail false (.run .done false (.run single_case_fail false .done))

end AcTest

/-! ## Lemmas on loads -/

namespace AcGzip

theorem byte_lt (file : List Byte) (i : Nat) : byte file i < 256 := by
  unfold byte; exact (file.getD i 0).isLt

theorem load8_of_lt {file : List Byte} {i : Nat} (h : i < file.length) :
    load8 file i = .ok (byte file i) := by
  simp [load8, byte, List.getD, List.getElem?_eq_getElem h]

theorem load16_of_lt {file : List Byte} {i : Nat} (h : i + 1 < file.length) :
    load16 file i = .ok (byte file i + 256 * byte file (i + 1)) := by
  have h0 : i < file.length := by omega
  simp [load16, load8_of_lt h0, load8_of_lt h]

theorem load32_of_lt {file : List Byte} {i : Nat} (h : i + 3 < file.length) :
    load32 file i = .ok (byte file i + 256 * byte file (i + 1)
      + 65536 * (byte file (i + 2) + 256 * byte file (i + 3))) := by
  have h0 : i + 1 < file.length := by omega
  have h1 : i + 2 + 1 < file.length := by omega
  simp [load32, load16_of_lt h0, load16_of_lt h1]

theorem byte_take {file : List Byte} {n i : Nat} (h : i < n) :
    byte (file.take n) i = byte file i := by
  simp [byte, List.getD, List.getElem?_take, h]

/-- The two magic bytes are `0x1f 0x8b` exactly when the little-endian 16-bit
value is `AC_GZIP_MAGIC`. -/
theorem magic_iff (file : List Byte) :
    byte file 0 + 256 * byte file 1 = AC_GZIP_MAGIC ↔
      byte file 0 = 0x1f ∧ byte file 1 = 0x8b := by
  have h0 := byte_lt file 0
  have h1 := byte_lt file 1
  unfold AC_GZIP_MAGIC
  omega

theorem magic_match_of_len {file : List Byte} (h : 10 ≤ file.length) :
    ac_gzip_magic_match file = .ok (byte file 0 + 256 * byte file 1 == AC_GZIP_MAGIC) := by
  have h1 : 0 + 1 < file.length := by omega
  have h3 : ¬ file.length < 3 := by omega
  simp [ac_gzip_magic_match, h3, load16_of_lt h1]

theorem header_load_of_len {file : List Byte} (h : 10 ≤ file.length) :
    ac_gzip_header_load file = .ok
      ⟨byte file 0 + 256 * byte file 1, byte file 2, byte file 3,
       byte file 4 + 256 * byte file 5 + 65536 * (byte file 6 + 256 * byte file 7),
       byte file 8, byte file 9⟩ := by
  have a : 0 + 1 < file.length := by omega
  have b : 2 < file.length := by omega
  have c : 3 < file.length := by omega
  have d : 4 + 3 < file.length := by omega
  have e : 8 < file.length := by omega
  have f : 9 < file.length := by omega
  simp [ac_gzip_header_load, load16_of_lt a, load8_of_lt b, load8_of_lt c, load32_of_lt d,
    load8_of_lt e, load8_of_lt f]

/-! ## The scanning loop -/

theorem scan_of_ge {file : List Byte} {o : Nat} (h : file.length ≤ o) :
    ac_gzip_init_scan file o = .ok o := by
  rw [ac_gzip_init_scan]; simp [Nat.not_lt.mpr h]

theorem scan_of_zero {file : List Byte} {o : Nat} (h : o < file.length)
    (hz : byte file o = 0) : ac_gzip_init_scan file o = .ok o := by
  rw [ac_gzip_init_scan]; simp [h, load8_of_lt h, hz]

theorem scan_of_nonzero {file : List Byte} {o : Nat} (h : o < file.length)
    (hz : byte file o ≠ 0) : ac_gzip_init_scan file o = ac_gzip_init_scan file (o + 1) := by
  rw [ac_gzip_init_scan]; simp [h, load8_of_lt h, hz]

/-- The loop stops at `z` when `z` is the first index from `o` on that is
past the end or holds a zero byte. -/
theorem scan_eq {file : List Byte} (d : Nat) : ∀ (o z : Nat), z = o + d →
    (z ≤ file.length ∨ z = o) →
    (∀ i, o ≤ i → i < z → byte file i ≠ 0) →
    (z < file.length → byte file z = 0) →
    ac_gzip_init_scan file o = .ok z := by
  induction d with
  | zero =>
    intro o z hz _ _ hzero
    have : z = o := by omega
    subst this
    by_cases h : z < file.length
    · exact scan_of_zero h (hzero h)
    · exact scan_of_ge (by omega)
  | succ d ih =>
    intro o z hz hlen hnz hzero
    have ho : o < file.length := by omega
    rw [scan_of_nonzero ho (hnz o (le_refl _) (by omega))]
    exact ih (o + 1) z (by omega) (by omega) (fun i h1 h2 => hnz i (by omega) h2) hzero

/-- The loop always exits, without loading outside the buffer, at the first
index from `o` on that is past the end or holds a zero byte. -/
theorem scan_spec (file : List Byte) (n : Nat) : ∀ o, file.length - o = n →
    ∃ z, ac_gzip_init_scan file o = .ok z ∧ o ≤ z ∧ (z ≤ file.length ∨ z = o) ∧
      (∀ i, o ≤ i → i < z → byte file i ≠ 0) ∧ (z < file.length → byte file z = 0) := by
  induction n with
  | zero =>
    intro o h
    exact ⟨o, scan_of_ge (by omega), le_refl _, Or.inr rfl, fun i h1 h2 => by omega,
      fun h2 => by omega⟩
  | succ n ih =>
    intro o h
    have ho : o < file.length := by omega
    by_cases hz : byte file o = 0
    · exact ⟨o, scan_of_zero ho hz, le_refl _, Or.inr rfl, fun i h1 h2 => by omega,
        fun _ => hz⟩
    · obtain ⟨z, hs, hle, hlen, hnz, hzero⟩ := ih (o + 1) (by omega)
      refine ⟨z, by rw [scan_of_nonzero ho hz]; exact hs, by omega, Or.inl ?_, ?_, hzero⟩
      · omega
      · intro i h1 h2
        by_cases hi : i = o
        · subst hi; exact hz
        · exact hnz i (by omega) h2

end AcGzip

/-! ## The blocks of `ac_gzip_init` -/

namespace AcGzip

theorem extras_clear {file : List Byte} {fl o : Nat} (h : fl &&& AC_GZIP_FLAG_EXTRA = 0) :
    ac_gzip_init_extras file fl o = .ok (o, ⟨none, 0⟩) := by
  simp [ac_gzip_init_extras, h]

theorem extras_set {file : List Byte} {fl o : Nat} (h : fl &&& AC_GZIP_FLAG_EXTRA ≠ 0)
    (hlen : 2 ≤ file.length) :
    ac_gzip_init_extras file fl o =
      if o + 2 ≥ file.length then .error .ret_false
      else if o + 2 + (byte file 0 + 256 * byte file 1 + o) % 65536 ≥ file.length then
        .error .ret_false
      else .ok (o + 2 + (byte file 0 + 256 * byte file 1 + o) % 65536,
        ⟨some (o + 2), (byte file 0 + 256 * byte file 1 + o) % 65536⟩) := by
  have h1 : 0 + 1 < file.length := by omega
  simp [ac_gzip_init_extras, h, load16_of_lt h1]

theorem cstr_clear {file : List Byte} {fl flag o : Nat} (h : fl &&& flag = 0) :
    ac_gzip_init_cstr file fl flag o = .ok (o, none) := by
  simp [ac_gzip_init_cstr, h]

theorem cstr_set {file : List Byte} {fl flag o z : Nat} (h : fl &&& flag ≠ 0)
    (hs : ac_gzip_init_scan file o = .ok z) :
    ac_gzip_init_cstr file fl flag o =
      if z + 1 ≥ file.length then .error .ret_false else .ok (z + 1, some o) := by
  simp [ac_gzip_init_cstr, h, hs]

theorem hcrc_clear {file : List Byte} {fl o : Nat} (h : fl &&& AC_GZIP_FLAG_HCRC = 0) :
    ac_gzip_init_hcrc file fl o = .ok (o, 0) := by
  simp [ac_gzip_init_hcrc, h]

theorem hcrc_set {file : List Byte} {fl o : Nat} (h : fl &&& AC_GZIP_FLAG_HCRC ≠ 0)
    (hlen : 2 ≤ file.length) :
    ac_gzip_init_hcrc file fl o =
      if o + 2 ≥ file.length then .error .ret_false
      else .ok (o + 2, (byte file 0 + 256 * byte file 1 + o) % 65536) := by
  have h1 : 0 + 1 < file.length := by omega
  simp [ac_gzip_init_hcrc, h, load16_of_lt h1]

/-- Short buffers are rejected. -/
theorem body_short {file : List Byte} (h : file.length < 10) :
    ac_gzip_init_body file = .error .ret_false := by
  simp [ac_gzip_init_body, h]

/-- A wrong magic value is rejected. -/
theorem body_bad_magic {file : List Byte} (h : 10 ≤ file.length)
    (hm : byte file 0 + 256 * byte file 1 ≠ AC_GZIP_MAGIC) :
    ac_gzip_init_body file = .error .ret_false := by
  have h10 : ¬ file.length < 10 := by omega
  have hb : (byte file 0 + 256 * byte file 1 == AC_GZIP_MAGIC) = false := by simpa using hm
  simp [ac_gzip_init_body, h10, magic_match_of_len h, hb]

/-- With the size and magic checks passed, `ac_gzip_init` is the chain of its
four optional-field blocks followed by the final size check. -/
theorem body_of_magic {file : List Byte} (h : 10 ≤ file.length)
    (hm : byte file 0 + 256 * byte file 1 = AC_GZIP_MAGIC) :
    ac_gzip_init_body file =
      match ac_gzip_init_extras file (byte file 3) 10 with
      | .error e => .error e
      | .ok (offset, extra) =>
        match ac_gzip_init_cstr file (byte file 3) AC_GZIP_FLAG_NAME offset with
        | .error e => .error e
        | .ok (offset, name) =>
          match ac_gzip_init_cstr file (byte file 3) AC_GZIP_FLAG_COMMENT offset with
          | .error e => .error e
          | .ok (offset, comment) =>
            match ac_gzip_init_hcrc file (byte file 3) offset with
            | .error e => .error e
            | .ok (offset, hcrc) =>
              if offset ≥ file.length then .error .ret_false
              else
                .ok { buffer := file, header := header_of file, extra := extra, name := name,
                      comment := comment, header_crc := hcrc,
                      rest := ⟨some offset, file.length - offset⟩, footer := ⟨0, 0⟩ } := by
  have h10 : ¬ file.length < 10 := by omega
  have h3 : 3 < file.length := by omega
  simp only [ac_gzip_init_body, h10, magic_match_of_len h, hm, load8_of_lt h3,
    header_load_of_len h, header_of, if_false, beq_self_eq_true]

/-- Inversion of a successful run: the sizes and magic passed, every block
yielded a value, and the stored index is assembled from them. -/
theorem body_ok_inv {file : List Byte} {r : ac_gzip} (h : ac_gzip_init_body file = .ok r) :
    10 ≤ file.length ∧ byte file 0 + 256 * byte file 1 = AC_GZIP_MAGIC ∧
    ∃ o1 e o2 nm o3 cm o4 hc,
      ac_gzip_init_extras file (byte file 3) 10 = .ok (o1, e) ∧
      ac_gzip_init_cstr file (byte file 3) AC_GZIP_FLAG_NAME o1 = .ok (o2, nm) ∧
      ac_gzip_init_cstr file (byte file 3) AC_GZIP_FLAG_COMMENT o2 = .ok (o3, cm) ∧
      ac_gzip_init_hcrc file (byte file 3) o3 = .ok (o4, hc) ∧
      o4 < file.length ∧
      r = { buffer := file, header := header_of file, extra := e, name := nm,
            comment := cm, header_crc := hc,
            rest := ⟨some o4, file.length - o4⟩, footer := ⟨0, 0⟩ } := by
  by_cases h10 : file.length < 10
  · rw [body_short h10] at h; cases h
  have hlen : 10 ≤ file.length := by omega
  by_cases hm : byte file 0 + 256 * byte file 1 = AC_GZIP_MAGIC
  swap
  · rw [body_bad_magic hlen hm] at h; cases h
  refine ⟨hlen, hm, ?_⟩
  rw [body_of_magic hlen hm] at h
  cases h1 : ac_gzip_init_extras file (byte file 3) 10 with
  | error e => simp [h1] at h
  | ok v1 =>
    obtain ⟨o1, e⟩ := v1
    simp only [h1] at h
    cases h2 : ac_gzip_init_cstr file (byte file 3) AC_GZIP_FLAG_NAME o1 with
    | error e => simp [h2] at h
    | ok v2 =>
      obtain ⟨o2, nm⟩ := v2
      simp only [h2] at h
      cases h3 : ac_gzip_init_cstr file (byte file 3) AC_GZIP_FLAG_COMMENT o2 with
      | error e => simp [h3] at h
      | ok v3 =>
        obtain ⟨o3, cm⟩ := v3
        simp only [h3] at h
        cases h4 : ac_gzip_init_hcrc file (byte file 3) o3 with
        | error e => simp [h4] at h
        | ok v4 =>
          obtain ⟨o4, hc⟩ := v4
          simp only [h4] at h
          by_cases h5 : o4 ≥ file.length
          · simp [h5] at h
          · simp only [h5, if_false] at h
            exact ⟨o1, e, o2, nm, o3, cm, o4, hc, rfl, h2, h3, h4, by omega,
              (Except.ok.inj h).symm⟩

/-- Unfolding of `ac_gzip_init` on its result. -/
theorem init_true_iff {g : ac_gzip} {file : List Byte} {r : ac_gzip} :
    ac_gzip_init g file = some (true, r) ↔ ac_gzip_init_body file = .ok r := by
  unfold ac_gzip_init
  cases h : ac_gzip_init_body file with
  | ok v => simp
  | error e => cases e <;> simp

theorem init_false_of_body {g : ac_gzip} {file : List Byte}
    (h : ac_gzip_init_body file = .error .ret_false) :
    ac_gzip_init g file = some (false, ac_gzip_zero) := by
  simp [ac_gzip_init, h]

end AcGzip

/-! ## C strings and spans -/

namespace AcGzip

theorem byte_drop (file : List Byte) (p i : Nat) :
    byte (file.drop p) i = byte file (p + i) := by
  simp [byte, List.getD, List.getElem?_drop]

theorem byte_cons_zero (c : Byte) (l : List Byte) : byte (c :: l) 0 = c.val := by
  simp [byte]

theorem byte_cons_succ (c : Byte) (l : List Byte) (i : Nat) :
    byte (c :: l) (i + 1) = byte l i := by
  simp [byte]

/-- The bytes before the first zero byte of a list are its prefix up to the
index of that zero. -/
theorem takeWhile_nonzero_eq_take : ∀ (l : List Byte) (j : Nat), j < l.length →
    byte l j = 0 → (∀ i, i < j → byte l i ≠ 0) →
    l.takeWhile (fun c => c ≠ 0) = l.take j := by
  intro l
  induction l with
  | nil => intro j hj; simp at hj
  | cons c l ih =>
    intro j hj hz hnz
    cases j with
    | zero =>
      rw [byte_cons_zero] at hz
      have hc : c = 0 := Fin.ext hz
      simp [hc]
    | succ j =>
      have hc : c ≠ 0 := by
        intro hc
        have := hnz 0 (by omega)
        rw [byte_cons_zero, hc] at this
        exact this rfl
      rw [byte_cons_succ] at hz
      have := ih j (by simpa using hj) hz (fun i hi => by
        have := hnz (i + 1) (by omega)
        rwa [byte_cons_succ] at this)
      rw [List.takeWhile_cons, List.take_succ_cons, this]
      simp [hc]

/-- The C string at offset `p` when the first zero byte from `p` on is at
index `k`. -/
theorem cstr_eq_take {file : List Byte} {p k : Nat} (hp : p ≤ k) (hk : k < file.length)
    (hz : byte file k = 0) (hnz : ∀ i, i < k → p ≤ i → byte file i ≠ 0) :
    ac_cstr file p = (file.drop p).take (k - p) := by
  unfold ac_cstr
  apply takeWhile_nonzero_eq_take
  · simp; omega
  · rw [byte_drop]; rw [show p + (k - p) = k by omega]; exact hz
  · intro i hi
    rw [byte_drop]
    exact hnz (p + i) (by omega) (by omega)

/-- The loop started at `p` stops at the first zero byte `k`. -/
theorem scan_first_zero {file : List Byte} {p k : Nat} (hp : p ≤ k) (hk : k < file.length)
    (hz : byte file k = 0) (hnz : ∀ i, i < k → p ≤ i → byte file i ≠ 0) :
    ac_gzip_init_scan file p = .ok k :=
  scan_eq (k - p) p k (by omega) (Or.inl (by omega)) (fun i h1 h2 => hnz i h2 h1) (fun _ => hz)

/-- The loop started at `p` with no zero byte from `p` on stops at the end of
the buffer, or at `p` when `p` is already past it; in both cases one more
increment reaches or passes the end. -/
theorem scan_no_zero {file : List Byte} {p : Nat}
    (hnz : ∀ i, i < file.length → p ≤ i → byte file i ≠ 0) :
    ∃ z, ac_gzip_init_scan file p = .ok z ∧ z + 1 ≥ file.length := by
  by_cases hp : file.length ≤ p
  · exact ⟨p, scan_of_ge hp, by omega⟩
  · exact ⟨file.length, scan_eq (file.length - p) p file.length (by omega) (Or.inl (le_refl _))
      (fun i h1 h2 => hnz i h2 h1) (fun h => absurd h (lt_irrefl _)), by omega⟩

end AcGzip

/-! ## Truncation

Each block run on the first `n` bytes of a buffer either returns false or
does exactly what it does on the whole buffer. -/

namespace AcGzip

theorem extras_take {file : List Byte} {n fl o : Nat} {x : Nat × ac_buf}
    (hn : n ≤ file.length) (h : ac_gzip_init_extras file fl o = .ok x) :
    ac_gzip_init_extras (file.take n) fl o = .error .ret_false ∨
      ac_gzip_init_extras (file.take n) fl o = .ok x := by
  have hT : (file.take n).length = n := by simp [hn]
  by_cases hE : fl &&& AC_GZIP_FLAG_EXTRA = 0
  · right; rw [extras_clear hE] at h; rw [extras_clear hE]; exact h
  · by_cases h2 : o + 2 ≥ n
    · left; simp [ac_gzip_init_extras, hE, hT, h2]
    · have hlenT : 2 ≤ (file.take n).length := by omega
      rw [extras_set hE hlenT, hT, byte_take (show 0 < n by omega),
        byte_take (show 1 < n by omega)]
      rw [extras_set hE (by omega)] at h
      simp only [h2, if_false]
      by_cases h3 : o + 2 + (byte file 0 + 256 * byte file 1 + o) % 65536 ≥ n
      · left; simp [h3]
      · right
        have h4 : ¬ o + 2 ≥ file.length := by omega
        have h5 : ¬ o + 2 + (byte file 0 + 256 * byte file 1 + o) % 65536 ≥ file.length := by
          omega
        simp only [h4, h5, if_false] at h
        simp only [h3, if_false]
        exact h

theorem hcrc_take {file : List Byte} {n fl o : Nat} {x : Nat × Nat}
    (hn : n ≤ file.length) (h : ac_gzip_init_hcrc file fl o = .ok x) :
    ac_gzip_init_hcrc (file.take n) fl o = .error .ret_false ∨
      ac_gzip_init_hcrc (file.take n) fl o = .ok x := by
  have hT : (file.take n).length = n := by simp [hn]
  by_cases hH : fl &&& AC_GZIP_FLAG_HCRC = 0
  · right; rw [hcrc_clear hH] at h; rw [hcrc_clear hH]; exact h
  · by_cases h2 : o + 2 ≥ n
    · left; simp [ac_gzip_init_hcrc, hH, hT, h2]
    · right
      have hlenT : 2 ≤ (file.take n).length := by omega
      rw [hcrc_set hH hlenT, hT, byte_take (show 0 < n by omega),
        byte_take (show 1 < n by omega)]
      rw [hcrc_set hH (by omega)] at h
      have h4 : ¬ o + 2 ≥ file.length := by omega
      simp only [h4, if_false] at h
      simp only [h2, if_false]
      exact h

theorem cstr_take {file : List Byte} {n fl flag o : Nat} {x : Nat × Option Nat}
    (hn : n ≤ file.length) (h : ac_gzip_init_cstr file fl flag o = .ok x) :
    ac_gzip_init_cstr (file.take n) fl flag o = .error .ret_false ∨
      ac_gzip_init_cstr (file.take n) fl flag o = .ok x := by
  have hT : (file.take n).length = n := by simp [hn]
  by_cases hF : fl &&& flag = 0
  · right; rw [cstr_clear hF] at h; rw [cstr_clear hF]; exact h
  · obtain ⟨z, hs, _, _, hnz, hzero⟩ := scan_spec (file.take n) _ o rfl
    rw [cstr_set hF hs, hT]
    by_cases h2 : z + 1 ≥ n
    · left; simp [h2]
    · right
      simp only [h2, if_false]
      have hsf : ac_gzip_init_scan file o = .ok z := by
        by_cases hoz : o ≤ z
        · refine scan_eq (z - o) o z (by omega) (Or.inl (by omega)) ?_ ?_
          · intro i h1 h3
            have := hnz i h1 h3
            rwa [byte_take (by omega)] at this
          · intro _
            have := hzero (by omega)
            rwa [byte_take (by omega)] at this
        · exfalso
          obtain ⟨z2, hs2, hle2, _, _, _⟩ := scan_spec (file.take n) _ o rfl
          rw [hs] at hs2
          have := Except.ok.inj hs2
          omega
      rw [cstr_set hF hsf] at h
      have h3 : ¬ z + 1 ≥ file.length := by omega
      simp only [h3, if_false] at h
      exact h

/-- A successful run on the whole buffer whose `rest` starts at `k` turns into
`return false` on any prefix of at most `k` bytes. -/
theorem body_take {file : List Byte} {r : ac_gzip} {k n : Nat}
    (h : ac_gzip_init_body file = .ok r) (hk : r.rest.data = some k) (hn : n ≤ k) :
    ac_gzip_init_body (file.take n) = .error .ret_false := by
  obtain ⟨hlen, hm, o1, e, o2, nm, o3, cm, o4, hc, h1, h2, h3, h4, h5, hr⟩ := body_ok_inv h
  subst hr
  simp only [Option.some.injEq] at hk
  subst hk
  have hnl : n ≤ file.length := by omega
  have hT : (file.take n).length = n := by simp [hnl]
  by_cases h10 : n < 10
  · exact body_short (by omega)
  have hmT : byte (file.take n) 0 + 256 * byte (file.take n) 1 = AC_GZIP_MAGIC := by
    rw [byte_take (show 0 < n by omega), byte_take (show 1 < n by omega)]; exact hm
  rw [body_of_magic (by omega) hmT, byte_take (show 3 < n by omega), hT]
  rcases extras_take hnl h1 with t1 | t1
  · simp [t1]
  rcases cstr_take hnl h2 with t2 | t2
  · simp [t1, t2]
  rcases cstr_take hnl h3 with t3 | t3
  · simp [t1, t2, t3]
  rcases hcrc_take hnl h4 with t4 | t4
  · simp [t1, t2, t3, t4]
  simp [t1, t2, t3, t4, hn]

end AcGzip

/-! ## Bounds of the loads and of the stored spans -/

namespace AcGzip

theorem magic_match_ne_oob (file : List Byte) : ac_gzip_magic_match file ≠ .error .oob := by
  by_cases h : file.length < 3
  · simp [ac_gzip_magic_match, h]
  · have h1 : 0 + 1 < file.length := by omega
    simp [ac_gzip_magic_match, h, load16_of_lt h1]

/-- The extras block returns false or yields a span that lies inside the
buffer, without loading outside it. -/
theorem extras_cases (file : List Byte) (fl o : Nat) (hlen : 2 ≤ file.length) :
    ac_gzip_init_extras file fl o = .error .ret_false ∨
    ∃ o2 e, ac_gzip_init_extras file fl o = .ok (o2, e) ∧
      ∀ p, e.data = some p → p + e.size ≤ file.length := by
  by_cases hE : fl &&& AC_GZIP_FLAG_EXTRA = 0
  · right
    exact ⟨o, ⟨none, 0⟩, extras_clear hE, fun p hp => by simp at hp⟩
  · rw [extras_set hE hlen]
    by_cases h1 : o + 2 ≥ file.length
    · left; simp [h1]
    · by_cases h2 : o + 2 + (byte file 0 + 256 * byte file 1 + o) % 65536 ≥ file.length
      · left; simp [h1, h2]
      · right
        refine ⟨_, _, by rw [if_neg h1, if_neg h2], ?_⟩
        intro p hp
        simp only [Option.some.injEq] at hp
        subst hp
        simp only
        omega

/-- A string block returns false or yields a pointer whose string and
terminator lie inside the buffer, without loading outside it. -/
theorem cstr_cases (file : List Byte) (fl flag o : Nat) :
    ac_gzip_init_cstr file fl flag o = .error .ret_false ∨
    ∃ o2 nm, ac_gzip_init_cstr file fl flag o = .ok (o2, nm) ∧
      ∀ p, nm = some p → p + (ac_cstr file p).length < file.length ∧
        byte file (p + (ac_cstr file p).length) = 0 := by
  by_cases hF : fl &&& flag = 0
  · right
    exact ⟨o, none, cstr_clear hF, fun p hp => by simp at hp⟩
  · obtain ⟨z, hs, hoz, _, hnz, hzero⟩ := scan_spec file _ o rfl
    rw [cstr_set hF hs]
    by_cases h1 : z + 1 ≥ file.length
    · left; simp [h1]
    · right
      refine ⟨_, _, by rw [if_neg h1], ?_⟩
      intro p hp
      simp only [Option.some.injEq] at hp
      subst hp
      have hz : z < file.length := by omega
      have hc := cstr_eq_take hoz hz (hzero hz) (fun i h2 h3 => hnz i h3 h2)
      have hl : (ac_cstr file o).length = z - o := by
        rw [hc]; simp; omega
      rw [hl, show o + (z - o) = z by omega]
      exact ⟨hz, hzero hz⟩

/-- The header CRC block returns false or yields a value, without loading
outside the buffer. -/
theorem hcrc_cases (file : List Byte) (fl o : Nat) (hlen : 2 ≤ file.length) :
    ac_gzip_init_hcrc file fl o = .error .ret_false ∨
    ∃ o2 hc, ac_gzip_init_hcrc file fl o = .ok (o2, hc) := by
  by_cases hH : fl &&& AC_GZIP_FLAG_HCRC = 0
  · right; exact ⟨o, 0, hcrc_clear hH⟩
  · rw [hcrc_set hH hlen]
    by_cases h1 : o + 2 ≥ file.length
    · left; simp [h1]
    · right; exact ⟨_, _, by rw [if_neg h1]⟩

/-- Every run of lines 117-179 returns false or stores an index. -/
theorem body_cases (file : List Byte) :
    ac_gzip_init_body file = .error .ret_false ∨ ∃ r, ac_gzip_init_body file = .ok r := by
  by_cases h10 : file.length < 10
  · left; exact body_short h10
  have hlen : 10 ≤ file.length := by omega
  by_cases hm : byte file 0 + 256 * byte file 1 = AC_GZIP_MAGIC
  swap
  · left; exact body_bad_magic hlen hm
  rw [body_of_magic hlen hm]
  rcases extras_cases file (byte file 3) 10 (show 2 ≤ file.length by omega) with
    h1 | ⟨o1, e, h1, _⟩
  · left; simp [h1]
  rcases cstr_cases file (byte file 3) AC_GZIP_FLAG_NAME o1 with
    h2 | ⟨o2, nm, h2, _⟩
  · left; simp [h1, h2]
  rcases cstr_cases file (byte file 3) AC_GZIP_FLAG_COMMENT o2 with h3 | ⟨o3, cm, h3, _⟩
  · left; simp [h1, h2, h3]
  rcases hcrc_cases file (byte file 3) o3 (show 2 ≤ file.length by omega) with
    h4 | ⟨o4, hc, h4⟩
  · left; simp [h1, h2, h3, h4]
  by_cases h5 : o4 ≥ file.length
  · left; simp [h1, h2, h3, h4, h5]
  · right
    refine ⟨{ buffer := file, header := header_of file, extra := e, name := nm, comment := cm,
              header_crc := hc, rest := ⟨some o4, file.length - o4⟩, footer := ⟨0, 0⟩ }, ?_⟩
    simp only [h1, h2, h3, h4, if_neg h5]

theorem init_false_iff {g : ac_gzip} {file : List Byte} {r : ac_gzip} :
    ac_gzip_init g file = some (false, r) ↔
      ac_gzip_init_body file = .error .ret_false ∧ r = ac_gzip_zero := by
  unfold ac_gzip_init
  cases h : ac_gzip_init_body file with
  | ok v => simp
  | error e => cases e <;> simp [eq_comm]

end AcGzip

/-! ## A worked run -/

namespace AcGzip

/-- The run of `ac_gzip_init` on `demo_named`, block by block. -/
theorem init_demo_named (g : ac_gzip) :
    ac_gzip_init g demo_named = some (true, demo_named_index) := by
  apply init_true_iff.mpr
  rw [body_of_magic (by decide) (by decide), extras_clear (by decide)]
  simp only []
  rw [cstr_set (z := 15) (by decide)
    (scan_first_zero (by decide) (by decide) (by decide) (by decide)), if_neg (by decide)]
  simp only []
  rw [cstr_clear (by decide)]
  simp only []
  rw [hcrc_clear (by decide)]
  rfl

end AcGzip

/-! ## Claims on `ac_gzip_init` -/

namespace AcGzip

/-- C1: whenever `ac_gzip_init` returns true, the stored index has `buffer`
equal to the input buffer, `header.magic = 0x8b1f`, `header.compression = b[2]`,
`header.flags = b[3]`, `header.modified_time` the little-endian 32-bit value of
`b[4..7]`, `header.compression_flags = b[8]`, `header.os_id = b[9]`, and both
footer fields zero, whatever index `g` was passed in. -/
theorem ac_gzip_init_header_fields (g : ac_gzip) (file : List Byte) (r : ac_gzip)
    (h : ac_gzip_init g file = some (true, r)) :
    r.buffer = file ∧ r.header.magic = 0x8b1f ∧ r.header.compression = byte file 2 ∧
    r.header.flags = byte file 3 ∧
    r.header.modified_time =
      byte file 4 + 256 * byte file 5 + 65536 * byte file 6 + 16777216 * byte file 7 ∧
    r.header.compression_flags = byte file 8 ∧ r.header.os_id = byte file 9 ∧
    r.footer.crc = 0 ∧ r.footer.decompressed_size = 0 := by
  obtain ⟨_, hm, o1, e, o2, nm, o3, cm, o4, hc, _, _, _, _, _, hr⟩ :=
    body_ok_inv (init_true_iff.mp h)
  subst hr
  refine ⟨rfl, ?_, rfl, rfl, ?_, rfl, rfl, rfl, rfl⟩
  · simpa [header_of, AC_GZIP_MAGIC] using hm
  · simp only [header_of]; omega

/-- C1 at `demo_plain`, starting from an index that is not zero. -/
theorem ac_gzip_init_header_fields_witness :
    ac_gzip_init demo_dirty demo_plain = some (true, demo_plain_index) ∧
    demo_plain_index.buffer = demo_plain ∧ demo_plain_index.header.magic = 0x8b1f ∧
    demo_plain_index.header.compression = byte demo_plain 2 ∧
    demo_plain_index.header.flags = byte demo_plain 3 ∧
    demo_plain_index.header.modified_time =
      byte demo_plain 4 + 256 * byte demo_plain 5 + 65536 * byte demo_plain 6
        + 16777216 * byte demo_plain 7 ∧
    demo_plain_index.header.compression_flags = byte demo_plain 8 ∧
    demo_plain_index.header.os_id = byte demo_plain 9 ∧
    demo_plain_index.footer.crc = 0 ∧ demo_plain_index.footer.decompressed_size = 0 :=
  ⟨by decide, ac_gzip_init_header_fields demo_dirty demo_plain demo_plain_index (by decide)⟩

/-- C5: for every buffer of at least 10 bytes with magic `1f 8b`, method
byte 8 and none of the HCRC, EXTRA, NAME, COMMENT bits set (TEXT and the
reserved bits arbitrary), `ac_gzip_init` succeeds if and only if `size > 10`
(and returns false otherwise); on success `rest` is exactly bytes
`[10, size)`, `extra` is empty, `name` and `comment` are null and `header_crc`
is 0. -/
theorem ac_gzip_init_no_optional (g : ac_gzip) (file : List Byte)
    (hlen : 10 ≤ file.length) (h0 : byte file 0 = 0x1f) (h1 : byte file 1 = 0x8b)
    (_h2 : byte file 2 = AC_GZIP_COMPRESSION_DEFLATE)
    (hH : byte file 3 &&& AC_GZIP_FLAG_HCRC = 0)
    (hE : byte file 3 &&& AC_GZIP_FLAG_EXTRA = 0)
    (hN : byte file 3 &&& AC_GZIP_FLAG_NAME = 0)
    (hC : byte file 3 &&& AC_GZIP_FLAG_COMMENT = 0) :
    ((∃ r, ac_gzip_init g file = some (true, r)) ↔ 10 < file.length) ∧
    (¬ 10 < file.length → ac_gzip_init g file = some (false, ac_gzip_zero)) ∧
    (∀ r, ac_gzip_init g file = some (true, r) →
      r.rest = ⟨some 10, file.length - 10⟩ ∧ ac_buf_bytes file r.rest = file.drop 10 ∧
      r.extra = ⟨none, 0⟩ ∧ r.name = none ∧ r.comment = none ∧ r.header_crc = 0) := by
  have hm : byte file 0 + 256 * byte file 1 = AC_GZIP_MAGIC := (magic_iff file).mpr ⟨h0, h1⟩
  have hb := body_of_magic hlen hm
  simp only [extras_clear hE, cstr_clear hN, cstr_clear hC, hcrc_clear hH] at hb
  by_cases hs : 10 < file.length
  · have hs2 : ¬ 10 ≥ file.length := by omega
    simp only [hs2, if_false] at hb
    refine ⟨⟨fun _ => hs, fun _ => ⟨_, init_true_iff.mpr hb⟩⟩, fun hn => absurd hs hn, ?_⟩
    intro r hr
    have hr2 := init_true_iff.mp hr
    rw [hb] at hr2
    have hr3 := (Except.ok.inj hr2).symm
    subst hr3
    refine ⟨rfl, ?_, rfl, rfl, rfl, rfl⟩
    simp [ac_buf_bytes]
  · have hs2 : 10 ≥ file.length := by omega
    simp only [hs2, if_true] at hb
    have hf : ac_gzip_init g file = some (false, ac_gzip_zero) := init_false_of_body hb
    refine ⟨⟨fun ⟨r, hr⟩ => ?_, fun h => absurd h hs⟩, fun _ => hf, fun r hr => ?_⟩
    · rw [hf] at hr; cases hr
    · rw [hf] at hr; cases hr

/-- C5 at `demo_plain` (TEXT bit set, 12 bytes). -/
theorem ac_gzip_init_no_optional_witness :
    ((∃ r, ac_gzip_init demo_dirty demo_plain = some (true, r)) ↔ 10 < demo_plain.length) ∧
    (¬ 10 < demo_plain.length →
      ac_gzip_init demo_dirty demo_plain = some (false, ac_gzip_zero)) ∧
    (∀ r, ac_gzip_init demo_dirty demo_plain = some (true, r) →
      r.rest = ⟨some 10, demo_plain.length - 10⟩ ∧
      ac_buf_bytes demo_plain r.rest = demo_plain.drop 10 ∧
      r.extra = ⟨none, 0⟩ ∧ r.name = none ∧ r.comment = none ∧ r.header_crc = 0) :=
  ac_gzip_init_no_optional demo_dirty demo_plain (by decide) (by decide) (by decide)
    (by decide) (by decide) (by decide) (by decide) (by decide)

/-- C6: every buffer shorter than 10 bytes, whatever its contents, makes
`ac_gzip_init` return false. -/
theorem ac_gzip_init_short (g : ac_gzip) (file : List Byte) (h : file.length < 10) :
    ac_gzip_init g file = some (false, ac_gzip_zero) :=
  init_false_of_body (body_short h)

/-- C6 at the first 9 bytes of `demo_plain`. -/
theorem ac_gzip_init_short_witness :
    (demo_plain.take 9).length < 10 ∧
    ac_gzip_init demo_dirty (demo_plain.take 9) = some (false, ac_gzip_zero) :=
  ⟨by decide, ac_gzip_init_short demo_dirty (demo_plain.take 9) (by decide)⟩

/-- C7: every buffer of at least 10 bytes whose first two bytes are not
`1f 8b` makes `ac_gzip_init` return false. -/
theorem ac_gzip_init_bad_magic (g : ac_gzip) (file : List Byte) (hlen : 10 ≤ file.length)
    (hm : ¬ (byte file 0 = 0x1f ∧ byte file 1 = 0x8b)) :
    ac_gzip_init g file = some (false, ac_gzip_zero) :=
  init_false_of_body (body_bad_magic hlen (fun h => hm ((magic_iff file).mp h)))

/-- C7 at a buffer that starts `1f 8a`. -/
theorem ac_gzip_init_bad_magic_witness :
    10 ≤ ([0x1f, 0x8a, 8, 0, 0, 0, 0, 0, 0, 0xff, 1, 2] : List Byte).length ∧
    ac_gzip_init demo_dirty [0x1f, 0x8a, 8, 0, 0, 0, 0, 0, 0, 0xff, 1, 2] =
      some (false, ac_gzip_zero) :=
  ⟨by decide, ac_gzip_init_bad_magic demo_dirty [0x1f, 0x8a, 8, 0, 0, 0, 0, 0, 0, 0xff, 1, 2]
    (by decide) (by decide)⟩

/-- C2: for every buffer with magic `1f 8b`, method byte 8 and the NAME flag
set while EXTRA, COMMENT and HCRC are clear: if `k` is the index of the first
zero byte at or after offset 10 and `k + 1 < size`, then `ac_gzip_init`
succeeds, `name` points at offset 10 and the string there is exactly bytes
`[10, k)` (terminator excluded), and `rest` is exactly bytes `[k+1, size)`. -/
theorem ac_gzip_init_name (g : ac_gzip) (file : List Byte) (k : Nat)
    (h0 : byte file 0 = 0x1f) (h1 : byte file 1 = 0x8b)
    (_h2 : byte file 2 = AC_GZIP_COMPRESSION_DEFLATE)
    (hN : byte file 3 &&& AC_GZIP_FLAG_NAME ≠ 0)
    (hE : byte file 3 &&& AC_GZIP_FLAG_EXTRA = 0)
    (hC : byte file 3 &&& AC_GZIP_FLAG_COMMENT = 0)
    (hH : byte file 3 &&& AC_GZIP_FLAG_HCRC = 0)
    (hk : 10 ≤ k) (hz : byte file k = 0) (hnz : ∀ i, i < k → 10 ≤ i → byte file i ≠ 0)
    (hsz : k + 1 < file.length) :
    ∃ r, ac_gzip_init g file = some (true, r) ∧
      r.name = some 10 ∧ ac_cstr file 10 = (file.drop 10).take (k - 10) ∧
      r.rest = ⟨some (k + 1), file.length - (k + 1)⟩ ∧
      ac_buf_bytes file r.rest = file.drop (k + 1) := by
  have hm : byte file 0 + 256 * byte file 1 = AC_GZIP_MAGIC := (magic_iff file).mpr ⟨h0, h1⟩
  have hb := body_of_magic (show 10 ≤ file.length by omega) hm
  have hs : ¬ k + 1 ≥ file.length := by omega
  simp only [extras_clear hE, cstr_set hN (scan_first_zero hk (by omega) hz hnz), hs, if_false,
    cstr_clear hC, hcrc_clear hH] at hb
  exact ⟨_, init_true_iff.mpr hb, rfl, cstr_eq_take hk (by omega) hz hnz, rfl,
    by simp [ac_buf_bytes]⟩

/-- C2 at `demo_named`, scenario C of the specification; `k = 15`. -/
theorem ac_gzip_init_name_witness :
    ∃ r, ac_gzip_init demo_dirty demo_named = some (true, r) ∧
      r.name = some 10 ∧ ac_cstr demo_named 10 = (demo_named.drop 10).take (15 - 10) ∧
      r.rest = ⟨some (15 + 1), demo_named.length - (15 + 1)⟩ ∧
      ac_buf_bytes demo_named r.rest = demo_named.drop (15 + 1) :=
  ac_gzip_init_name demo_dirty demo_named 15
    (by decide) (by decide) (by decide) (by decide) (by decide) (by decide) (by decide)
    (by decide) (by decide) (by decide) (by decide)

/-- A buffer whose NAME flag (respectively COMMENT flag) is set and in which
no zero byte occurs between the offset `s` at which the code starts scanning
that field and the end of the buffer: `ac_gzip_init` returns false. -/
theorem init_unterminated_at (g : ac_gzip) (file : List Byte) (s : Nat)
    (hf : (byte file 3 &&& AC_GZIP_FLAG_NAME ≠ 0 ∧ ac_gzip_name_offset file = some s) ∨
      (byte file 3 &&& AC_GZIP_FLAG_COMMENT ≠ 0 ∧ ac_gzip_comment_offset file = some s))
    (hnz : ∀ i, i < file.length → s ≤ i → byte file i ≠ 0) :
    ac_gzip_init g file = some (false, ac_gzip_zero) := by
  apply init_false_of_body
  by_cases h10 : file.length < 10
  · exact body_short h10
  have hlen : 10 ≤ file.length := by omega
  by_cases hm : byte file 0 + 256 * byte file 1 = AC_GZIP_MAGIC
  swap
  · exact body_bad_magic hlen hm
  rw [body_of_magic hlen hm]
  obtain ⟨z, hz, hz1⟩ := scan_no_zero hnz
  rcases hf with ⟨hN, hs⟩ | ⟨hC, hs⟩
  · unfold ac_gzip_name_offset at hs
    cases h1 : ac_gzip_init_extras file (byte file 3) 10 with
    | error e => simp [h1] at hs
    | ok v1 =>
      obtain ⟨o1, e⟩ := v1
      simp only [h1, Option.some.injEq] at hs
      subst hs
      simp [cstr_set hN hz, hz1]
  · unfold ac_gzip_comment_offset at hs
    cases h1 : ac_gzip_init_extras file (byte file 3) 10 with
    | error e => simp [h1] at hs
    | ok v1 =>
      obtain ⟨o1, e⟩ := v1
      simp only [h1] at hs
      cases h2 : ac_gzip_init_cstr file (byte file 3) AC_GZIP_FLAG_NAME o1 with
      | error e => simp [h2] at hs
      | ok v2 =>
        obtain ⟨o2, nm⟩ := v2
        simp only [h2, Option.some.injEq] at hs
        subst hs
        simp [h2, cstr_set hC hz, hz1]

/-- A byte of a buffer inside its first part. -/
theorem byte_append_left {a b : List Byte} {i : Nat} (h : i < a.length) :
    byte (a ++ b) i = byte a i := by
  unfold byte
  rw [List.getD_append _ _ _ _ h]

/-- A byte of a buffer past its first part. -/
theorem byte_append_right {a b : List Byte} {i : Nat} (h : a.length ≤ i) :
    byte (a ++ b) i = byte b (i - a.length) := by
  unfold byte
  rw [List.getD_append_right _ _ _ _ h]

/-- The bytes of `demo_extra_unterminated` below index 12. -/
theorem demo_extra_head {i : Nat} (h : i < 12) :
    byte demo_extra_unterminated i =
      byte [0x1f, 0x8b, 8, 0x0c, 0, 0, 0, 0, 0, 0xff, 0x2a, 0x8b] i :=
  byte_append_left h

/-- The last three bytes of a buffer made of 12 bytes, `n` more bytes and
three last ones. -/
theorem byte_of_tail (hd tl : List Byte) (c : Byte) (n i : Nat) (h12 : hd.length = 12)
    (h : 12 + n ≤ i) :
    byte (hd ++ (List.replicate n c ++ tl)) i = byte tl (i - (12 + n)) := by
  rw [byte_append_right (by omega), byte_append_right (by rw [List.length_replicate]; omega),
    List.length_replicate, h12, Nat.sub_sub]

/-- The last three bytes of `demo_extra_unterminated`. -/
theorem demo_extra_tail {i : Nat} (h : 35637 ≤ i) :
    byte demo_extra_unterminated i = byte [0, 1, 1] (i - 35637) :=
  byte_of_tail _ _ 1 35625 i rfl h

/-- The length of a buffer made of three parts, the middle one `n` equal
bytes. -/
theorem length_of_parts (hd tl : List Byte) (c : Byte) (n : Nat) :
    (hd ++ (List.replicate n c ++ tl)).length = hd.length + (n + tl.length) := by
  rw [List.length_append, List.length_append, List.length_replicate]

theorem demo_extra_length : demo_extra_unterminated.length = 35640 :=
  length_of_parts _ _ 1 35625

/-- A buffer of 35640 bytes with the magic number, the flags EXTRA and NAME
alone and a zero byte at index 35637: `ac_gzip_init` stores an index whose
extra field is the 35625 bytes (`0x8b1f + 10`) from offset 12, whose name
starts at 35637, and whose `rest` is the last two bytes, whatever the length
field at offset 10 holds. -/
theorem body_name_after_magic_extra {file : List Byte} (hlen : file.length = 35640)
    (hm : byte file 0 + 256 * byte file 1 = AC_GZIP_MAGIC) (h3 : byte file 3 = 0x0c)
    (hz : byte file 35637 = 0) :
    ac_gzip_init_body file =
      .ok ⟨file, header_of file, ⟨some 12, 35625⟩, some 35637, none, 0, ⟨some 35638, 2⟩,
        ⟨0, 0⟩⟩ := by
  have hscan : ac_gzip_init_scan file 35637 = .ok 35637 :=
    scan_first_zero (Nat.le_refl _) (by omega) hz (fun i h1 h2 => by omega)
  have hE : ac_gzip_init_extras file (byte file 3) 10 = .ok (35637, ⟨some 12, 35625⟩) := by
    rw [extras_set (by rw [h3]; decide) (by omega), hm, hlen]
    rfl
  have hN : ac_gzip_init_cstr file (byte file 3) AC_GZIP_FLAG_NAME 35637 =
      .ok (35638, some 35637) := by
    rw [cstr_set (by rw [h3]; decide) hscan, hlen]
    rfl
  have hC : ac_gzip_init_cstr file (byte file 3) AC_GZIP_FLAG_COMMENT 35638 =
      .ok (35638, none) :=
    cstr_clear (by rw [h3]; decide)
  have hH : ac_gzip_init_hcrc file (byte file 3) 35638 = .ok (35638, 0) :=
    hcrc_clear (by rw [h3]; decide)
  rw [body_of_magic (by omega) hm, hE]
  simp only [hN, hC, hH, hlen]
  rfl

/-- C9, evaluated on the code: `demo_extra_unterminated` has the EXTRA and NAME
flags, its length field at offset 10 is 35626, so that in the container
format (`spec_name_start`) the name field starts at 35638, and no zero byte
occurs from there to the end of the buffer (35640 bytes); yet `ac_gzip_init`
returns true. Line 129 takes `extra_size` from the magic number plus the
offset (`0x8b1f + 10 = 35625`), not from the length field, so the code starts
scanning the name at 35637, inside the extra field, where it finds a zero
byte: it stores `name = file.data + 35637` and a `rest` of the last 2 bytes.
On buffers without the EXTRA flag, where the name field starts at offset 10
for the format and for the code alike, the claim holds for the NAME flag. -/
theorem ac_gzip_init_unterminated_after_extra :
    byte demo_extra_unterminated 3 &&& AC_GZIP_FLAG_NAME ≠ 0 ∧
    demo_extra_unterminated.length = 35640 ∧
    spec_name_start demo_extra_unterminated = 35638 ∧
    (∀ i, i < demo_extra_unterminated.length → spec_name_start demo_extra_unterminated ≤ i →
      byte demo_extra_unterminated i ≠ 0) ∧
    (∃ r, ac_gzip_init demo_dirty demo_extra_unterminated = some (true, r) ∧
      r.extra = ⟨some 12, 35625⟩ ∧ r.name = some 35637 ∧ r.rest = ⟨some 35638, 2⟩) ∧
    ∀ (g : ac_gzip) (file : List Byte),
      byte file 3 &&& AC_GZIP_FLAG_EXTRA = 0 → byte file 3 &&& AC_GZIP_FLAG_NAME ≠ 0 →
      (∀ i, i < file.length → spec_name_start file ≤ i → byte file i ≠ 0) →
      ac_gzip_init g file = some (false, ac_gzip_zero) := by
  have hlen := demo_extra_length
  have h3 : byte demo_extra_unterminated 3 = 0x0c := by rw [demo_extra_head (by decide)]; rfl
  have hstart : spec_name_start demo_extra_unterminated = 35638 := by
    unfold spec_name_start
    rw [h3, demo_extra_head (show 10 < 12 by decide), demo_extra_head (show 11 < 12 by decide)]
    rfl
  refine ⟨by rw [h3]; decide, hlen, hstart, ?_, ?_, ?_⟩
  · intro i hi hs
    rw [hlen] at hi
    rw [hstart] at hs
    rw [demo_extra_tail (by omega)]
    have hi2 : i = 35638 ∨ i = 35639 := by omega
    rcases hi2 with h | h <;> subst h <;> decide
  · have hm : byte demo_extra_unterminated 0 + 256 * byte demo_extra_unterminated 1 =
        AC_GZIP_MAGIC := by
      rw [demo_extra_head (show 0 < 12 by decide), demo_extra_head (show 1 < 12 by decide)]
      rfl
    have hz : byte demo_extra_unterminated 35637 = 0 := by
      rw [demo_extra_tail (Nat.le_refl _)]
      rfl
    exact ⟨_, init_true_iff.mpr (body_name_after_magic_extra hlen hm h3 hz), rfl, rfl, rfl⟩
  · intro g file hE hN hnz
    have hs : spec_name_start file = 10 := by
      unfold spec_name_start
      simp [hE]
    rw [hs] at hnz
    refine init_unterminated_at g file 10 (Or.inl ⟨hN, ?_⟩) hnz
    unfold ac_gzip_name_offset
    rw [extras_clear hE]

/-- C3, evaluated on the code: the buffer below has the EXTRA flag alone, the
length field `b[10] + 256*b[11] = 0` and `size = 14 > 12 + 0`, yet
`ac_gzip_init` returns false: the code takes `extra_size` from the magic
number plus the offset (`0x8b1f + 10 = 35625`), not from the bytes at offset
10, and then finds `12 + 35625 >= size`. -/
theorem ac_gzip_init_extra_size_from_magic :
    byte [0x1f, 0x8b, 8, 4, 0, 0, 0, 0, 0, 0xff, 0, 0, 1, 2] 3 &&& AC_GZIP_FLAG_EXTRA ≠ 0 ∧
    byte [0x1f, 0x8b, 8, 4, 0, 0, 0, 0, 0, 0xff, 0, 0, 1, 2] 10
      + 256 * byte [0x1f, 0x8b, 8, 4, 0, 0, 0, 0, 0, 0xff, 0, 0, 1, 2] 11 = 0 ∧
    ([0x1f, 0x8b, 8, 4, 0, 0, 0, 0, 0, 0xff, 0, 0, 1, 2] : List Byte).length > 12 + 0 ∧
    ac_gzip_init_extras [0x1f, 0x8b, 8, 4, 0, 0, 0, 0, 0, 0xff, 0, 0, 1, 2] 4 10 =
      .error .ret_false ∧
    ac_gzip_init ac_gzip_zero [0x1f, 0x8b, 8, 4, 0, 0, 0, 0, 0, 0xff, 0, 0, 1, 2] =
      some (false, ac_gzip_zero) :=
  ⟨by decide, by decide, by decide, rfl, by decide⟩

/-- C4, evaluated on the code: the buffer below has the HCRC flag alone,
`size = 13 > 12` and `b[10] + 256*b[11] = 0`; `ac_gzip_init` succeeds with
`rest` at offset 12 but stores `header_crc = 35625 = 0x8b1f + 10`, the magic
number plus the offset, not the 16-bit value at offset 10. -/
theorem ac_gzip_init_hcrc_from_magic :
    byte [0x1f, 0x8b, 8, 2, 0, 0, 0, 0, 0, 0xff, 0, 0, 1] 3 &&& AC_GZIP_FLAG_HCRC ≠ 0 ∧
    byte [0x1f, 0x8b, 8, 2, 0, 0, 0, 0, 0, 0xff, 0, 0, 1] 10
      + 256 * byte [0x1f, 0x8b, 8, 2, 0, 0, 0, 0, 0, 0xff, 0, 0, 1] 11 = 0 ∧
    ac_gzip_init ac_gzip_zero [0x1f, 0x8b, 8, 2, 0, 0, 0, 0, 0, 0xff, 0, 0, 1] =
      some (true, { buffer := [0x1f, 0x8b, 8, 2, 0, 0, 0, 0, 0, 0xff, 0, 0, 1],
                    header := ⟨0x8b1f, 8, 2, 0, 0, 0xff⟩, extra := ⟨none, 0⟩, name := none,
                    comment := none, header_crc := 35625, rest := ⟨some 12, 1⟩,
                    footer := ⟨0, 0⟩ }) :=
  ⟨by decide, by decide, by decide⟩

/-- C8, evaluated on the code: the buffer below has the magic bytes `1f 8b`
and compression-method byte 0, not 8, yet `ac_gzip_magic_match` returns true
and `ac_gzip_init` returns true: the comparison of `b[2]` with
`AC_GZIP_COMPRESSION_DEFLATE` sits after an unconditional `return`. -/
theorem ac_gzip_magic_match_ignores_method :
    byte [0x1f, 0x8b, 0, 0, 0, 0, 0, 0, 0, 0xff, 3] 2 ≠ AC_GZIP_COMPRESSION_DEFLATE ∧
    ac_gzip_magic_match [0x1f, 0x8b, 0, 0, 0, 0, 0, 0, 0, 0xff, 3] = .ok true ∧
    ac_gzip_init ac_gzip_zero [0x1f, 0x8b, 0, 0, 0, 0, 0, 0, 0, 0xff, 3] =
      some (true, { buffer := [0x1f, 0x8b, 0, 0, 0, 0, 0, 0, 0, 0xff, 3],
                    header := ⟨0x8b1f, 0, 0, 0, 0, 0xff⟩, extra := ⟨none, 0⟩, name := none,
                    comment := none, header_crc := 0, rest := ⟨some 10, 1⟩,
                    footer := ⟨0, 0⟩ }) :=
  ⟨by decide, rfl, by decide⟩

/-- C10: truncation is always rejected: for every buffer on which
`ac_gzip_init` succeeds with `rest` starting at byte offset `k`, and every
`n <= k`, `ac_gzip_init` applied to the first `n` bytes of that buffer returns
false. -/
theorem ac_gzip_init_truncated (g g2 : ac_gzip) (file : List Byte) (r : ac_gzip) (k n : Nat)
    (h : ac_gzip_init g file = some (true, r)) (hk : r.rest.data = some k) (hn : n ≤ k) :
    ac_gzip_init g2 (file.take n) = some (false, ac_gzip_zero) :=
  init_false_of_body (body_take (init_true_iff.mp h) hk hn)

/-- C10 twice: `demo_plain` (payload at offset 10) cut right after the fixed
header, and `demo_named` (payload at offset 16) cut inside the name. -/
theorem ac_gzip_init_truncated_witness :
    (ac_gzip_init demo_dirty demo_plain = some (true, demo_plain_index) ∧
      demo_plain_index.rest.data = some 10 ∧
      ac_gzip_init demo_dirty (demo_plain.take 10) = some (false, ac_gzip_zero)) ∧
    (ac_gzip_init demo_dirty demo_named = some (true, demo_named_index) ∧
      demo_named_index.rest.data = some 16 ∧
      ac_gzip_init demo_dirty (demo_named.take 13) = some (false, ac_gzip_zero)) :=
  ⟨⟨by decide, rfl,
    ac_gzip_init_truncated demo_dirty demo_dirty demo_plain demo_plain_index 10 10
      (by decide) rfl (by decide)⟩,
   ⟨init_demo_named demo_dirty, rfl,
    ac_gzip_init_truncated demo_dirty demo_dirty demo_named demo_named_index 16 13
      (init_demo_named demo_dirty) rfl (by decide)⟩⟩

/-- C11: for every buffer, `ac_gzip_magic_match` and `ac_gzip_init` never load
outside the buffer (the out-of-bounds outcome of the indexing is never
reached), and whenever `ac_gzip_init` succeeds the `extra` span, the name and
the comment with their terminators, and the non-empty `rest` span lie inside
the buffer, `rest` ending exactly at the buffer end. -/
theorem ac_gzip_init_in_bounds (g : ac_gzip) (file : List Byte) :
    ac_gzip_magic_match file ≠ .error .oob ∧ ac_gzip_init g file ≠ none ∧
    ∀ r, ac_gzip_init g file = some (true, r) →
      (∀ p, r.extra.data = some p → p + r.extra.size ≤ file.length) ∧
      (∀ p, r.name = some p → p + (ac_cstr file p).length < file.length ∧
        byte file (p + (ac_cstr file p).length) = 0) ∧
      (∀ p, r.comment = some p → p + (ac_cstr file p).length < file.length ∧
        byte file (p + (ac_cstr file p).length) = 0) ∧
      ∃ k, r.rest.data = some k ∧ 0 < r.rest.size ∧ k + r.rest.size = file.length := by
  refine ⟨magic_match_ne_oob file, ?_, ?_⟩
  · unfold ac_gzip_init
    rcases body_cases file with h | ⟨r, h⟩ <;> simp [h]
  · intro r hr
    obtain ⟨hlen, _, o1, e, o2, nm, o3, cm, o4, hc, h1, h2, h3, h4, h5, hr2⟩ :=
      body_ok_inv (init_true_iff.mp hr)
    subst hr2
    refine ⟨?_, ?_, ?_, ⟨o4, rfl, by simp only; omega, by simp only; omega⟩⟩
    · rcases extras_cases file (byte file 3) 10 (by omega) with
        h | ⟨_, _, h, hf⟩
      · rw [h1] at h; cases h
      · rw [h1] at h
        cases h
        exact hf
    · rcases cstr_cases file (byte file 3) AC_GZIP_FLAG_NAME o1 with h | ⟨_, _, h, hf⟩
      · rw [h2] at h; cases h
      · rw [h2] at h
        cases h
        exact hf
    · rcases cstr_cases file (byte file 3) AC_GZIP_FLAG_COMMENT o2 with h | ⟨_, _, h, hf⟩
      · rw [h3] at h; cases h
      · rw [h3] at h
        cases h
        exact hf

/-- C11 at `demo_named`: the name `a.txt` at offset 10 ends with its
terminator at index 15, and `rest` is the two bytes `[16, 18)`. -/
theorem ac_gzip_init_in_bounds_witness :
    ac_gzip_init demo_dirty demo_named ≠ none ∧
    (10 + (ac_cstr demo_named 10).length < demo_named.length ∧
      byte demo_named (10 + (ac_cstr demo_named 10).length) = 0) ∧
    ∃ k, demo_named_index.rest.data = some k ∧ 0 < demo_named_index.rest.size ∧
      k + demo_named_index.rest.size = demo_named.length :=
  ⟨(ac_gzip_init_in_bounds demo_dirty demo_named).2.1,
   ((ac_gzip_init_in_bounds demo_dirty demo_named).2.2 demo_named_index
      (init_demo_named demo_dirty)).2.1 10 rfl,
   ((ac_gzip_init_in_bounds demo_dirty demo_named).2.2 demo_named_index
      (init_demo_named demo_dirty)).2.2.2⟩

/-- C12: whenever `ac_gzip_init` returns false, every field of the output
index (buffer, header, extra, name, comment, header_crc, rest, footer) is
zero or empty, whatever index `g` was passed in and whichever check failed. -/
theorem ac_gzip_init_false_zero (g : ac_gzip) (file : List Byte) (r : ac_gzip)
    (h : ac_gzip_init g file = some (false, r)) :
    r.buffer = [] ∧ r.header = ⟨0, 0, 0, 0, 0, 0⟩ ∧ r.extra = ⟨none, 0⟩ ∧ r.name = none ∧
    r.comment = none ∧ r.header_crc = 0 ∧ r.rest = ⟨none, 0⟩ ∧ r.footer = ⟨0, 0⟩ := by
  have hr := (init_false_iff.mp h).2
  subst hr
  exact ⟨rfl, rfl, rfl, rfl, rfl, rfl, rfl, rfl⟩

/-- C12 at `demo_named` cut inside the name, starting from an index none of
whose fields is zero. -/
theorem ac_gzip_init_false_zero_witness :
    ac_gzip_init demo_dirty (demo_named.take 13) = some (false, ac_gzip_zero) ∧
    ac_gzip_zero.buffer = [] ∧ ac_gzip_zero.header = ⟨0, 0, 0, 0, 0, 0⟩ ∧
    ac_gzip_zero.extra = ⟨none, 0⟩ ∧ ac_gzip_zero.name = none ∧
    ac_gzip_zero.comment = none ∧ ac_gzip_zero.header_crc = 0 ∧
    ac_gzip_zero.rest = ⟨none, 0⟩ ∧ ac_gzip_zero.footer = ⟨0, 0⟩ :=
  have h : ac_gzip_init demo_dirty (demo_named.take 13) = some (false, ac_gzip_zero) :=
    init_false_of_body (body_take (init_true_iff.mp (init_demo_named demo_dirty)) rfl
      (by decide))
  ⟨h, ac_gzip_init_false_zero demo_dirty (demo_named.take 13) ac_gzip_zero h⟩

end AcGzip

/-! ## The inflate driver: what a run leaves alone -/

namespace AcGzip

open AcMem

theorem ac_min_self_double (c : Nat) : ac_min c (2 * c) = c := by
  unfold ac_min
  split <;> omega

/-- What `ac_list_realloc` stores in `len` and `cap`, whatever the allocator
returns. -/
theorem realloc_len_cap {α : Type} {l l2 : ac_list_uint8_t} {a a2 : ac_allocator α} {n : Nat}
    (h : ac_list_realloc l a n = some (l2, a2)) :
    l2.len = ac_min l.len n ∧ l2.cap = n := by
  unfold ac_list_realloc at h
  simp only [] at h
  split at h
  · cases h
  · simp only [Option.some.injEq, Prod.mk.injEq] at h
    obtain ⟨h1, _⟩ := h
    subst h1
    exact ⟨by simp, rfl⟩

/-- One call of `mz_inflate` leaves the index, the list header, the allocator
and the regrowth counter alone. -/
theorem mz_inflate_frame {σ α : Type} {D : mz_inflater σ} {st st2 : inflate_state σ α}
    {status : mz_status} (h : mz_inflate D st = .ok (status, st2)) :
    st2.gzip = st.gzip ∧ st2.out.len = st.out.len ∧ st2.out.cap = st.out.cap ∧
    st2.grows = st.grows ∧ st2.alloc = st.alloc := by
  unfold mz_inflate at h
  simp only [] at h
  split at h
  · cases h
  · simp only [Except.ok.injEq, Prod.mk.injEq] at h
    obtain ⟨_, h2⟩ := h
    subst h2
    exact ⟨rfl, rfl, rfl, rfl, rfl⟩

/-- A regrowth leaves the index alone, sets `len` to the old capacity and
doubles `cap`, whatever the allocator returns. -/
theorem regrow_frame {σ α : Type} {st st2 : inflate_state σ α}
    (h : ac_gzip_inflate_regrow st = .ok st2) :
    st2.gzip = st.gzip ∧ st2.out.len = st.out.cap ∧ st2.out.cap = 2 * st.out.cap ∧
    st2.grows = st.grows + 1 ∧ st2.stream.total_in = st.stream.total_in ∧
    st2.stream.total_out = st.stream.total_out := by
  unfold ac_gzip_inflate_regrow at h
  simp only [] at h
  split at h
  · cases h
  · rename_i out alloc hr
    have hlc := realloc_len_cap hr
    simp only [Except.ok.injEq] at h
    subst h
    refine ⟨rfl, ?_, hlc.2, rfl, rfl, rfl⟩
    simp only [hlc.1, ac_min_self_double]

/-- The loop leaves the index alone and keeps the length policy, however it
is left. -/
theorem loop_frame {σ α : Type} (D : mz_inflater σ) : ∀ (fuel : Nat)
    (st st2 : inflate_state σ α) (x : Option inflate_exit),
    ac_gzip_inflate_loop D fuel st = .ok (x, st2) →
    st2.gzip = st.gzip ∧ (len_policy st → len_policy st2) ∧
    (x = none ∨ x = some .decode_error ∨ x = some .input_exhausted) := by
  intro fuel
  induction fuel with
  | zero => intro st st2 x h; simp [ac_gzip_inflate_loop] at h
  | succ fuel ih =>
    intro st st2 x h
    rw [ac_gzip_inflate_loop] at h
    cases hm : mz_inflate D st with
    | error t => simp [hm] at h
    | ok v =>
      obtain ⟨status, st1⟩ := v
      obtain ⟨f1, f2, f3, f4, _⟩ := mz_inflate_frame hm
      have hp : len_policy st → len_policy st1 := by
        intro hp
        unfold len_policy at hp ⊢
        rw [f2, f3, f4]
        exact hp
      simp only [hm] at h
      split at h
      · simp only [Except.ok.injEq, Prod.mk.injEq] at h
        obtain ⟨h1, h2⟩ := h
        subst h1 h2
        exact ⟨f1, hp, Or.inl rfl⟩
      · split at h
        · simp only [Except.ok.injEq, Prod.mk.injEq] at h
          obtain ⟨h1, h2⟩ := h
          subst h1 h2
          exact ⟨f1, hp, Or.inr (Or.inl rfl)⟩
        · split at h
          · simp only [Except.ok.injEq, Prod.mk.injEq] at h
            obtain ⟨h1, h2⟩ := h
            subst h1 h2
            exact ⟨f1, hp, Or.inr (Or.inr rfl)⟩
          · split at h
            · cases hr : ac_gzip_inflate_regrow st1 with
              | error t => simp [hr] at h
              | ok st3 =>
                simp only [hr] at h
                obtain ⟨g1, g2, g3, g4, _⟩ := regrow_frame hr
                obtain ⟨i1, i2, i3⟩ := ih st3 st2 x h
                refine ⟨by rw [i1, g1, f1], fun _ => i2 ?_, i3⟩
                unfold len_policy
                rw [g2, g3, g4]
                exact ⟨fun h0 => by omega, fun _ => rfl⟩
            · obtain ⟨i1, i2, i3⟩ := ih st1 st2 x h
              exact ⟨by rw [i1, f1], fun hp0 => i2 (hp hp0), i3⟩

theorem load8_of_ge {file : List Byte} {i : Nat} (h : file.length ≤ i) :
    load8 file i = .error .oob := by
  simp [load8, List.getElem?_eq_none h]

/-- A 32-bit load that yields a value lies inside the list and yields the
little-endian value of its four bytes. -/
theorem load32_ok {l : List Byte} {i v : Nat} (h : load32 l i = .ok v) :
    i + 3 < l.length ∧
    v = byte l i + 256 * byte l (i + 1) + 65536 * byte l (i + 2) + 16777216 * byte l (i + 3) := by
  by_cases hi : i + 3 < l.length
  · rw [load32_of_lt hi] at h
    refine ⟨hi, ?_⟩
    have := Except.ok.inj h
    omega
  · exfalso
    have h3 : load8 l (i + 2 + 1) = .error .oob := load8_of_ge (by omega)
    unfold load32 at h
    cases h1 : load16 l i with
    | error e => simp [h1] at h
    | ok lo =>
      simp only [h1] at h
      unfold load16 at h
      cases h2 : load8 l (i + 2) with
      | error e => simp [h2] at h
      | ok b => simp [h2, h3] at h

theorem rest_bytes_length {gzip : ac_gzip} {k : Nat} (hk : gzip.rest.data = some k)
    (hin : k + gzip.rest.size ≤ gzip.buffer.length) :
    (ac_buf_bytes gzip.buffer gzip.rest).length = gzip.rest.size := by
  simp [ac_buf_bytes, hk]
  omega

/-- The entry state has the index passed in, length 0 and no regrowth. -/
theorem start_frame {σ α : Type} {D : mz_inflater σ} {gzip : ac_gzip} {out : ac_list_uint8_t}
    {alloc : ac_allocator α} {st : inflate_state σ α}
    (h : ac_gzip_inflate_start D gzip out alloc = .ok st) :
    st.gzip = gzip ∧ st.out.len = 0 ∧ st.grows = 0 := by
  unfold ac_gzip_inflate_start at h
  simp only [] at h
  split at h
  · cases h
  · rename_i o a hg
    simp only [Except.ok.injEq] at h
    subst h
    refine ⟨rfl, ?_, rfl⟩
    simp only
    split at hg
    · have := (realloc_len_cap hg).1
      rw [this]
      unfold ac_min
      split <;> simp_all
    · simp only [Option.some.injEq, Prod.mk.injEq] at hg
      rw [← hg.1]

theorem start_ne_bad_load {σ α : Type} {D : mz_inflater σ} {gzip : ac_gzip}
    {out : ac_list_uint8_t} {alloc : ac_allocator α} :
    @ac_gzip_inflate_start σ α D gzip out alloc ≠ .error .bad_load := by
  unfold ac_gzip_inflate_start
  simp only []
  split <;> simp

theorem mz_inflate_ne_bad_load {σ α : Type} {D : mz_inflater σ} {st : inflate_state σ α} :
    mz_inflate D st ≠ .error .bad_load := by
  unfold mz_inflate
  simp only []
  split <;> simp

theorem regrow_ne_bad_load {σ α : Type} {st : inflate_state σ α} :
    ac_gzip_inflate_regrow st ≠ .error .bad_load := by
  unfold ac_gzip_inflate_regrow
  simp only []
  split <;> simp

/-- The loop loads nothing from `rest` itself. -/
theorem loop_ne_bad_load {σ α : Type} (D : mz_inflater σ) : ∀ (fuel : Nat)
    (st : inflate_state σ α), ac_gzip_inflate_loop D fuel st ≠ .error .bad_load := by
  intro fuel
  induction fuel with
  | zero => intro st; simp [ac_gzip_inflate_loop]
  | succ fuel ih =>
    intro st
    rw [ac_gzip_inflate_loop]
    cases hm : mz_inflate D st with
    | error t =>
      simp only []
      intro h
      have ht : t = .bad_load := Except.error.inj h
      subst ht
      exact mz_inflate_ne_bad_load hm
    | ok v =>
      obtain ⟨status, st1⟩ := v
      simp only []
      split
      · simp
      · split
        · simp
        · split
          · simp
          · split
            · cases hr : ac_gzip_inflate_regrow st1 with
              | error t =>
                simp only []
                intro h
                have ht : t = .bad_load := Except.error.inj h
                subst ht
                exact regrow_ne_bad_load hr
              | ok st3 => exact ih st3
            · exact ih st1

/-- The three ways out of the part `// Finish up.`. -/
theorem finish_inv {σ α : Type} {D : mz_inflater σ} {st st2 : inflate_state σ α}
    {e : inflate_exit} (h : ac_gzip_inflate_finish D st = .ok (e, st2)) :
    (e = .end_failed ∧ D.finish st.dec ≠ .MZ_OK ∧ st2.gzip = st.gzip ∧ st2.out = st.out ∧
      st2.grows = st.grows) ∨
    (e = .no_footer ∧ st.stream.total_in + 8 > st.gzip.rest.size ∧ st2.gzip = st.gzip ∧
      st2.out.len = st.stream.total_out ∧ st2.stream = st.stream) ∨
    (e = .done ∧ D.finish st.dec = .MZ_OK ∧ st.stream.total_in + 8 ≤ st.gzip.rest.size ∧
      st.stream.total_in + 8 ≤ (ac_buf_bytes st.gzip.buffer st.gzip.rest).length ∧
      st2.out.len = st.stream.total_out ∧ st2.stream = st.stream ∧
      st2.gzip = { st.gzip with
        footer := ⟨rest_le32 st.gzip st.stream.total_in,
                   rest_le32 st.gzip (st.stream.total_in + 4)⟩ }) := by
  unfold ac_gzip_inflate_finish at h
  simp only [] at h
  split at h
  · rename_i hf
    simp only [Except.ok.injEq, Prod.mk.injEq] at h
    obtain ⟨h1, h2⟩ := h
    subst h1 h2
    exact Or.inl ⟨rfl, hf, rfl, rfl, rfl⟩
  · rename_i hf
    split at h
    · rename_i hs
      simp only [Except.ok.injEq, Prod.mk.injEq] at h
      obtain ⟨h1, h2⟩ := h
      subst h1 h2
      exact Or.inr (Or.inl ⟨rfl, hs, rfl, rfl, rfl⟩)
    · rename_i hs
      split at h
      · rename_i crc size hc hz
        simp only [Except.ok.injEq, Prod.mk.injEq] at h
        obtain ⟨h1, h2⟩ := h
        subst h1 h2
        obtain ⟨_, hcv⟩ := load32_ok hc
        obtain ⟨hzl, hzv⟩ := load32_ok hz
        refine Or.inr (Or.inr ⟨rfl, by simpa using hf, by omega, by omega, rfl, rfl, ?_⟩)
        simp only [rest_le32, hcv, hzv]
      · cases h

/-- The part `// Finish up.` when finalization succeeds and the footer fits in
a `rest` that lies inside the buffer. -/
theorem finish_done {σ α : Type} {D : mz_inflater σ} {st : inflate_state σ α} {k : Nat}
    (hend : D.finish st.dec = .MZ_OK) (hfit : st.stream.total_in + 8 ≤ st.gzip.rest.size)
    (hk : st.gzip.rest.data = some k) (hin : k + st.gzip.rest.size ≤ st.gzip.buffer.length) :
    ∃ st2, ac_gzip_inflate_finish D st = .ok (.done, st2) := by
  have hl := rest_bytes_length hk hin
  have h1 : st.stream.total_in + 3 < (ac_buf_bytes st.gzip.buffer st.gzip.rest).length := by
    omega
  have h2 : st.stream.total_in + 4 + 3 < (ac_buf_bytes st.gzip.buffer st.gzip.rest).length := by
    omega
  have hs : ¬ st.stream.total_in + 8 > st.gzip.rest.size := by omega
  unfold ac_gzip_inflate_finish
  simp only [hend, ne_eq, not_true_eq_false, if_false, hs, load32_of_lt h1, load32_of_lt h2]
  exact ⟨_, rfl⟩

/-- A run is its entry state, its loop and its finishing part. -/
theorem inflate_inv {σ α : Type} {fuel : Nat} {D : mz_inflater σ} {gzip : ac_gzip}
    {out : ac_list_uint8_t} {alloc : ac_allocator α} {e : inflate_exit}
    {st : inflate_state σ α} (h : ac_gzip_inflate fuel D gzip out alloc = .ok (e, st)) :
    (e = .rest_too_short ∧ gzip.rest.size < 8 ∧ st.gzip = gzip ∧ st.out = out ∧
      st.alloc = alloc ∧ st.calls = 0) ∨
    (¬ gzip.rest.size < 8 ∧ ∃ st0, ac_gzip_inflate_start D gzip out alloc = .ok st0 ∧
      ((e = .init_failed ∧ D.init.1 ≠ .MZ_OK ∧ st = st0) ∨
       (D.init.1 = .MZ_OK ∧
        ((ac_gzip_inflate_loop D fuel st0 = .ok (some e, st)) ∨
         (∃ st1, ac_gzip_inflate_loop D fuel st0 = .ok (none, st1) ∧
            ac_gzip_inflate_finish D st1 = .ok (e, st)))))) := by
  unfold ac_gzip_inflate at h
  split at h
  · rename_i hs
    simp only [Except.ok.injEq, Prod.mk.injEq] at h
    obtain ⟨h1, h2⟩ := h
    subst h1 h2
    exact Or.inl ⟨rfl, hs, rfl, rfl, rfl, rfl⟩
  · rename_i hs
    right
    refine ⟨hs, ?_⟩
    cases h0 : @ac_gzip_inflate_start σ α D gzip out alloc with
    | error t => simp [h0] at h
    | ok st0 =>
      simp only [h0] at h
      refine ⟨st0, rfl, ?_⟩
      split at h
      · rename_i hi
        simp only [Except.ok.injEq, Prod.mk.injEq] at h
        exact Or.inl ⟨h.1.symm, hi, h.2.symm⟩
      · rename_i hi
        right
        refine ⟨by simpa using hi, ?_⟩
        cases hl : ac_gzip_inflate_loop D fuel st0 with
        | error t => simp [hl] at h
        | ok v =>
          obtain ⟨x, st1⟩ := v
          cases x with
          | none =>
            simp only [hl] at h
            exact Or.inr ⟨st1, rfl, h⟩
          | some e1 =>
            simp only [hl, Except.ok.injEq, Prod.mk.injEq] at h
            obtain ⟨h1, h2⟩ := h
            subst h1 h2
            exact Or.inl rfl

end AcGzip

/-! ## Allocation that succeeds -/

namespace AcMem

open AcGzip (Byte)

theorem ac_min_le_left (a b : Nat) : ac_min a b ≤ a := by
  unfold ac_min; split <;> omega

theorem ac_min_le_right (a b : Nat) : ac_min a b ≤ b := by
  unfold ac_min; split <;> omega

theorem ac_min_zero_left (b : Nat) : ac_min 0 b = 0 := by
  unfold ac_min; split <;> omega

/-- The functions of an allocator are the same after `ac_alloc`. -/
theorem ac_alloc_fns {α : Type} (a : ac_allocator α) (n : Nat) :
    (ac_alloc a n).2.alloc = a.alloc ∧ (ac_alloc a n).2.free = a.free := by
  unfold ac_alloc
  split <;> exact ⟨rfl, rfl⟩

/-- The functions of an allocator are the same after `ac_free`. -/
theorem ac_free_fns {α : Type} (a : ac_allocator α) (p : Option ac_block) :
    (ac_free a p).alloc = a.alloc ∧ (ac_free a p).free = a.free := by
  unfold ac_free
  split <;> exact ⟨rfl, rfl⟩

/-- An allocation function that never returns `NULL` makes `ac_alloc` return a
block of the size asked for. -/
theorem ac_alloc_some {α : Type} (a : ac_allocator α) (n : Nat)
    (h : (a.alloc a.state n).1 ≠ none) :
    ∃ nb, (ac_alloc a n).1 = some nb ∧ nb.bytes.length = n := by
  unfold ac_alloc
  split
  · rename_i addr fill s heq
    exact ⟨_, rfl, by simp⟩
  · rename_i s heq
    rw [heq] at h
    exact absurd rfl h

/-- The macro `ac_list_realloc` when the allocation succeeds and the old block
holds the `len` elements of the list: the new block has the capacity asked
for and starts with the elements kept. -/
theorem realloc_ok {α : Type} {l : ac_list_uint8_t} {a : ac_allocator α} {n : Nat}
    {ob : ac_block} (hd : l.data = some ob) (hlen : l.len ≤ ob.bytes.length)
    (ha : (a.alloc a.state n).1 ≠ none) :
    ∃ l2 a2 nb, ac_list_realloc l a n = some (l2, a2) ∧ l2.data = some nb ∧
      nb.bytes.length = n ∧ nb.bytes.take (ac_min l.len n) = ob.bytes.take (ac_min l.len n) ∧
      l2.len = ac_min l.len n ∧ l2.cap = n ∧ a2.alloc = a.alloc := by
  obtain ⟨nb, hnb, hnl⟩ := ac_alloc_some a n ha
  have hfn : ∀ p, (ac_free (ac_alloc a n).2 p).alloc = a.alloc := by
    intro p
    rw [(ac_free_fns _ _).1, (ac_alloc_fns _ _).1]
  have h1 := ac_min_le_left l.len n
  have h2 := ac_min_le_right l.len n
  unfold ac_list_realloc
  simp only [Nat.one_mul, hnb, hd]
  by_cases hc : ac_min l.len n = 0
  · simp only [hc, ne_eq, not_true_eq_false, if_false]
    exact ⟨_, _, nb, rfl, rfl, hnl, by simp, rfl, rfl, hfn _⟩
  · have hm : ac_memcpy nb.bytes ob.bytes (ac_min l.len n) =
        some (ob.bytes.take (ac_min l.len n) ++ nb.bytes.drop (ac_min l.len n)) := by
      unfold ac_memcpy
      rw [if_pos ⟨by omega, by omega⟩]
    simp only [hc, ne_eq, not_false_eq_true, if_true, hm]
    refine ⟨_, _, _, rfl, rfl, ?_, ?_, rfl, rfl, hfn _⟩
    · simp only [List.length_append, List.length_take, List.length_drop]
      omega
    · simp only
      rw [List.take_append_of_le_length (by simp; omega)]
      simp

/-- The macro `ac_list_realloc` on a list of length 0 when the allocation
succeeds: a fresh block of the capacity asked for, whatever `data` was. -/
theorem realloc_fresh {α : Type} {l : ac_list_uint8_t} {a : ac_allocator α} {n : Nat}
    (hl : l.len = 0) (ha : (a.alloc a.state n).1 ≠ none) :
    ∃ l2 a2 nb, ac_list_realloc l a n = some (l2, a2) ∧ l2.data = some nb ∧
      nb.bytes.length = n ∧ l2.len = 0 ∧ l2.cap = n ∧ a2.alloc = a.alloc := by
  obtain ⟨nb, hnb, hnl⟩ := ac_alloc_some a n ha
  have hfn : ∀ p, (ac_free (ac_alloc a n).2 p).alloc = a.alloc := by
    intro p
    rw [(ac_free_fns _ _).1, (ac_alloc_fns _ _).1]
  unfold ac_list_realloc
  simp only [Nat.one_mul, hnb, hl, ac_min_zero_left, ne_eq, not_true_eq_false, if_false]
  cases l.data with
  | none => exact ⟨_, _, nb, rfl, rfl, hnl, rfl, rfl, hfn _⟩
  | some ob => exact ⟨_, _, nb, rfl, rfl, hnl, rfl, rfl, hfn _⟩

end AcMem

/-! ## The regrowth -/

namespace AcGzip

open AcMem

/-- A regrowth whose allocation succeeds, from a state whose output block
holds `cap` bytes: the new block has twice the capacity and starts with the
bytes of the old one, and the output cursor is at the old capacity, with the
capacity added, reduced modulo `2 ^ 32`, as the space available. -/
theorem regrow_ok {σ α : Type} {st : inflate_state σ α} {b : ac_block}
    (hd : st.out.data = some b) (hb : b.bytes.length = st.out.cap)
    (ha : (st.alloc.alloc st.alloc.state (2 * st.out.cap)).1 ≠ none) :
    ∃ st2 b2, ac_gzip_inflate_regrow st = .ok st2 ∧ st2.out.data = some b2 ∧
      b2.bytes.length = 2 * st.out.cap ∧ b2.bytes.take st.out.cap = b.bytes ∧
      st2.out.len = st.out.cap ∧ st2.out.cap = 2 * st.out.cap ∧
      st2.stream = { st.stream with next_out := st.out.cap,
                                    avail_out := (2 * st.out.cap - st.out.cap) % 4294967296 } ∧
      st2.gzip = st.gzip ∧ st2.dec = st.dec ∧ st2.alloc.alloc = st.alloc.alloc ∧
      st2.calls = st.calls ∧ st2.grows = st.grows + 1 := by
  obtain ⟨l2, a2, nb, hr, h1, h2, h3, h4, h5, h6⟩ :=
    @realloc_ok α { st.out with len := st.out.cap } st.alloc (2 * st.out.cap) b hd
      (by simp only; omega) ha
  simp only [ac_min_self_double] at h3 h4
  unfold ac_gzip_inflate_regrow
  simp only [hr]
  refine ⟨_, nb, rfl, h1, h2, ?_, h4, h5, ?_, rfl, rfl, h6, rfl, rfl⟩
  · rw [h3, List.take_of_length_le (by omega)]
  · simp only [h5]

end AcGzip

/-! ## The loop under a decompressor that produces `x` -/

namespace AcGzip

open AcMem

/-- A store inside the block yields the block with the bytes replaced. -/
theorem mz_store_ok {b : ac_block} {off : Nat} {w : List Byte}
    (h : off + w.length ≤ b.bytes.length) :
    mz_store (some b) off w =
      some (some { b with bytes := b.bytes.take off ++ w ++ b.bytes.drop (off + w.length) }) := by
  unfold mz_store
  by_cases hw : w = []
  · subst hw
    simp
  · simp [hw, h]

/-- One call of `mz_inflate` from a state whose output space lies inside the
output block. -/
theorem mz_inflate_ok {σ α : Type} (D : mz_inflater σ) (st : inflate_state σ α) {b : ac_block}
    (hd : st.out.data = some b)
    (hsp : st.stream.next_out + st.stream.avail_out ≤ b.bytes.length) :
    ∃ (r : mz_reply σ) (w : List Byte) (st1 : inflate_state σ α) (b1 : ac_block),
      r = D.step st.dec
        (((ac_buf_bytes st.gzip.buffer st.gzip.rest).drop st.stream.next_in).take
          st.stream.avail_in) st.stream ∧
      w = r.written.take st.stream.avail_out ∧ w.length ≤ st.stream.avail_out ∧
      mz_inflate D st = .ok (r.status, st1) ∧
      st1.out.data = some b1 ∧
      b1.bytes = b.bytes.take st.stream.next_out ++ w ++
        b.bytes.drop (st.stream.next_out + w.length) ∧
      st1.out.cap = st.out.cap ∧ st1.alloc = st.alloc ∧ st1.gzip = st.gzip ∧
      st1.stream.next_out = st.stream.next_out + w.length ∧
      st1.stream.avail_out = st.stream.avail_out - w.length ∧
      st1.stream.total_out = st.stream.total_out + w.length ∧
      st1.stream.avail_in = st.stream.avail_in - min r.consumed st.stream.avail_in ∧
      st1.dec = r.state ∧
      st1.stream = mz_advance st.stream (min r.consumed st.stream.avail_in) w.length := by
  let r := D.step st.dec
    (((ac_buf_bytes st.gzip.buffer st.gzip.rest).drop st.stream.next_in).take
      st.stream.avail_in) st.stream
  let w := r.written.take st.stream.avail_out
  have hwl : w.length ≤ st.stream.avail_out := List.length_take_le _ _
  let b1 : ac_block :=
    { b with bytes := b.bytes.take st.stream.next_out ++ w ++
        b.bytes.drop (st.stream.next_out + w.length) }
  refine ⟨r, w,
    { st with
      out := { st.out with data := some b1 }
      stream := { next_in := st.stream.next_in + min r.consumed st.stream.avail_in,
                  avail_in := st.stream.avail_in - min r.consumed st.stream.avail_in,
                  total_in := st.stream.total_in + min r.consumed st.stream.avail_in,
                  next_out := st.stream.next_out + w.length,
                  avail_out := st.stream.avail_out - w.length,
                  total_out := st.stream.total_out + w.length }
      dec := r.state
      calls := st.calls + 1 },
    b1, rfl, rfl, hwl, ?_, rfl, rfl, rfl, rfl, rfl, rfl, rfl, rfl, rfl, rfl, rfl⟩
  unfold mz_inflate
  simp only [hd]
  rw [mz_store_ok (Nat.le_trans (Nat.add_le_add_left hwl _) hsp)]

end AcGzip

/-! ## The loop reaches stream-complete with `x` in the output -/

namespace AcGzip

open AcMem

/-- Under a decompressor that produces `x` (fewer than `2 ^ 32` bytes) over
the configurations `I`, the loop started in a configuration of `I` that
satisfies the invariant, with enough iterations allowed, is left by `break`
with `total_out = |x|`, `x` at the start of the output block, and a state
in which `mz_inflateEnd` reports `MZ_OK`. -/
theorem loop_produces {σ α : Type} {I : σ → mz_stream → Prop} {D : mz_inflater σ}
    {inp x : List Byte} (hD : mz_produces_within I D inp x) (hx : x.length < 4294967296) :
    ∀ (fuel : Nat) (st : inflate_state σ α), loop_inv x st → I st.dec st.stream →
    ac_buf_bytes st.gzip.buffer st.gzip.rest = inp →
    (x.length - st.stream.total_out) + st.stream.avail_in ≤ fuel →
    ∃ st2 b, ac_gzip_inflate_loop D fuel st = .ok (none, st2) ∧ st2.gzip = st.gzip ∧
      st2.stream.total_out = x.length ∧ st2.out.data = some b ∧
      b.bytes.take x.length = x ∧ D.finish st2.dec = .MZ_OK := by
  intro fuel
  induction fuel with
  | zero =>
    intro st hinv _ _ hf
    obtain ⟨_, b, _, _, _, _, _, _, hin, _⟩ := hinv
    omega
  | succ fuel ih =>
    intro st hinv hI hinp hf
    obtain ⟨ha, b, hd, hb, hsp, hno, hpre, hle, hin, hout⟩ := hinv
    obtain ⟨r, w, st1, b1, hr, hw, hwl, hstep, hd1, hb1, hcap1, hal1, hg1, hno1, hao1, hto1,
      hai1, hdec1, hstr1⟩ := mz_inflate_ok D st hd (by omega)
    have hrc : r = mz_call D inp st.dec st.stream := by
      rw [hr, ← hinp]
      rfl
    have hfacts := hD.2 st.dec st.stream hI hin hout hle
    rw [← hrc] at hfacts
    rw [← hw] at hfacts
    obtain ⟨hst, hwx, hend, hok⟩ := hfacts
    have hwle : w.length ≤ x.length - st.stream.total_out := by
      have := congrArg List.length hwx
      simp only [List.length_take, List.length_drop] at this
      omega
    have hb1l : b1.bytes.length = st1.out.cap := by
      rw [hb1, hcap1]
      simp only [List.length_append, List.length_take, List.length_drop]
      omega
    have hpre1 : b1.bytes.take st1.stream.total_out = x.take st1.stream.total_out := by
      rw [hb1, hto1, List.take_left' (by
        simp only [List.length_append, List.length_take]; omega), hno, hpre, List.take_add,
        ← hwx]
    rw [ac_gzip_inflate_loop]
    simp only [hstep]
    rcases hst with hs | hs
    · -- MZ_OK: the loop goes on
      obtain ⟨hc, hprog, hnext⟩ := hok hs
      have hmin : min r.consumed st.stream.avail_in = r.consumed := by omega
      have hI1 : I st1.dec st1.stream := by
        rw [hdec1, hstr1, hmin]
        exact hnext
      have hinp1 : ac_buf_bytes st1.gzip.buffer st1.gzip.rest = inp := by
        rw [hg1]
        exact hinp
      have hai : st1.stream.avail_in ≠ 0 := by
        rw [hai1]
        omega
      have hM : (x.length - st1.stream.total_out) + st1.stream.avail_in ≤ fuel := by
        rw [hto1, hai1]
        omega
      simp only [hs, reduceCtorEq, if_false, ne_eq, not_true_eq_false, hai]
      by_cases hz : st1.stream.avail_out = 0
      · simp only [hz, if_true]
        obtain ⟨st2, b2, hrg, g1, g2, g3, _, g5, g6, g7, g8, g9, _⟩ :=
          regrow_ok hd1 hb1l (by rw [hal1]; exact ha _ _)
        simp only [hrg]
        have hcapeq : st1.out.cap = st1.stream.total_out := by
          rw [hcap1, hto1]
          omega
        have hcapno : st1.out.cap = st1.stream.next_out := by
          rw [hcap1, hno1]
          omega
        have hmod : (2 * st1.out.cap - st1.out.cap) % 4294967296 = st1.stream.next_out := by
          rw [← hcapno]
          have : st1.out.cap < 4294967296 := by
            rw [hcapeq, hto1]
            omega
          omega
        have hstr2 : st2.stream = { st1.stream with avail_out := st1.stream.next_out } := by
          rw [g6, hmod, hcapno]
        have hI2 : I st2.dec st2.stream := by
          rw [g8, hstr2]
          exact hD.1 st1.dec st1.stream hI1 hz
        have hinv2 : loop_inv x st2 := by
          refine ⟨fun s n => by rw [g9, hal1]; exact ha s n, b2, g1, by rw [g2, g5], ?_, ?_,
            ?_, ?_, ?_, ?_⟩
          · rw [hstr2, g5]; simp only; omega
          · rw [hstr2]; simp only; omega
          · rw [hstr2]
            simp only
            rw [← hpre1, ← hcapeq, g3, List.take_of_length_le (by omega)]
          · rw [hstr2]; simp only; rw [hto1]; omega
          · rw [hstr2]; simp only; omega
          · rw [hstr2]; simp only; omega
        obtain ⟨st3, b3, i1, i2, i3, i4, i5, i6⟩ :=
          ih st2 hinv2 hI2 (by rw [g7]; exact hinp1) (by rw [hstr2]; simp only; exact hM)
        exact ⟨st3, b3, i1, by rw [i2, g7, hg1], i3, i4, i5, i6⟩
      · simp only [hz, if_false]
        have hinv1 : loop_inv x st1 := by
          refine ⟨fun s n => by rw [hal1]; exact ha s n, b1, hd1, hb1l, ?_, ?_, hpre1, ?_, ?_,
            ?_⟩
          · rw [hno1, hao1, hcap1]; omega
          · rw [hno1, hto1, hno]
          · rw [hto1]; omega
          · omega
          · omega
        obtain ⟨st3, b3, i1, i2, i3, i4, i5, i6⟩ := ih st1 hinv1 hI1 hinp1 hM
        exact ⟨st3, b3, i1, by rw [i2, hg1], i3, i4, i5, i6⟩
    · -- MZ_STREAM_END: the loop is left
      obtain ⟨hxl, hfin⟩ := hend hs
      simp only [hs, if_true]
      refine ⟨st1, b1, rfl, hg1, by rw [hto1]; exact hxl, hd1, ?_, by rw [hdec1]; exact hfin⟩
      have := hpre1
      rw [hto1, hxl, List.take_length] at this
      exact this

end AcGzip

/-! ## A whole run under a decompressor that produces `x` -/

namespace AcGzip

open AcMem

/-- The part `// Finish up.` leaves the output block and capacity alone. -/
theorem finish_data {σ α : Type} {D : mz_inflater σ} {st st2 : inflate_state σ α}
    {e : inflate_exit} (h : ac_gzip_inflate_finish D st = .ok (e, st2)) :
    st2.out.data = st.out.data ∧ st2.out.cap = st.out.cap := by
  unfold ac_gzip_inflate_finish at h
  simp only [] at h
  split at h
  · simp only [Except.ok.injEq, Prod.mk.injEq] at h
    rw [← h.2]
    exact ⟨rfl, rfl⟩
  · split at h
    · simp only [Except.ok.injEq, Prod.mk.injEq] at h
      rw [← h.2]
      exact ⟨rfl, rfl⟩
    · split at h
      · simp only [Except.ok.injEq, Prod.mk.injEq] at h
        rw [← h.2]
        exact ⟨rfl, rfl⟩
      · cases h

/-- The part `// Finish up.` when finalization succeeds, for a `rest` inside
the buffer: one of the last two exits, with the length set to `total_out`. -/
theorem finish_total {σ α : Type} {D : mz_inflater σ} {st : inflate_state σ α} {k : Nat}
    (hend : D.finish st.dec = .MZ_OK)
    (hk : st.gzip.rest.data = some k) (hin : k + st.gzip.rest.size ≤ st.gzip.buffer.length) :
    ∃ e st2, ac_gzip_inflate_finish D st = .ok (e, st2) ∧ (e = .done ∨ e = .no_footer) ∧
      st2.out.len = st.stream.total_out ∧ st2.out.data = st.out.data := by
  by_cases hfit : st.stream.total_in + 8 ≤ st.gzip.rest.size
  · obtain ⟨st2, h⟩ := finish_done hend hfit hk hin
    refine ⟨.done, st2, h, Or.inl rfl, ?_, (finish_data h).1⟩
    rcases finish_inv h with ⟨h1, _⟩ | ⟨h1, _⟩ | ⟨_, _, _, _, h2, _⟩
    · cases h1
    · cases h1
    · exact h2
  · have hs : st.stream.total_in + 8 > st.gzip.rest.size := by omega
    refine ⟨.no_footer,
      { st with calls := st.calls + 1, out := { st.out with len := st.stream.total_out } },
      ?_, Or.inr rfl, rfl, rfl⟩
    unfold ac_gzip_inflate_finish
    simp only [hend, ne_eq, not_true_eq_false, if_false, hs, if_true]

/-- The entry state when every allocation succeeds, a buffer that is kept is
a block of `cap` bytes, and `rest.size` and the first capacity fit the 32-bit
fields of the stream: the loop invariant holds, nothing is written yet, all
of `rest` is input and all of the output buffer is output space. -/
theorem start_ok {σ α : Type} (D : mz_inflater σ) (x : List Byte) (gzip : ac_gzip)
    (out : ac_list_uint8_t) (alloc : ac_allocator α) (hsz : 8 ≤ gzip.rest.size)
    (hin32 : 2 * gzip.rest.size < 4294967296) (hcap32 : out.cap < 4294967296)
    (hout : 2 * gzip.rest.size ≤ out.cap → ∃ b, out.data = some b ∧ b.bytes.length = out.cap)
    (halloc : ∀ s n, (alloc.alloc s n).1 ≠ none) :
    ∃ st0 : inflate_state σ α, ac_gzip_inflate_start D gzip out alloc = .ok st0 ∧
      loop_inv x st0 ∧ st0.gzip = gzip ∧ st0.dec = D.init.2 ∧
      st0.stream = ⟨0, gzip.rest.size, 0, 0,
        if out.cap < 2 * gzip.rest.size then 2 * gzip.rest.size else out.cap, 0⟩ := by
  have hm1 : gzip.rest.size % 4294967296 = gzip.rest.size := Nat.mod_eq_of_lt (by omega)
  unfold ac_gzip_inflate_start
  by_cases hc : out.cap < 2 * gzip.rest.size
  · obtain ⟨l2, a2, nb, hr, h1, h2, h3, h4, h5⟩ :=
      @realloc_fresh α { out with len := 0 } alloc (2 * gzip.rest.size) rfl
        (halloc _ _)
    have hm2 : l2.cap % 4294967296 = 2 * gzip.rest.size := by
      rw [h4]
      exact Nat.mod_eq_of_lt hin32
    simp only [hc, if_true, hr, hm1, hm2]
    refine ⟨_, rfl, ⟨fun s n => by simp only [h5]; exact halloc s n, nb, h1, by rw [h2, h4],
      ?_, rfl, ?_, ?_, ?_, ?_⟩, rfl, rfl, rfl⟩
    · simp only; omega
    · simp
    · simp
    · simp only; omega
    · simp only; omega
  · obtain ⟨b, hb1, hb2⟩ := hout (by omega)
    have hm2 : out.cap % 4294967296 = out.cap := Nat.mod_eq_of_lt hcap32
    simp only [hc, if_false, hm1, hm2]
    refine ⟨_, rfl, ⟨halloc, b, hb1, hb2, ?_, rfl, ?_, ?_, ?_, ?_⟩, rfl, rfl, rfl⟩
    · simp only; omega
    · simp
    · simp
    · simp only; omega
    · simp only; omega

/-- The example decompressor `chunk_inflater x used` produces `x`, on any
input and from any first output space. -/
theorem chunk_inflater_produces (x : List Byte) (used : Nat) (inp : List Byte)
    (avail_in avail_out : Nat) :
    mz_produces (chunk_inflater x used) inp avail_in avail_out x := by
  refine ⟨rfl, fun _ _ => True, trivial, fun _ _ _ _ => trivial, ?_⟩
  intro s v _ _ hout hle
  have hl : ((x.drop v.total_out).take v.avail_out).length ≤ v.avail_out :=
    List.length_take_le _ _
  have ht : ((x.drop v.total_out).take v.avail_out).take v.avail_out =
      (x.drop v.total_out).take v.avail_out := List.take_of_length_le hl
  have hself : (x.drop v.total_out).take v.avail_out =
      (x.drop v.total_out).take ((x.drop v.total_out).take v.avail_out).length := by
    simp only [List.length_take, List.length_drop]
    by_cases h : v.avail_out ≤ x.length - v.total_out
    · rw [Nat.min_eq_left h]
    · rw [Nat.min_eq_right (by omega)]
      rw [List.take_of_length_le (by simp; omega), List.take_of_length_le (by simp)]
  by_cases hend : v.total_out + ((x.drop v.total_out).take v.avail_out).length = x.length
  · have hstep : mz_call (chunk_inflater x used) inp s v =
        ⟨.MZ_STREAM_END, used - v.total_in, (x.drop v.total_out).take v.avail_out, ()⟩ := by
      simp only [mz_call, chunk_inflater, hend, if_true]
    rw [hstep]
    dsimp only
    rw [ht]
    exact ⟨Or.inr rfl, hself, fun _ => ⟨hend, rfl⟩, fun h => (by cases h)⟩
  · have hstep : mz_call (chunk_inflater x used) inp s v =
        ⟨.MZ_OK, 0, (x.drop v.total_out).take v.avail_out, ()⟩ := by
      simp only [mz_call, chunk_inflater, hend, if_false]
    rw [hstep]
    dsimp only
    rw [ht]
    refine ⟨Or.inl rfl, hself, fun h => (by cases h), fun _ => ⟨by omega, Or.inl ?_, trivial⟩⟩
    simp only [List.length_take, List.length_drop] at hend ⊢
    omega

end AcGzip

/-! ## The values of the output bytes do not steer a run -/

namespace AcGzip

open AcMem

theorem block_shape_cases {d1 d2 : Option ac_block} (h : block_shape d1 = block_shape d2) :
    (d1 = none ∧ d2 = none) ∨
    ∃ b1 b2, d1 = some b1 ∧ d2 = some b2 ∧ b1.addr = b2.addr ∧
      b1.bytes.length = b2.bytes.length := by
  cases d1 with
  | none =>
    cases d2 with
    | none => exact Or.inl ⟨rfl, rfl⟩
    | some b2 => simp [block_shape] at h
  | some b1 =>
    cases d2 with
    | none => simp [block_shape] at h
    | some b2 =>
      simp only [block_shape, Option.map_some', Option.some.injEq, Prod.mk.injEq] at h
      exact Or.inr ⟨b1, b2, rfl, rfl, h.1, h.2⟩

/-- Stores of as many bytes at the same offset into blocks of the same shape
both trap or both yield blocks of the same shape. -/
theorem mz_store_alike {d1 d2 : Option ac_block} {off : Nat} {w1 w2 : List Byte}
    (hd : block_shape d1 = block_shape d2) (hw : w1.length = w2.length) :
    (mz_store d1 off w1 = none ∧ mz_store d2 off w2 = none) ∨
    ∃ e1 e2, mz_store d1 off w1 = some e1 ∧ mz_store d2 off w2 = some e2 ∧
      block_shape e1 = block_shape e2 := by
  by_cases h1 : w1 = []
  · have h2 : w2 = [] := by
      subst h1
      exact List.length_eq_zero.mp hw.symm
    right
    exact ⟨d1, d2, by simp [mz_store, h1], by simp [mz_store, h2], hd⟩
  · have h2 : w2 ≠ [] := by
      intro h2
      subst h2
      exact h1 (List.length_eq_zero.mp hw)
    rcases block_shape_cases hd with ⟨e1, e2⟩ | ⟨b1, b2, e1, e2, ha, hl⟩
    · left
      subst e1 e2
      exact ⟨by simp [mz_store, h1], by simp [mz_store, h2]⟩
    · subst e1 e2
      by_cases hfit : off + w1.length ≤ b1.bytes.length
      · right
        have hfit2 : off + w2.length ≤ b2.bytes.length := by omega
        refine ⟨some ⟨b1.addr, b1.bytes.take off ++ w1 ++ b1.bytes.drop (off + w1.length)⟩,
          some ⟨b2.addr, b2.bytes.take off ++ w2 ++ b2.bytes.drop (off + w2.length)⟩,
          by simp only [mz_store, h1, if_false, hfit, if_true],
          by simp only [mz_store, h2, if_false, hfit2, if_true], ?_⟩
        simp only [block_shape, Option.map_some', Option.some.injEq, Prod.mk.injEq,
          List.length_append, List.length_take, List.length_drop]
        exact ⟨ha, by omega⟩
      · left
        have hfit2 : ¬ off + w2.length ≤ b2.bytes.length := by omega
        exact ⟨by simp only [mz_store, h1, if_false, hfit],
          by simp only [mz_store, h2, if_false, hfit2]⟩

/-- One call of `mz_inflate` under decompressors that are alike, from states
that are alike. -/
theorem mz_inflate_alike {σ α : Type} {D1 D2 : mz_inflater σ} (hD : mz_alike D1 D2)
    {s1 s2 : inflate_state σ α} (hs : state_alike s1 s2) :
    result_alike (fun a b => a.1 = b.1 ∧ state_alike a.2 b.2)
      (mz_inflate D1 s1) (mz_inflate D2 s2) := by
  obtain ⟨g1, g2, g3, g4, g5, g6, g7, g8, g9⟩ := hs
  obtain ⟨q1, q2, q3, q4⟩ := hD.2.2 s2.dec
    (((ac_buf_bytes s2.gzip.buffer s2.gzip.rest).drop s2.stream.next_in).take
      s2.stream.avail_in) s2.stream
  have hw : ((D1.step s2.dec
      (((ac_buf_bytes s2.gzip.buffer s2.gzip.rest).drop s2.stream.next_in).take
        s2.stream.avail_in) s2.stream).written.take s2.stream.avail_out).length =
      ((D2.step s2.dec
      (((ac_buf_bytes s2.gzip.buffer s2.gzip.rest).drop s2.stream.next_in).take
        s2.stream.avail_in) s2.stream).written.take s2.stream.avail_out).length := by
    simp only [List.length_take, q3]
  unfold mz_inflate
  simp only [g1, g6, g7]
  rcases @mz_store_alike _ _ s2.stream.next_out _ _ g4 hw with ⟨e1, e2⟩ | ⟨e1, e2, h1, h2, h3⟩
  · simp only [e1, e2]
    exact rfl
  · simp only [h1, h2, result_alike]
    exact ⟨q1, rfl, g2, g3, h3, g5, by simp only [q2, hw], q4, by simp only [g8], g9⟩

end AcGzip

namespace AcGzip

open AcMem

theorem ac_free_alike {α : Type} (a : ac_allocator α) {d1 d2 : Option ac_block}
    (h : block_shape d1 = block_shape d2) : ac_free a d1 = ac_free a d2 := by
  have : d1.map (fun b => b.addr) = d2.map (fun b => b.addr) := by
    rcases block_shape_cases h with ⟨e1, e2⟩ | ⟨b1, b2, e1, e2, ha, _⟩
    · rw [e1, e2]
    · rw [e1, e2]; simp [ha]
  unfold ac_free
  rw [this]

/-- The macro `ac_list_realloc` on two lists that differ at most in the
values of their bytes: both trap, or both yield lists that differ at most in
the values of their bytes, with the same allocator. -/
theorem realloc_alike {α : Type} {l1 l2 : ac_list_uint8_t} (hlen : l1.len = l2.len)
    (hsh : block_shape l1.data = block_shape l2.data) (a : ac_allocator α) (n : Nat) :
    (ac_list_realloc l1 a n = none ∧ ac_list_realloc l2 a n = none) ∨
    ∃ m1 m2 a2, ac_list_realloc l1 a n = some (m1, a2) ∧
      ac_list_realloc l2 a n = some (m2, a2) ∧ m1.len = m2.len ∧ m1.cap = m2.cap ∧
      block_shape m1.data = block_shape m2.data := by
  have hf := ac_free_alike (ac_alloc a n).2 hsh
  unfold ac_list_realloc
  simp only [Nat.one_mul, hlen, hf]
  cases hr : (ac_alloc a n).1 with
  | none =>
    right
    exact ⟨_, _, _, rfl, rfl, rfl, rfl, rfl⟩
  | some nb =>
    rcases block_shape_cases hsh with ⟨e1, e2⟩ | ⟨b1, b2, e1, e2, _, hl⟩
    · right
      simp only [e1, e2]
      exact ⟨_, _, _, rfl, rfl, rfl, rfl, rfl⟩
    · simp only [e1, e2]
      by_cases hc : ac_min l2.len n = 0
      · right
        simp only [hc, ne_eq, not_true_eq_false, if_false]
        exact ⟨_, _, _, rfl, rfl, rfl, rfl, rfl⟩
      · simp only [hc, ne_eq, not_false_eq_true, if_true]
        by_cases hfit : ac_min l2.len n ≤ b1.bytes.length ∧ ac_min l2.len n ≤ nb.bytes.length
        · right
          have hfit2 : ac_min l2.len n ≤ b2.bytes.length ∧
              ac_min l2.len n ≤ nb.bytes.length := by omega
          simp only [ac_memcpy, hfit, hfit2, and_self, if_true]
          refine ⟨_, _, _, rfl, rfl, rfl, rfl, ?_⟩
          simp only [block_shape, Option.map_some', Option.some.injEq, Prod.mk.injEq,
            List.length_append, List.length_take, List.length_drop, true_and]
          omega
        · left
          have hfit2 : ¬ (ac_min l2.len n ≤ b2.bytes.length ∧
              ac_min l2.len n ≤ nb.bytes.length) := by omega
          simp only [ac_memcpy, hfit, hfit2, if_false, and_self]

theorem regrow_alike {σ α : Type} {s1 s2 : inflate_state σ α} (hs : state_alike s1 s2) :
    result_alike state_alike (ac_gzip_inflate_regrow s1) (ac_gzip_inflate_regrow s2) := by
  obtain ⟨g1, g2, g3, g4, g5, g6, g7, g8, g9⟩ := hs
  unfold ac_gzip_inflate_regrow
  simp only [g3, g5]
  rcases @realloc_alike α ⟨s1.out.data, s2.out.cap, s2.out.cap⟩
    ⟨s2.out.data, s2.out.cap, s2.out.cap⟩ rfl g4 s2.alloc (2 * s2.out.cap) with
    ⟨e1, e2⟩ | ⟨m1, m2, a2, e1, e2, h1, h2, h3⟩
  · simp only [e1, e2]
    exact rfl
  · simp only [e1, e2, result_alike]
    exact ⟨g1, h1, h2, h3, rfl, by simp only [g6, h2], g7, g8, by simp only [g9]⟩

/-- The loop under decompressors that are alike, from states that are alike:
the same trap, or the same way out in states that are alike. -/
theorem loop_alike {σ α : Type} {D1 D2 : mz_inflater σ} (hD : mz_alike D1 D2) :
    ∀ (fuel : Nat) (s1 s2 : inflate_state σ α), state_alike s1 s2 →
    result_alike (fun a b => a.1 = b.1 ∧ state_alike a.2 b.2)
      (ac_gzip_inflate_loop D1 fuel s1) (ac_gzip_inflate_loop D2 fuel s2) := by
  intro fuel
  induction fuel with
  | zero =>
    intro s1 s2 _
    simp only [ac_gzip_inflate_loop]
    exact rfl
  | succ fuel ih =>
    intro s1 s2 hs
    have hm := mz_inflate_alike hD hs
    rw [ac_gzip_inflate_loop, ac_gzip_inflate_loop]
    cases h1 : mz_inflate D1 s1 with
    | error t1 =>
      cases h2 : mz_inflate D2 s2 with
      | error t2 =>
        rw [h1, h2] at hm
        exact hm
      | ok v2 =>
        rw [h1, h2] at hm
        exact hm.elim
    | ok v1 =>
      cases h2 : mz_inflate D2 s2 with
      | error t2 =>
        rw [h1, h2] at hm
        exact hm.elim
      | ok v2 =>
        rw [h1, h2] at hm
        obtain ⟨status1, t1⟩ := v1
        obtain ⟨status2, t2⟩ := v2
        obtain ⟨hst, ht⟩ := hm
        simp only at hst
        subst hst
        have hstream : t1.stream = t2.stream := ht.2.2.2.2.2.1
        have hcalls : t1.calls = t2.calls := ht.2.2.2.2.2.2.2.1
        have ht0 := ht
        obtain ⟨g1, g2, g3, g4, g5, _, g7, _, g9⟩ := ht0
        simp only [hstream]
        split
        · exact ⟨rfl, ht⟩
        · split
          · exact ⟨rfl, g1, g2, g3, g4, g5, rfl, g7, by simp only [hcalls], g9⟩
          · split
            · exact ⟨rfl, g1, g2, g3, g4, g5, rfl, g7, by simp only [hcalls], g9⟩
            · split
              · have hr := regrow_alike ht
                cases r1 : ac_gzip_inflate_regrow t1 with
                | error e1 =>
                  cases r2 : ac_gzip_inflate_regrow t2 with
                  | error e2 =>
                    rw [r1, r2] at hr
                    exact hr
                  | ok u2 =>
                    rw [r1, r2] at hr
                    exact hr.elim
                | ok u1 =>
                  cases r2 : ac_gzip_inflate_regrow t2 with
                  | error e2 =>
                    rw [r1, r2] at hr
                    exact hr.elim
                  | ok u2 =>
                    rw [r1, r2] at hr
                    exact ih u1 u2 hr
              · exact ih t1 t2 ht

/-- The part `// Finish up.` under decompressors that are alike, from states
that are alike. -/
theorem finish_alike {σ α : Type} {D1 D2 : mz_inflater σ} (hD : mz_alike D1 D2)
    {s1 s2 : inflate_state σ α} (hs : state_alike s1 s2) :
    result_alike (fun a b => a.1 = b.1 ∧ state_alike a.2 b.2)
      (ac_gzip_inflate_finish D1 s1) (ac_gzip_inflate_finish D2 s2) := by
  obtain ⟨g1, g2, g3, g4, g5, g6, g7, g8, g9⟩ := hs
  unfold ac_gzip_inflate_finish
  simp only [g1, g6, g7, hD.2.1]
  split
  · exact ⟨rfl, rfl, g2, g3, g4, g5, rfl, rfl, by simp only [g8], g9⟩
  · split
    · exact ⟨rfl, rfl, rfl, g3, g4, g5, rfl, rfl, by simp only [g8], g9⟩
    · split
      · exact ⟨rfl, rfl, rfl, g3, g4, g5, rfl, rfl, by simp only [g8], g9⟩
      · exact rfl

/-- Results that are alike have the same outcome. -/
theorem outcome_of_alike {σ α : Type} {r1 r2 : Except Trap (inflate_exit × inflate_state σ α)}
    (h : result_alike (fun a b => a.1 = b.1 ∧ state_alike a.2 b.2) r1 r2) :
    inflate_outcome r1 = inflate_outcome r2 := by
  cases r1 with
  | error t1 =>
    cases r2 with
    | error t2 =>
      have : t1 = t2 := h
      subst this
      rfl
    | ok v2 => exact h.elim
  | ok v1 =>
    cases r2 with
    | error t2 => exact h.elim
    | ok v2 =>
      obtain ⟨e1, s1⟩ := v1
      obtain ⟨e2, s2⟩ := v2
      obtain ⟨he, g1, g2, g3, _, _, g6, _, g8, g9⟩ := h
      simp only at he g1 g2 g3 g6 g8 g9
      subst he
      simp only [inflate_outcome, g1, g2, g3, g6, g8, g9]

end AcGzip

namespace AcGzip

open AcMem

theorem state_alike_refl {σ α : Type} (s : inflate_state σ α) : state_alike s s :=
  ⟨rfl, rfl, rfl, rfl, rfl, rfl, rfl, rfl, rfl⟩

/-- Two example decompressors for sequences of the same length are alike. -/
theorem chunk_inflater_alike (x y : List Byte) (used : Nat) (h : x.length = y.length) :
    mz_alike (chunk_inflater x used) (chunk_inflater y used) := by
  refine ⟨rfl, fun _ => rfl, ?_⟩
  intro s inp v
  have hl : ((x.drop v.total_out).take v.avail_out).length =
      ((y.drop v.total_out).take v.avail_out).length := by
    simp only [List.length_take, List.length_drop, h]
  by_cases hend : v.total_out + ((y.drop v.total_out).take v.avail_out).length = y.length
  · have hx : (chunk_inflater x used).step s inp v =
        ⟨.MZ_STREAM_END, used - v.total_in, (x.drop v.total_out).take v.avail_out, ()⟩ := by
      simp only [chunk_inflater, hl, h, hend, if_true]
    have hy : (chunk_inflater y used).step s inp v =
        ⟨.MZ_STREAM_END, used - v.total_in, (y.drop v.total_out).take v.avail_out, ()⟩ := by
      simp only [chunk_inflater, hend, if_true]
    rw [hx, hy]
    exact ⟨rfl, rfl, hl, rfl⟩
  · have hx : (chunk_inflater x used).step s inp v =
        ⟨.MZ_OK, 0, (x.drop v.total_out).take v.avail_out, ()⟩ := by
      simp only [chunk_inflater, hl, h, hend, if_false]
    have hy : (chunk_inflater y used).step s inp v =
        ⟨.MZ_OK, 0, (y.drop v.total_out).take v.avail_out, ()⟩ := by
      simp only [chunk_inflater, hend, if_false]
    rw [hx, hy]
    exact ⟨rfl, rfl, hl, rfl⟩

end AcGzip

/-! ## A scripted decompressor, and the step that regrows -/

namespace AcGzip

open AcMem

/-- The scripted decompressor of `demo_script`, on any 10 bytes of input and
from 20 bytes of output space, produces 20 bytes `61` followed by `62`: its
behaviour depends on its internal state, and is constrained only on the three
configurations of `demo_script_cfg`. -/
theorem demo_script_produces (inp : List Byte) :
    mz_produces (scripted_inflater .MZ_OK .MZ_OK demo_script) inp 10 20
      (List.replicate 20 0x61 ++ [0x62]) := by
  refine ⟨rfl, demo_script_cfg, Or.inl ⟨rfl, rfl⟩, ?_, ?_⟩
  · intro s v hI hz
    rcases hI with ⟨h1, h2⟩ | ⟨h1, h2⟩ | ⟨h1, h2⟩
    · subst h2
      cases hz
    · subst h1
      subst h2
      exact Or.inr (Or.inr ⟨rfl, rfl⟩)
    · subst h2
      cases hz
  · intro s v hI _ hout _
    rcases hI with ⟨h1, h2⟩ | ⟨h1, h2⟩ | ⟨h1, h2⟩
    · subst h1
      subst h2
      exact ⟨Or.inl rfl, rfl, fun h => (by cases h), fun _ =>
        ⟨(show (1 : Nat) < 10 by decide), Or.inl (show (0 : Nat) < 20 by decide),
          Or.inr (Or.inl ⟨rfl, rfl⟩)⟩⟩
    · subst h2
      cases hout
    · subst h1
      subst h2
      exact ⟨Or.inr rfl, rfl, fun _ => ⟨rfl, rfl⟩, fun h => (by cases h)⟩

/-- The iteration of the loop whose step returns `MZ_OK` with input remaining
and no output space left, when the allocation succeeds and the old block
holds `cap` bytes: the loop goes on with twice the capacity, the bytes of the
old block first, the cursor at the old capacity and the capacity added,
reduced modulo `2 ^ 32`, as the space available. -/
theorem loop_regrow_step {σ α : Type} (D : mz_inflater σ) (fuel : Nat)
    (st st1 : inflate_state σ α) (b : ac_block)
    (hstep : mz_inflate D st = .ok (.MZ_OK, st1))
    (hin : st1.stream.avail_in ≠ 0) (hout : st1.stream.avail_out = 0)
    (hd : st1.out.data = some b) (hb : b.bytes.length = st1.out.cap)
    (ha : (st1.alloc.alloc st1.alloc.state (2 * st1.out.cap)).1 ≠ none) :
    ∃ st2 b2, ac_gzip_inflate_loop D (fuel + 1) st = ac_gzip_inflate_loop D fuel st2 ∧
      st2.out.cap = 2 * st1.out.cap ∧ st2.out.data = some b2 ∧
      b2.bytes.length = st2.out.cap ∧ b2.bytes.take st1.out.cap = b.bytes ∧
      st2.stream.next_out = st1.out.cap ∧
      st2.stream.avail_out = (st2.out.cap - st1.out.cap) % 4294967296 ∧
      st2.stream.total_out = st1.stream.total_out ∧
      st2.stream.avail_in = st1.stream.avail_in := by
  obtain ⟨st2, b2, hr, h1, h2, h3, _, h5, h6, _⟩ := regrow_ok hd hb ha
  refine ⟨st2, b2, ?_, h5, h1, by rw [h2, h5], h3, by rw [h6], by rw [h6, h5], by rw [h6],
    by rw [h6]⟩
  rw [ac_gzip_inflate_loop]
  simp only [hstep, hin, hout, hr, if_true, if_false, ne_eq, not_true_eq_false,
    reduceCtorEq]

end AcGzip

/-! ## Claims on `ac_gzip_inflate` and `ac_list_realloc` -/

namespace AcGzip

open AcMem

/-- C13 as stated ("for every index") fails for an index whose `rest` is
shorter than a footer: on `demo_index_short` (`rest.size = 7`) and an output
list of length 3, with a decompressor that produces the empty sequence, the
run returns at line 185 and the length is still 3, not 0. -/
theorem ac_gzip_inflate_output_short_rest :
    mz_produces (chunk_inflater [] 0)
      (ac_buf_bytes demo_index_short.buffer demo_index_short.rest) 7 14 [] ∧
    (∀ s n, (demo_malloc.alloc s n).1 ≠ none) ∧
    demo_out.len = 3 ∧
    ∃ st, ac_gzip_inflate 5 (chunk_inflater [] 0) demo_index_short demo_out demo_malloc =
        .ok (.rest_too_short, st) ∧
      st.out.len = 3 ∧ st.out.len ≠ ([] : List Byte).length :=
  ⟨chunk_inflater_produces [] 0 _ 7 14, fun _ _ => Option.some_ne_none _, rfl, _, rfl, rfl,
    by decide⟩

/-- C13, amended: for every index whose `rest` holds at least 8 bytes and
lies inside its buffer, every output list (one whose capacity is kept being a
block of `cap` bytes), every allocator that never fails, and every
decompressor that, on the bytes of `rest` and from the output space the entry
hands it, produces `x` (`mz_produces`: never an error, stream-complete before
the input runs out, the bytes of `x` written in order into the space it is
handed, asked only of the configurations the run meets), provided `rest.size`,
the first capacity and `|x|` fit the 32-bit fields of the stream
(`2 * rest.size`, `out.cap` and `|x|` below `2 ^ 32`): `ac_gzip_inflate`
returns, by one of its last two exits, with `out.len = |x|` and
`out[0 .. |x|) = x`, once its loop is allowed `|x| + rest.size` iterations;
this includes `x` empty and any number of regrowths. -/
theorem ac_gzip_inflate_output {σ α : Type} (fuel : Nat) (D : mz_inflater σ) (x : List Byte)
    (gzip : ac_gzip) (out : ac_list_uint8_t) (alloc : ac_allocator α) (k : Nat)
    (hsz : 8 ≤ gzip.rest.size)
    (hin32 : 2 * gzip.rest.size < 4294967296) (hcap32 : out.cap < 4294967296)
    (hx32 : x.length < 4294967296)
    (hk : gzip.rest.data = some k) (hin : k + gzip.rest.size ≤ gzip.buffer.length)
    (hout : 2 * gzip.rest.size ≤ out.cap → ∃ b, out.data = some b ∧ b.bytes.length = out.cap)
    (halloc : ∀ s n, (alloc.alloc s n).1 ≠ none)
    (hD : mz_produces D (ac_buf_bytes gzip.buffer gzip.rest) gzip.rest.size
      (if out.cap < 2 * gzip.rest.size then 2 * gzip.rest.size else out.cap) x)
    (hfuel : x.length + gzip.rest.size ≤ fuel) :
    ∃ e st b, ac_gzip_inflate fuel D gzip out alloc = .ok (e, st) ∧
      (e = .done ∨ e = .no_footer) ∧
      st.out.len = x.length ∧ st.out.data = some b ∧ b.bytes.take x.length = x := by
  obtain ⟨hinit, I, hI0, hW⟩ := hD
  obtain ⟨st0, hs0, hinv, hg0, hd0, hv0⟩ :=
    start_ok D x gzip out alloc hsz hin32 hcap32 hout halloc
  obtain ⟨st1, b, hl, hg1, ht1, hd1, hx, hfin⟩ :=
    loop_produces hW hx32 fuel st0 hinv (by rw [hd0, hv0]; exact hI0) (by rw [hg0])
      (by rw [hv0]; simp only; omega)
  have hg : st1.gzip = gzip := by rw [hg1, hg0]
  obtain ⟨e, st2, hf, he, hlen, hdata⟩ := @finish_total σ α D st1 k
    hfin (by rw [hg]; exact hk) (by rw [hg]; exact hin)
  refine ⟨e, st2, b, ?_, he, by rw [hlen, ht1], by rw [hdata, hd1], hx⟩
  unfold ac_gzip_inflate
  have hs : ¬ gzip.rest.size < 8 := by omega
  simp only [hs, if_false, hs0, hinit, ne_eq, not_true_eq_false, hl]
  exact hf

/-- C13, amended, at `demo_index` (`rest.size = 10`) with the scripted
decompressor of `demo_script`: its first call fills the 20 bytes of the
first output block, the buffer is regrown once, and the second call writes
the last byte; the output is the 21 bytes produced. -/
theorem ac_gzip_inflate_output_witness :
    ∃ e st b, ac_gzip_inflate 31 (scripted_inflater .MZ_OK .MZ_OK demo_script) demo_index
        demo_out demo_malloc = .ok (e, st) ∧
      (e = .done ∨ e = .no_footer) ∧
      st.out.len = (List.replicate 20 (0x61 : Byte) ++ [0x62]).length ∧
      st.out.data = some b ∧
      b.bytes.take (List.replicate 20 (0x61 : Byte) ++ [0x62]).length =
        List.replicate 20 0x61 ++ [0x62] :=
  ac_gzip_inflate_output 31 (scripted_inflater .MZ_OK .MZ_OK demo_script)
    (List.replicate 20 0x61 ++ [0x62]) demo_index demo_out demo_malloc 10 (by decide)
    (by decide) (by decide) (by decide) rfl (by decide)
    (fun h => absurd h (by decide)) (fun _ _ => Option.some_ne_none _)
    (demo_script_produces _) (by decide)

/-- C14: when the loop is left by `break` (the decompressor reported
stream-complete) with `total_in` input bytes consumed, finalization succeeds
and `total_in + 8 <= rest.size`, `ac_gzip_inflate` returns at its end with
`index.footer.crc` the little-endian 32-bit value of `rest[total_in ..
total_in+4)` and `index.footer.decompressed_size` that of `rest[total_in+4 ..
total_in+8)`, for an index whose `rest` lies inside its buffer. -/
theorem ac_gzip_inflate_footer {σ α : Type} (fuel : Nat) (D : mz_inflater σ) (gzip : ac_gzip)
    (out : ac_list_uint8_t) (alloc : ac_allocator α) (st0 st1 : inflate_state σ α) (k : Nat)
    (hstart : ac_gzip_inflate_start D gzip out alloc = .ok st0)
    (hinit : D.init.1 = .MZ_OK)
    (hloop : ac_gzip_inflate_loop D fuel st0 = .ok (none, st1))
    (hend : D.finish st1.dec = .MZ_OK)
    (hfit : st1.stream.total_in + 8 ≤ gzip.rest.size)
    (hk : gzip.rest.data = some k) (hin : k + gzip.rest.size ≤ gzip.buffer.length) :
    ∃ st, ac_gzip_inflate fuel D gzip out alloc = .ok (.done, st) ∧
      st.gzip.footer.crc = rest_le32 gzip st1.stream.total_in ∧
      st.gzip.footer.decompressed_size = rest_le32 gzip (st1.stream.total_in + 4) := by
  have hg : st1.gzip = gzip := by
    rw [(loop_frame D fuel st0 st1 none hloop).1, (start_frame hstart).1]
  obtain ⟨st, hfin⟩ := @finish_done σ α D st1 k hend (by rw [hg]; exact hfit)
    (by rw [hg]; exact hk) (by rw [hg]; exact hin)
  have hs : ¬ gzip.rest.size < 8 := by omega
  refine ⟨st, ?_, ?_⟩
  · unfold ac_gzip_inflate
    simp only [hs, if_false, hstart, hinit, ne_eq, not_true_eq_false, hloop]
    exact hfin
  · rcases finish_inv hfin with ⟨h, _⟩ | ⟨h, _⟩ | ⟨_, _, _, _, _, _, h⟩
    · cases h
    · cases h
    · rw [h, hg]
      exact ⟨rfl, rfl⟩

/-- C14 at `demo_index`: the decompressor writes one byte and reports
stream-complete with 2 bytes consumed; the footer is read from `rest[2 .. 10)`. -/
theorem ac_gzip_inflate_footer_witness :
    ∃ st, ac_gzip_inflate 5 (chunk_inflater [0x61] 2) demo_index demo_out (demo_allocator 100) =
        .ok (.done, st) ∧
      st.gzip.footer.crc = 0x04030201 ∧ st.gzip.footer.decompressed_size = 0x08070605 :=
  ac_gzip_inflate_footer 5 (chunk_inflater [0x61] 2) demo_index demo_out (demo_allocator 100)
    _ _ 10 rfl rfl rfl rfl (by decide) rfl (by decide)

/-- C16 as stated fails when `rest.size` is exactly 8: on `demo_index_bare`
(`rest.size = 8`) the run goes on to the end of the function, sets the list
length to 0, replaces its block by one of capacity 16, calls the decompressor
three times (`mz_inflateInit2`, `mz_inflate`, `mz_inflateEnd`) and fills the
footer. -/
theorem ac_gzip_inflate_rest_eight_runs :
    demo_index_bare.rest.size ≤ 8 ∧
    ∃ st, ac_gzip_inflate 1 (chunk_inflater [] 0) demo_index_bare demo_out (demo_allocator 100) =
        .ok (.done, st) ∧
      demo_out.len = 3 ∧ st.out.len = 0 ∧ demo_out.cap = 4 ∧ st.out.cap = 16 ∧
      st.out.data ≠ demo_out.data ∧ st.calls = 3 ∧
      demo_index_bare.footer = ⟨0, 0⟩ ∧ st.gzip.footer = ⟨0x04030201, 0x08070605⟩ :=
  ⟨by decide, _, rfl, rfl, rfl, rfl, rfl, by decide, rfl, rfl, rfl⟩

/-- C16, amended: for every index with `rest.size < 8` (less than the 8-byte
footer), `ac_gzip_inflate` returns immediately: the output list (data, len and
cap), the index with its footer and the allocator are unchanged and the
decompressor is never called. -/
theorem ac_gzip_inflate_rest_too_short {σ α : Type} (fuel : Nat) (D : mz_inflater σ)
    (gzip : ac_gzip) (out : ac_list_uint8_t) (alloc : ac_allocator α)
    (h : gzip.rest.size < 8) :
    ∃ st, ac_gzip_inflate fuel D gzip out alloc = .ok (.rest_too_short, st) ∧
      st.out = out ∧ st.gzip = gzip ∧ st.alloc = alloc ∧ st.calls = 0 := by
  unfold ac_gzip_inflate
  simp only [h, if_true]
  exact ⟨_, rfl, rfl, rfl, rfl, rfl⟩

/-- C16, amended, at `demo_index_short` (`rest.size = 7`). -/
theorem ac_gzip_inflate_rest_too_short_witness :
    demo_index_short.rest.size < 8 ∧
    ∃ st, ac_gzip_inflate 5 (chunk_inflater [0x61] 2) demo_index_short demo_out
        (demo_allocator 100) = .ok (.rest_too_short, st) ∧
      st.out = demo_out ∧ st.gzip = demo_index_short ∧ st.alloc = demo_allocator 100 ∧
      st.calls = 0 :=
  ⟨by decide, ac_gzip_inflate_rest_too_short 5 (chunk_inflater [0x61] 2) demo_index_short
    demo_out (demo_allocator 100) (by decide)⟩

/-- C17: `index.footer` is written only at the end of a successful inflate: on
every other exit the whole index, footer included, is exactly as it was; at
the successful exit nothing but the footer has changed and the 8 footer bytes
read, `rest[total_in .. total_in+8)`, end at or before the end of `rest`; and
for an index whose `rest` lies inside its buffer no run loads outside the
bytes of `rest`. -/
theorem ac_gzip_inflate_footer_frame {σ α : Type} (fuel : Nat) (D : mz_inflater σ)
    (gzip : ac_gzip) (out : ac_list_uint8_t) (alloc : ac_allocator α) :
    (∀ e st, ac_gzip_inflate fuel D gzip out alloc = .ok (e, st) →
      (e ≠ .done → st.gzip = gzip) ∧
      (e = .done → st.stream.total_in + 8 ≤ gzip.rest.size ∧
        st.stream.total_in + 8 ≤ (ac_buf_bytes gzip.buffer gzip.rest).length ∧
        st.gzip = { gzip with footer := st.gzip.footer })) ∧
    ((∃ k, gzip.rest.data = some k ∧ k + gzip.rest.size ≤ gzip.buffer.length) →
      ac_gzip_inflate fuel D gzip out alloc ≠ .error .bad_load) := by
  constructor
  · intro e st h
    rcases inflate_inv h with ⟨h1, _, h2, _⟩ | ⟨_, st0, hs, hrest⟩
    · subst h1
      exact ⟨fun _ => h2, fun hd => by cases hd⟩
    · have hg0 := (start_frame hs).1
      rcases hrest with ⟨h1, _, h2⟩ | ⟨_, hl | ⟨st1, hl, hf⟩⟩
      · subst h1 h2
        exact ⟨fun _ => hg0, fun hd => by cases hd⟩
      · obtain ⟨hg, _, hx⟩ := loop_frame D fuel st0 st (some e) hl
        refine ⟨fun _ => by rw [hg, hg0], fun hd => ?_⟩
        subst hd
        simp at hx
      · obtain ⟨hg, _, _⟩ := loop_frame D fuel st0 st1 none hl
        have hg1 : st1.gzip = gzip := by rw [hg, hg0]
        rcases finish_inv hf with ⟨h1, _, h2, _⟩ | ⟨h1, _, h2, _⟩ | ⟨h1, _, h2, h3, _, h4, h5⟩
        · subst h1
          exact ⟨fun _ => by rw [h2, hg1], fun hd => by cases hd⟩
        · subst h1
          exact ⟨fun _ => by rw [h2, hg1], fun hd => by cases hd⟩
        · subst h1
          refine ⟨fun hn => absurd rfl hn, fun _ => ⟨?_, ?_, ?_⟩⟩
          · rw [h4, ← hg1]; exact h2
          · rw [h4, ← hg1]; exact h3
          · rw [h5, hg1]
  · rintro ⟨k, hk, hin⟩ h
    unfold ac_gzip_inflate at h
    split at h
    · cases h
    · cases h0 : @ac_gzip_inflate_start σ α D gzip out alloc with
      | error t =>
        simp only [h0] at h
        have ht : t = .bad_load := Except.error.inj h
        subst ht
        exact start_ne_bad_load h0
      | ok st0 =>
        simp only [h0] at h
        split at h
        · cases h
        · cases hl : ac_gzip_inflate_loop D fuel st0 with
          | error t =>
            simp only [hl] at h
            have ht : t = .bad_load := Except.error.inj h
            subst ht
            exact loop_ne_bad_load D fuel st0 hl
          | ok v =>
            obtain ⟨x, st1⟩ := v
            cases x with
            | some e1 => simp [hl] at h
            | none =>
              simp only [hl] at h
              have hg1 : st1.gzip = gzip := by
                rw [(loop_frame D fuel st0 st1 none hl).1, (start_frame h0).1]
              unfold ac_gzip_inflate_finish at h
              simp only [] at h
              split at h
              · cases h
              · split at h
                · cases h
                · rename_i hfit
                  have hl2 := @rest_bytes_length st1.gzip k
                    (by rw [hg1]; exact hk) (by rw [hg1]; exact hin)
                  have c1 : st1.stream.total_in + 3 <
                      (ac_buf_bytes st1.gzip.buffer st1.gzip.rest).length := by
                    omega
                  have c2 : st1.stream.total_in + 4 + 3 <
                      (ac_buf_bytes st1.gzip.buffer st1.gzip.rest).length := by
                    omega
                  simp only [load32_of_lt c1, load32_of_lt c2] at h
                  cases h

/-- C17 at a run that fails: on `demo_index` the decompressor reports an error
at its first call; the index is returned as it was. -/
theorem ac_gzip_inflate_footer_frame_witness :
    ∃ st, ac_gzip_inflate 5 (scripted_inflater .MZ_OK .MZ_OK [(.MZ_OTHER (-3), 0, [])])
        demo_index demo_out (demo_allocator 100) = .ok (.decode_error, st) ∧
      st.gzip = demo_index :=
  ⟨_, rfl,
   ((ac_gzip_inflate_footer_frame 5 (scripted_inflater .MZ_OK .MZ_OK [(.MZ_OTHER (-3), 0, [])])
      demo_index demo_out (demo_allocator 100)).1 .decode_error _ rfl).1 (by decide)⟩

/-- C18 as stated fails: on `demo_index`, whose footer declares the CRC32
`0x04030201`, a decompressor that produces the one byte `61` (CRC32
`0xE8B7BE43`) lets the run return at its end with the length set to 1, the
byte in the output and the declared value stored in `index.footer.crc`. -/
theorem ac_gzip_inflate_no_crc_check :
    ∃ st b, ac_gzip_inflate 5 (chunk_inflater [0x61] 2) demo_index demo_out
        (demo_allocator 100) = .ok (.done, st) ∧
      st.out.len = 1 ∧ st.out.data = some b ∧ b.bytes.take 1 = [0x61] ∧
      st.gzip.footer.crc = 0x04030201 ∧ crc32 [0x61] = 0xE8B7BE43 ∧
      crc32 [0x61] ≠ st.gzip.footer.crc :=
  ⟨_, _, rfl, rfl, rfl, rfl, rfl, by decide, by decide⟩

/-- C18, amended: `ac_gzip_inflate` compares no checksum. For two
decompressors that differ only in the values of the bytes they write, hence
in the CRC32 of the output, the run takes the same exit and leaves the same
index (footer included), output length and capacity and stream counters: a
run completes as a success, with the declared CRC32 copied into
`index.footer.crc`, whatever the CRC32 of the produced output is. -/
theorem ac_gzip_inflate_ignores_bytes {σ α : Type} (fuel : Nat) (D1 D2 : mz_inflater σ)
    (gzip : ac_gzip) (out : ac_list_uint8_t) (alloc : ac_allocator α)
    (h : mz_alike D1 D2) :
    inflate_outcome (ac_gzip_inflate fuel D1 gzip out alloc) =
      inflate_outcome (ac_gzip_inflate fuel D2 gzip out alloc) := by
  apply outcome_of_alike
  have hstart : ac_gzip_inflate_start D1 gzip out alloc =
      ac_gzip_inflate_start D2 gzip out alloc := by
    unfold ac_gzip_inflate_start
    rw [h.1]
  unfold ac_gzip_inflate
  rw [hstart, h.1]
  split
  · exact ⟨rfl, state_alike_refl _⟩
  · cases h0 : @ac_gzip_inflate_start σ α D2 gzip out alloc with
    | error t => exact rfl
    | ok st0 =>
      simp only []
      split
      · exact ⟨rfl, state_alike_refl _⟩
      · have hl := loop_alike h fuel st0 st0 (state_alike_refl _)
        cases l1 : ac_gzip_inflate_loop D1 fuel st0 with
        | error t1 =>
          cases l2 : ac_gzip_inflate_loop D2 fuel st0 with
          | error t2 =>
            rw [l1, l2] at hl
            exact hl
          | ok v2 =>
            rw [l1, l2] at hl
            exact hl.elim
        | ok v1 =>
          cases l2 : ac_gzip_inflate_loop D2 fuel st0 with
          | error t2 =>
            rw [l1, l2] at hl
            exact hl.elim
          | ok v2 =>
            rw [l1, l2] at hl
            obtain ⟨x1, t1⟩ := v1
            obtain ⟨x2, t2⟩ := v2
            obtain ⟨hx, ht⟩ := hl
            simp only at hx ht
            subst hx
            cases x1 with
            | none => exact finish_alike h ht
            | some e => exact ⟨rfl, ht⟩

/-- C18, amended, at `demo_index`: a decompressor that produces the byte `61`
and one that produces the byte `62` give the same outcome. -/
theorem ac_gzip_inflate_ignores_bytes_witness :
    inflate_outcome (ac_gzip_inflate 5 (chunk_inflater [0x61] 2) demo_index demo_out
        (demo_allocator 100)) =
      inflate_outcome (ac_gzip_inflate 5 (chunk_inflater [0x62] 2) demo_index demo_out
        (demo_allocator 100)) :=
  ac_gzip_inflate_ignores_bytes 5 (chunk_inflater [0x61] 2) (chunk_inflater [0x62] 2)
    demo_index demo_out (demo_allocator 100) (chunk_inflater_alike [0x61] [0x62] 2 rfl)

/-- C19 as stated fails. On `demo_index` (`rest.size = 10`): a decompressor
that writes one byte and reports stream-complete with 5 bytes consumed leaves
no room for the footer, and the run returns at line 250 with length 1; a
decompressor that fills the 20 bytes of the output, is given 40 after a
regrowth and then reports an error makes the run return at line 220 with
length 20. -/
theorem ac_gzip_inflate_failing_len_nonzero :
    (∃ st, ac_gzip_inflate 5 (chunk_inflater [0x61] 5) demo_index demo_out
        (demo_allocator 100) = .ok (.no_footer, st) ∧ st.out.len = 1) ∧
    (∃ st, ac_gzip_inflate 5
        (scripted_inflater .MZ_OK .MZ_OK
          [(.MZ_OK, 1, List.replicate 20 7), (.MZ_OTHER (-3), 0, [])])
        demo_index demo_out (demo_allocator 100) = .ok (.decode_error, st) ∧
      st.out.len = 20 ∧ st.out.cap = 40 ∧ st.grows = 1) :=
  ⟨⟨_, rfl, rfl⟩, ⟨_, rfl, rfl, rfl, rfl⟩⟩

/-- C19, amended: on an exit by a decompressor error status, by exhausted
input or by a finalize failure, the output list's length is 0 if the output
buffer was not regrown during the call, and otherwise the capacity it had
before its last regrowth (half its capacity on return); on the exit for a
footer that does not fit in `rest` it is the number of bytes produced,
`total_out`. -/
theorem ac_gzip_inflate_failing_len {σ α : Type} (fuel : Nat) (D : mz_inflater σ)
    (gzip : ac_gzip) (out : ac_list_uint8_t) (alloc : ac_allocator α) (e : inflate_exit)
    (st : inflate_state σ α) (h : ac_gzip_inflate fuel D gzip out alloc = .ok (e, st)) :
    ((e = .decode_error ∨ e = .input_exhausted ∨ e = .end_failed) →
      (st.grows = 0 → st.out.len = 0) ∧ (st.grows ≠ 0 → st.out.cap = 2 * st.out.len)) ∧
    (e = .no_footer → st.out.len = st.stream.total_out) := by
  rcases inflate_inv h with ⟨h1, _⟩ | ⟨_, st0, hs, hrest⟩
  · subst h1
    exact ⟨fun hc => (by rcases hc with hc | hc | hc <;> cases hc), fun hc => (by cases hc)⟩
  · obtain ⟨_, hl0, hg0⟩ := start_frame hs
    have hp0 : len_policy st0 := ⟨fun _ => hl0, fun hn => absurd hg0 hn⟩
    rcases hrest with ⟨h1, _⟩ | ⟨_, hl | ⟨st1, hl, hf⟩⟩
    · subst h1
      exact ⟨fun hc => (by rcases hc with hc | hc | hc <;> cases hc), fun hc => (by cases hc)⟩
    · obtain ⟨_, hp, hx⟩ := loop_frame D fuel st0 st (some e) hl
      refine ⟨fun _ => hp hp0, fun hc => ?_⟩
      subst hc
      simp at hx
    · obtain ⟨_, hp, _⟩ := loop_frame D fuel st0 st1 none hl
      have hp1 := hp hp0
      rcases finish_inv hf with ⟨h1, _, _, h2, h3⟩ | ⟨h1, _, _, h2, h3⟩ | ⟨h1, _⟩
      · subst h1
        refine ⟨fun _ => ?_, fun hc => (by cases hc)⟩
        unfold len_policy at hp1
        rw [h2, h3]
        exact hp1
      · subst h1
        refine ⟨fun hc => (by rcases hc with hc | hc | hc <;> cases hc), fun _ => ?_⟩
        rw [h2, h3]
      · subst h1
        exact ⟨fun hc => (by rcases hc with hc | hc | hc <;> cases hc), fun hc => (by cases hc)⟩

/-- C19, amended, at a run on `demo_index` whose decompressor reports an error
at its first call: no regrowth, length 0. -/
theorem ac_gzip_inflate_failing_len_witness :
    ∃ st, ac_gzip_inflate 5 (scripted_inflater .MZ_OK .MZ_OK [(.MZ_OTHER (-3), 0, [])])
        demo_index demo_out (demo_allocator 100) = .ok (.decode_error, st) ∧
      st.grows = 0 ∧ st.out.len = 0 :=
  ⟨_, rfl, rfl,
   ((ac_gzip_inflate_failing_len 5
      (scripted_inflater .MZ_OK .MZ_OK [(.MZ_OTHER (-3), 0, [])])
      demo_index demo_out (demo_allocator 100) .decode_error _ rfl).1 (Or.inl rfl)).1 rfl⟩

/-- C15 as stated fails once the old capacity reaches `2 ^ 32`: line 236
stores `out->cap - offset` in the 32-bit field `avail_out`. On `demo_index`
with the output list `demo_out_4g` (capacity `2 ^ 32`, kept at the entry,
which already leaves `avail_out = 0`), a step that consumes one byte and
reports `MZ_OK` is followed by a regrowth that succeeds: the capacity becomes
`2 ^ 33`, the capacity added is `2 ^ 32`, and `avail_out` is 0. -/
theorem ac_gzip_inflate_regrow_truncates :
    ac_gzip_inflate_start (scripted_inflater .MZ_OK .MZ_OK [(.MZ_OK, 1, [])]) demo_index
      demo_out_4g demo_malloc = .ok demo_state_4g ∧
    ∃ st1 st2,
      mz_inflate (scripted_inflater .MZ_OK .MZ_OK [(.MZ_OK, 1, [])]) demo_state_4g =
        .ok (.MZ_OK, st1) ∧
      st1.stream.avail_in ≠ 0 ∧ st1.stream.avail_out = 0 ∧ st1.out.cap = 4294967296 ∧
      (st1.alloc.alloc st1.alloc.state (2 * st1.out.cap)).1 ≠ none ∧
      ac_gzip_inflate_loop (scripted_inflater .MZ_OK .MZ_OK [(.MZ_OK, 1, [])]) (1 + 1)
          demo_state_4g =
        ac_gzip_inflate_loop (scripted_inflater .MZ_OK .MZ_OK [(.MZ_OK, 1, [])]) 1 st2 ∧
      st2.out.cap = 2 * st1.out.cap ∧ st2.out.cap - st1.out.cap = 4294967296 ∧
      st2.stream.avail_out = 0 ∧ st2.stream.avail_out ≠ st2.out.cap - st1.out.cap := by
  have hstep : mz_inflate (scripted_inflater .MZ_OK .MZ_OK [(.MZ_OK, 1, [])]) demo_state_4g =
      .ok (.MZ_OK, { demo_state_4g with stream := ⟨1, 9, 1, 0, 0, 0⟩, dec := [], calls := 2 }) :=
    rfl
  obtain ⟨st2, b2, h1, h2, _, _, _, _, h7, _⟩ :=
    loop_regrow_step (scripted_inflater .MZ_OK .MZ_OK [(.MZ_OK, 1, [])]) 1 demo_state_4g _
      ⟨500, List.replicate 4294967296 0⟩ hstep (by decide) rfl rfl
      (List.length_replicate _ _) (Option.some_ne_none _)
  have hc : ({ demo_state_4g with stream := ⟨1, 9, 1, 0, 0, 0⟩, dec := [], calls := 2 } :
      inflate_state (List (mz_status × Nat × List Byte)) (Nat × List (Option Nat))).out.cap =
      4294967296 := rfl
  rw [hc] at h2 h7
  refine ⟨rfl, _, st2, hstep, by decide, rfl, rfl, Option.some_ne_none _, h1, ?_, ?_, ?_, ?_⟩
  · rw [hc]
    exact h2
  · rw [hc]
    omega
  · omega
  · rw [hc]
    omega

/-- C15, amended: when a decompression step returns OK with input remaining
and no output space left, and the allocation succeeds, the loop goes on in a
state where the output buffer's capacity is exactly twice the old capacity,
its first old-capacity bytes are the bytes written so far (the bytes of the
old block), and the output cursor is at offset old-capacity with (new
capacity - old capacity) modulo `2 ^ 32` bytes available, the field
`avail_out` being 32 bits wide: exactly (new capacity - old capacity) when the
old capacity is below `2 ^ 32`. The old block holds `cap` bytes. -/
theorem ac_gzip_inflate_regrow_doubles {σ α : Type} (D : mz_inflater σ) (fuel : Nat)
    (st st1 : inflate_state σ α) (b : ac_block)
    (hstep : mz_inflate D st = .ok (.MZ_OK, st1))
    (hin : st1.stream.avail_in ≠ 0) (hout : st1.stream.avail_out = 0)
    (hd : st1.out.data = some b) (hb : b.bytes.length = st1.out.cap)
    (ha : (st1.alloc.alloc st1.alloc.state (2 * st1.out.cap)).1 ≠ none) :
    ∃ st2 b2, ac_gzip_inflate_loop D (fuel + 1) st = ac_gzip_inflate_loop D fuel st2 ∧
      st2.out.cap = 2 * st1.out.cap ∧ st2.out.data = some b2 ∧
      b2.bytes.length = st2.out.cap ∧ b2.bytes.take st1.out.cap = b.bytes ∧
      st2.stream.next_out = st1.out.cap ∧
      st2.stream.avail_out = (st2.out.cap - st1.out.cap) % 4294967296 ∧
      (st1.out.cap < 4294967296 → st2.stream.avail_out = st2.out.cap - st1.out.cap) ∧
      st2.stream.total_out = st1.stream.total_out ∧
      st2.stream.avail_in = st1.stream.avail_in := by
  obtain ⟨st2, b2, h1, h2, h3, h4, h5, h6, h7, h8, h9⟩ :=
    loop_regrow_step D fuel st st1 b hstep hin hout hd hb ha
  refine ⟨st2, b2, h1, h2, h3, h4, h5, h6, h7, ?_, h8, h9⟩
  intro hlt
  rw [h7, h2]
  omega

/-- C15, amended, at `demo_state`: the step fills the 4 bytes of the block
with `09 08 07 06`; the loop goes on with capacity 8, the same four bytes
first, and the cursor at offset 4 with 4 bytes available. -/
theorem ac_gzip_inflate_regrow_doubles_witness :
    ∃ st2 b2, ac_gzip_inflate_loop
        (scripted_inflater .MZ_OK .MZ_OK [(.MZ_OK, 1, [9, 8, 7, 6]), (.MZ_STREAM_END, 1, [5])])
        (1 + 1) demo_state =
      ac_gzip_inflate_loop
        (scripted_inflater .MZ_OK .MZ_OK [(.MZ_OK, 1, [9, 8, 7, 6]), (.MZ_STREAM_END, 1, [5])])
        1 st2 ∧
      st2.out.cap = 2 * 4 ∧ st2.out.data = some b2 ∧ b2.bytes.length = st2.out.cap ∧
      b2.bytes.take 4 = [9, 8, 7, 6] ∧ st2.stream.next_out = 4 ∧
      st2.stream.avail_out = (st2.out.cap - 4) % 4294967296 ∧
      ((4 : Nat) < 4294967296 → st2.stream.avail_out = st2.out.cap - 4) ∧
      st2.stream.total_out = 4 ∧ st2.stream.avail_in = 9 :=
  ac_gzip_inflate_regrow_doubles
    (scripted_inflater .MZ_OK .MZ_OK [(.MZ_OK, 1, [9, 8, 7, 6]), (.MZ_STREAM_END, 1, [5])])
    1 demo_state _ ⟨500, [9, 8, 7, 6]⟩ rfl (by decide) rfl rfl rfl (Option.some_ne_none _)

end AcGzip

namespace AcMem

/-- C20, evaluated on the code: `demo_out` is a list with a block at address
500, `len = 3`, `cap = 4`; the allocator returns `NULL` for 8 bytes. After
`ac_list_realloc(&l, &a, 8)` the list has `data = NULL` and `cap = 8`, and the
block at address 500 has been passed to the allocator's `free`. -/
theorem ac_list_realloc_null_drops_block :
    (ac_alloc (demo_allocator 4) 8).1 = none ∧
    (ac_list_realloc AcGzip.demo_out (demo_allocator 4) 8).map
        (fun r => (r.1, r.2.state)) =
      some (⟨none, 3, 8⟩, (1000, [some 500])) ∧
    AcGzip.demo_out = ⟨some ⟨500, [1, 2, 3, 4]⟩, 3, 4⟩ :=
  ⟨rfl, by decide, rfl⟩

end AcMem

/-! ## Lemmas on the allocator-backed list -/

namespace AcAlloc

theorem lista_min_eq (a b : Nat) : (if a < b then a else b) = min a b := by
  by_cases h : a < b
  · rw [if_pos h, Nat.min_eq_left (Nat.le_of_lt h)]
  · rw [if_neg h, Nat.min_eq_right (Nat.le_of_not_lt h)]

theorem lista_allocator_of_data {ω τ : Type} (env : ac_env ω τ) (l : ac_lista ω τ)
    (b : ac_array τ) (h : l.data = some b) : ac_lista_allocator env l = l.alloc := by
  unfold ac_lista_allocator
  simp [h]

/-- A request that gets no block leaves the list as it is, apart from the
allocator that the first statement may have set. -/
theorem lista_realloc_none {ω τ : Type} (env : ac_env ω τ) (l : ac_lista ω τ) (n : Nat)
    (w : ω)
    (h : (ac_alloc2 (ac_lista_allocator env l) (env.element_size * n) w).1.data = none) :
    ac_lista_realloc env l n w =
      some (⟨ac_lista_allocator env l, l.data, l.len, l.cap⟩,
        (ac_alloc2 (ac_lista_allocator env l) (env.element_size * n) w).2) := by
  unfold ac_lista_realloc
  simp only [h]

/-- A request that gets a block: the new list, and what the new block
holds. -/
theorem lista_realloc_some {ω τ : Type} (env : ac_env ω τ) (l : ac_lista ω τ) (n : Nat)
    (w : ω) (p : Nat)
    (hback : ∀ ob, l.data = some ob → l.len ≤ ob.elems.length)
    (h : (ac_alloc2 (ac_lista_allocator env l) (env.element_size * n) w).1.data = some p) :
    ∃ es, ac_lista_realloc env l n w =
        some (⟨ac_lista_allocator env l, some ⟨p, es⟩, min l.len n, n⟩,
          ac_free2 (ac_lista_allocator env l) (ac_lista_mem l)
            (ac_alloc2 (ac_lista_allocator env l) (env.element_size * n) w).2) ∧
      es.length = n ∧
      ∀ ob, l.data = some ob → es.take (min l.len n) = ob.elems.take (min l.len n) := by
  unfold ac_lista_realloc
  simp only [h, lista_min_eq]
  cases hd : l.data with
  | none =>
    refine ⟨(List.range n).map (env.junk p), rfl, by simp, ?_⟩
    intro ob hob
    cases hob
  | some ob =>
    have hob := hback ob hd
    by_cases hc : env.element_size * min l.len n = 0
    · have hm : min l.len n = 0 := by
        rcases Nat.mul_eq_zero.mp hc with h0 | h0
        · exact absurd h0 (Nat.pos_iff_ne_zero.mp env.element_size_pos)
        · exact h0
      refine ⟨(List.range n).map (env.junk p), ?_, by simp, ?_⟩
      · simp [hc]
      · intro ob2 _
        rw [hm]
        rfl
    · have h1 : min l.len n ≤ ob.elems.length := Nat.le_trans (Nat.min_le_left _ _) hob
      have h2 : min l.len n ≤ ((List.range n).map (env.junk p)).length := by
        simp
      refine ⟨ob.elems.take (min l.len n) ++ ((List.range n).map (env.junk p)).drop (min l.len n),
        ?_, ?_, ?_⟩
      · simp only [ac_memcpy, hc, ne_eq, not_false_eq_true, if_true, h1, h2, and_self]
      · simp only [List.length_append, List.length_take, List.length_drop, List.length_map,
          List.length_range]
        omega
      · intro ob2 hob2
        cases hob2
        rw [List.take_append_of_le_length (by simp [h1])]
        simp

/-- On a list whose elements are in its block, `ac_lista_realloc` returns. -/
theorem lista_realloc_total {ω τ : Type} (env : ac_env ω τ) (l : ac_lista ω τ) (n : Nat)
    (w : ω) (hback : ∀ ob, l.data = some ob → l.len ≤ ob.elems.length) :
    ∃ r, ac_lista_realloc env l n w = some r := by
  cases h : (ac_alloc2 (ac_lista_allocator env l) (env.element_size * n) w).1.data with
  | none => exact ⟨_, lista_realloc_none env l n w h⟩
  | some p =>
    obtain ⟨es, he, _⟩ := lista_realloc_some env l n w p hback h
    exact ⟨_, he⟩

/-- Whatever `ac_lista_realloc` returns has `len ≤ cap` when the list had. -/
theorem lista_realloc_len_le {ω τ : Type} (env : ac_env ω τ) (l : ac_lista ω τ) (n : Nat)
    (w : ω) (hlen : l.len ≤ l.cap) (r : ac_lista ω τ × ω)
    (h : ac_lista_realloc env l n w = some r) : r.1.len ≤ r.1.cap := by
  unfold ac_lista_realloc at h
  simp only [lista_min_eq] at h
  split at h
  · cases h
    exact hlen
  · split at h
    · cases h
    · cases h
      exact Nat.min_le_right _ _

theorem lista_wf_back {ω τ : Type} (l : ac_lista ω τ) (hwf : ac_lista_wf l)
    (hlen : l.len ≤ l.cap) : ∀ ob, l.data = some ob → l.len ≤ ob.elems.length := by
  intro ob hob
  unfold ac_lista_wf at hwf
  rw [hob] at hwf
  simp only at hwf
  omega

theorem lista_wf_some {ω τ : Type} (l : ac_lista ω τ) (hwf : ac_lista_wf l)
    (hcap : 0 < l.cap) : ∃ b, l.data = some b ∧ b.elems.length = l.cap := by
  unfold ac_lista_wf at hwf
  cases hd : l.data with
  | none =>
    rw [hd] at hwf
    simp only at hwf
    omega
  | some b =>
    rw [hd] at hwf
    exact ⟨b, rfl, hwf⟩

theorem lista_elems_some {ω τ : Type} (l : ac_lista ω τ) (b : ac_array τ)
    (h : l.data = some b) : ac_lista_elems l = b.elems.take l.len := by
  unfold ac_lista_elems
  rw [h]

theorem lista_elems_zero {ω τ : Type} (l : ac_lista ω τ) (h : l.len = 0) :
    ac_lista_elems l = [] := by
  unfold ac_lista_elems
  cases l.data with
  | none => rfl
  | some b => simp [h]

end AcAlloc

namespace AcAlloc

/-- For a capacity whose byte size is a `size_t`, the products of the macro
do not wrap: `ac_lista_realloc_wrap` is `ac_lista_realloc`. -/
theorem lista_realloc_wrap_eq {ω τ : Type} (env : ac_env ω τ) (l : ac_lista ω τ) (n : Nat)
    (w : ω) (h : env.element_size * n < 18446744073709551616) :
    ac_lista_realloc_wrap env l n w = ac_lista_realloc env l n w := by
  have hpos := env.element_size_pos
  have h1 : (env.element_size * n) % 18446744073709551616 = env.element_size * n :=
    Nat.mod_eq_of_lt h
  have h2 : env.element_size * n / env.element_size = n := Nat.mul_div_cancel_left n hpos
  have hle : (if l.len < n then l.len else n) ≤ n := by
    split <;> omega
  have h3 : (env.element_size * (if l.len < n then l.len else n)) % 18446744073709551616 =
      env.element_size * (if l.len < n then l.len else n) :=
    Nat.mod_eq_of_lt (Nat.lt_of_le_of_lt (Nat.mul_le_mul_left _ hle) h)
  have h4 : env.element_size * (if l.len < n then l.len else n) % env.element_size = 0 :=
    Nat.mul_mod_right _ _
  have h5 : env.element_size * (if l.len < n then l.len else n) / env.element_size =
      (if l.len < n then l.len else n) := Nat.mul_div_cancel_left _ hpos
  unfold ac_lista_realloc_wrap ac_lista_realloc
  simp only [h1, h2, h3, h4, h5, eq_self_iff_true, if_true]

/-- C21 as stated ("every new_cap for which the allocator returns a block")
fails when the byte size of the new capacity is not a `size_t`: on
`demo_lista_u64` (three 8-byte elements, `len = cap = 3`) and `new_cap =
2^61 + 1`, the product of line 101 wraps to 8 and the allocator returns a
block for these 8 bytes, one element; line 106 computes `copy_size = 24`, and
the `memcpy` of line 108 writes 24 bytes into the block of 8: the run leaves
the block, and no list with `cap = new_cap` and the three old elements
results. -/
theorem ac_lista_realloc_wrap_overrun :
    (demo_lista_u64 100).len ≤ (demo_lista_u64 100).cap ∧
    ac_lista_wf (demo_lista_u64 100) ∧
    ((demo_env_u64 100).element_size * 2305843009213693953) % 18446744073709551616 = 8 ∧
    (ac_alloc2 (ac_lista_allocator (demo_env_u64 100) (demo_lista_u64 100))
      (((demo_env_u64 100).element_size * 2305843009213693953) % 18446744073709551616)
      (1000, [])).1.data = some 1000 ∧
    ac_lista_realloc_wrap (demo_env_u64 100) (demo_lista_u64 100) 2305843009213693953
      (1000, []) = none :=
  ⟨by decide, rfl, rfl, rfl, rfl⟩

/-- C21, amended: on a list with `len ≤ cap` whose block holds `cap`
elements, for a `new_cap` whose byte size `element_size * new_cap` is a
`size_t`, when the allocation function `g` of the list's allocator gives a
block at `p` for that size, `ac_lista_realloc` returns a list with the same
allocator, `cap = new_cap`, `len = min len new_cap`, and a block of `new_cap`
elements at `p` whose first `min len new_cap` elements are those of the old
block. The old block is released through the same allocator: the world
afterwards is the one its function `free`, when it has one, makes of the
world the request left, called with the allocator's `state`, the old `data`
pointer and the old `cap`; an allocator without a function `free` leaves the
world the request left. -/
theorem ac_lista_realloc_success {ω τ : Type} (env : ac_env ω τ) (l : ac_lista ω τ)
    (new_cap : Nat) (w : ω) (p : Nat) (g : Option Nat → Nat → ω → ac_mem × ω)
    (hwf : ac_lista_wf l) (hlen : l.len ≤ l.cap)
    (hfit : env.element_size * new_cap < 18446744073709551616)
    (hg : (ac_lista_allocator env l).alloc = some g)
    (hp : (g (ac_lista_allocator env l).state (env.element_size * new_cap) w).1.data
      = some p) :
    ∃ l1 nb w1, ac_lista_realloc_wrap env l new_cap w = some (l1, w1) ∧
      l1.alloc = ac_lista_allocator env l ∧
      l1.cap = new_cap ∧ l1.len = min l.len new_cap ∧
      l1.data = some nb ∧ nb.addr = p ∧ nb.elems.length = new_cap ∧
      (∀ i, i < min l.len new_cap → nb.elems[i]? = (ac_lista_elems l)[i]?) ∧
      nb.elems.take (min l.len new_cap) = (ac_lista_elems l).take new_cap ∧
      (∀ f, (ac_lista_allocator env l).free = some f →
        w1 = f (ac_lista_allocator env l).state ⟨l.data.map (fun b => b.addr), l.cap⟩
          (g (ac_lista_allocator env l).state (env.element_size * new_cap) w).2) ∧
      ((ac_lista_allocator env l).free = none →
        w1 = (g (ac_lista_allocator env l).state (env.element_size * new_cap) w).2) := by
  have hreq : ac_alloc2 (ac_lista_allocator env l) (env.element_size * new_cap) w =
      g (ac_lista_allocator env l).state (env.element_size * new_cap) w := by
    unfold ac_alloc2
    rw [hg]
  obtain ⟨es, he, hl, hk⟩ := lista_realloc_some env l new_cap w p (lista_wf_back l hwf hlen)
    (by rw [hreq]; exact hp)
  have htake : es.take (min l.len new_cap) = (ac_lista_elems l).take new_cap := by
    cases hd : l.data with
    | none =>
      have hc : l.cap = 0 := by
        unfold ac_lista_wf at hwf
        rw [hd] at hwf
        exact hwf
      have h0 : l.len = 0 := by omega
      rw [lista_elems_zero l h0, h0]
      simp
    | some ob =>
      rw [hk ob hd, lista_elems_some l ob hd, List.take_take, Nat.min_comm]
  rw [hreq] at he
  refine ⟨_, ⟨p, es⟩, _, (lista_realloc_wrap_eq env l new_cap w hfit).trans he, rfl, rfl, rfl,
    rfl, rfl, hl, ?_, htake, ?_, ?_⟩
  · intro i hi
    have h1 : (es.take (min l.len new_cap))[i]? = es[i]? := by
      rw [List.getElem?_take, if_pos hi]
    have h2 : ((ac_lista_elems l).take new_cap)[i]? = (ac_lista_elems l)[i]? := by
      rw [List.getElem?_take, if_pos (Nat.lt_of_lt_of_le hi (Nat.min_le_right _ _))]
    show es[i]? = (ac_lista_elems l)[i]?
    rw [← h1, ← h2, htake]
  · intro f hf
    unfold ac_free2 ac_lista_mem
    rw [hf]
  · intro hf
    unfold ac_free2
    rw [hf]

/-- C21, amended, at `demo_lista 100` (the bytes `01 02 03` at address 500)
shrunk to capacity 2: the new block is at address 1000, and the world
afterwards has the address 500 in its record of the blocks freed. -/
theorem ac_lista_realloc_success_witness :
    (∃ l1 nb w1, ac_lista_realloc_wrap (demo_env 100) (demo_lista 100) 2 (1000, []) =
        some (l1, w1) ∧
      l1.alloc = ac_lista_allocator (demo_env 100) (demo_lista 100) ∧
      l1.cap = 2 ∧ l1.len = min (demo_lista 100).len 2 ∧
      l1.data = some nb ∧ nb.addr = 1000 ∧ nb.elems.length = 2 ∧
      (∀ i, i < min (demo_lista 100).len 2 →
        nb.elems[i]? = (ac_lista_elems (demo_lista 100))[i]?) ∧
      nb.elems.take (min (demo_lista 100).len 2) = (ac_lista_elems (demo_lista 100)).take 2 ∧
      (∀ f, (ac_lista_allocator (demo_env 100) (demo_lista 100)).free = some f →
        w1 = f (ac_lista_allocator (demo_env 100) (demo_lista 100)).state
          ⟨(demo_lista 100).data.map (fun b => b.addr), (demo_lista 100).cap⟩
          (ac_sys_malloc (demo_env 100)
            (ac_lista_allocator (demo_env 100) (demo_lista 100)).state
            ((demo_env 100).element_size * 2) (1000, [])).2) ∧
      ((ac_lista_allocator (demo_env 100) (demo_lista 100)).free = none →
        w1 = (ac_sys_malloc (demo_env 100)
          (ac_lista_allocator (demo_env 100) (demo_lista 100)).state
          ((demo_env 100).element_size * 2) (1000, [])).2)) ∧
    (ac_lista_realloc_wrap (demo_env 100) (demo_lista 100) 2 (1000, [])).map
      (fun r => (ac_lista_elems r.1, r.2)) = some ([1, 2], (1003, [500])) :=
  ⟨ac_lista_realloc_success (demo_env 100) (demo_lista 100) 2 (1000, []) 1000
      (ac_sys_malloc (demo_env 100)) rfl (by decide) (by decide) rfl rfl,
    rfl⟩

/-- C22: when the allocator gives no block for the request, `ac_lista_realloc`
returns the list with `data`, `len`, `cap` and the elements as they were, and
the world is the one the request left: nothing is released. -/
theorem ac_lista_realloc_failure {ω τ : Type} (env : ac_env ω τ) (l : ac_lista ω τ)
    (new_cap : Nat) (w : ω)
    (hp : (ac_alloc2 (ac_lista_allocator env l) (env.element_size * new_cap) w).1.data
      = none) :
    ∃ l1, ac_lista_realloc env l new_cap w =
        some (l1, (ac_alloc2 (ac_lista_allocator env l) (env.element_size * new_cap) w).2) ∧
      l1.data = l.data ∧ l1.len = l.len ∧ l1.cap = l.cap ∧
      ac_lista_elems l1 = ac_lista_elems l :=
  ⟨_, lista_realloc_none env l new_cap w hp, rfl, rfl, rfl, rfl⟩

theorem ac_lista_realloc_failure_witness :
    ∃ l1, ac_lista_realloc (demo_env 4) (demo_lista 4) 5 (1000, []) =
        some (l1, (ac_alloc2 (ac_lista_allocator (demo_env 4) (demo_lista 4))
          ((demo_env 4).element_size * 5) (1000, [])).2) ∧
      l1.data = (demo_lista 4).data ∧ l1.len = (demo_lista 4).len ∧
      l1.cap = (demo_lista 4).cap ∧
      ac_lista_elems l1 = ac_lista_elems (demo_lista 4) :=
  ac_lista_realloc_failure (demo_env 4) (demo_lista 4) 5 (1000, []) rfl

end AcAlloc

namespace AcAlloc

theorem lista_next_exg_room {ω τ : Type} (env : ac_env ω τ) (m b min_cap : Nat)
    (l : ac_lista ω τ) (w : ω) (h : l.len < l.cap) :
    ac_lista_next_exg env m b min_cap l w =
      some (⟨l.data.map (fun b => b.addr), l.len⟩, ⟨l.alloc, l.data, l.len + 1, l.cap⟩, w) := by
  unfold ac_lista_next_exg
  have h1 : ¬ (l.len ≥ l.cap) := by omega
  simp only [h1, if_false, h, if_true]

theorem lista_next_exg_full {ω τ : Type} (env : ac_env ω τ) (m b min_cap : Nat)
    (l : ac_lista ω τ) (w : ω) (h : l.cap ≤ l.len) (l1 : ac_lista ω τ) (w1 : ω)
    (hr : ac_lista_realloc env l (ac_lista_next_cap m b min_cap l) w = some (l1, w1)) :
    ac_lista_next_exg env m b min_cap l w =
      if l1.len < l1.cap then
        some (⟨l1.data.map (fun b => b.addr), l1.len⟩, ⟨l1.alloc, l1.data, l1.len + 1, l1.cap⟩,
          w1)
      else some (⟨none, 0⟩, l1, w1) := by
  unfold ac_lista_next_exg
  have h1 : l.len ≥ l.cap := h
  simp only [h1, if_true, hr]

/-- On a list whose elements are in its block, `ac_lista_next_exg` returns. -/
theorem lista_next_exg_total {ω τ : Type} (env : ac_env ω τ) (m b min_cap : Nat)
    (l : ac_lista ω τ) (w : ω) (hback : ∀ ob, l.data = some ob → l.len ≤ ob.elems.length) :
    ∃ r, ac_lista_next_exg env m b min_cap l w = some r := by
  by_cases h : l.len < l.cap
  · exact ⟨_, lista_next_exg_room env m b min_cap l w h⟩
  · obtain ⟨⟨l1, w1⟩, hr⟩ :=
      lista_realloc_total env l (ac_lista_next_cap m b min_cap l) w hback
    rw [lista_next_exg_full env m b min_cap l w (by omega) l1 w1 hr]
    split
    · exact ⟨_, rfl⟩
    · exact ⟨_, rfl⟩

/-- Whatever `ac_lista_next_exg` returns has `len ≤ cap` when the list had. -/
theorem lista_next_exg_len_le {ω τ : Type} (env : ac_env ω τ) (m b min_cap : Nat)
    (l : ac_lista ω τ) (w : ω) (hlen : l.len ≤ l.cap) (r : ac_ptr × ac_lista ω τ × ω)
    (h : ac_lista_next_exg env m b min_cap l w = some r) : r.2.1.len ≤ r.2.1.cap := by
  by_cases hroom : l.len < l.cap
  · rw [lista_next_exg_room env m b min_cap l w hroom] at h
    cases h
    exact hroom
  · cases hr : ac_lista_realloc env l (ac_lista_next_cap m b min_cap l) w with
    | none =>
      unfold ac_lista_next_exg at h
      have h1 : l.len ≥ l.cap := by omega
      simp only [h1, if_true, hr] at h
      cases h
    | some r1 =>
      obtain ⟨l1, w1⟩ := r1
      have hle := lista_realloc_len_le env l _ w hlen (l1, w1) hr
      rw [lista_next_exg_full env m b min_cap l w (by omega) l1 w1 hr] at h
      split at h
      · cases h
        assumption
      · cases h
        exact hle

/-- C24: when `ac_lista_next_exg` grows a full list and `cap * m + b` is not
zero, the capacity it asks for and leaves in the list is `cap * m + b`,
whatever `min_cap` is: with `cap * m + b < min_cap` that is not
`max min_cap (cap * m + b)`. -/
theorem ac_lista_next_exg_ignores_min_cap {ω τ : Type} (env : ac_env ω τ)
    (m b min_cap : Nat) (l : ac_lista ω τ) (w : ω) (p : Nat) (hwf : ac_lista_wf l)
    (hfull : l.len = l.cap) (hraw : l.cap * m + b ≠ 0)
    (hp : (ac_alloc2 (ac_lista_allocator env l)
      (env.element_size * (l.cap * m + b)) w).1.data = some p) :
    ac_lista_next_cap m b min_cap l = l.cap * m + b ∧
    ∃ q l1 w1, ac_lista_next_exg env m b min_cap l w = some (q, l1, w1) ∧
      l1.cap = l.cap * m + b ∧
      (l.cap * m + b < min_cap → l1.cap ≠ max min_cap (l.cap * m + b)) := by
  have hc : ac_lista_next_cap m b min_cap l = l.cap * m + b := by
    unfold ac_lista_next_cap
    simp only [hraw, ne_eq, not_false_eq_true, if_true]
  refine ⟨hc, ?_⟩
  rw [← hc] at hp
  obtain ⟨es, he, _, _⟩ :=
    lista_realloc_some env l (ac_lista_next_cap m b min_cap l) w p
      (lista_wf_back l hwf (Nat.le_of_eq hfull)) hp
  rw [lista_next_exg_full env m b min_cap l w (Nat.le_of_eq hfull.symm) _ _ he]
  split
  · refine ⟨_, _, _, rfl, hc, ?_⟩
    intro hlt
    show ac_lista_next_cap m b min_cap l ≠ _
    rw [hc, Nat.max_eq_left (Nat.le_of_lt hlt)]
    omega
  · refine ⟨_, _, _, rfl, hc, ?_⟩
    intro hlt
    show ac_lista_next_cap m b min_cap l ≠ _
    rw [hc, Nat.max_eq_left (Nat.le_of_lt hlt)]
    omega

theorem ac_lista_next_exg_ignores_min_cap_witness :
    ac_lista_next_cap 2 0 4
      (⟨ac_mallocator2 (demo_env 100), some ⟨500, [1]⟩, 1, 1⟩ : ac_lista demo_world (Fin 256))
      = 1 * 2 + 0 ∧
    ∃ q l1 w1, ac_lista_next_exg (demo_env 100) 2 0 4
        (⟨ac_mallocator2 (demo_env 100), some ⟨500, [1]⟩, 1, 1⟩ :
          ac_lista demo_world (Fin 256)) (1000, []) = some (q, l1, w1) ∧
      l1.cap = 1 * 2 + 0 ∧
      (1 * 2 + 0 < 4 → l1.cap ≠ max 4 (1 * 2 + 0)) :=
  ac_lista_next_exg_ignores_min_cap (demo_env 100) 2 0 4
    ⟨ac_mallocator2 (demo_env 100), some ⟨500, [1]⟩, 1, 1⟩ (1000, []) 1000 rfl rfl
    (by decide) rfl

/-- C26: `ac_lista_realloc` on a list whose allocator is empty. Without data
the list gets the `malloc` allocator and the request goes to `malloc`: a block
from it becomes the list's block of `new_cap` elements, and with no block the
list keeps `data`, `len` and `cap`. With data the list and the world are as
they were. -/
theorem ac_lista_realloc_empty_allocator {ω τ : Type} (env : ac_env ω τ)
    (l : ac_lista ω τ) (new_cap : Nat) (w : ω)
    (hempty : ac_allocator2_is_empty l.alloc = true) :
    (l.data = none →
      ∃ l1, ac_lista_realloc env l new_cap w =
          some (l1, (env.malloc (env.element_size * new_cap) w).2) ∧
        l1.alloc = ac_mallocator2 env ∧
        (∀ p, (env.malloc (env.element_size * new_cap) w).1 = some p →
          ∃ nb, l1.data = some nb ∧ nb.addr = p ∧ nb.elems.length = new_cap ∧
            l1.cap = new_cap ∧ l1.len = min l.len new_cap) ∧
        ((env.malloc (env.element_size * new_cap) w).1 = none →
          l1.data = none ∧ l1.len = l.len ∧ l1.cap = l.cap)) ∧
    (∀ ob, l.data = some ob → ac_lista_realloc env l new_cap w = some (l, w)) := by
  constructor
  · intro hd
    have ha : ac_lista_allocator env l = ac_mallocator2 env := by
      unfold ac_lista_allocator
      simp [hempty, hd]
    have hreq : ∀ k, ac_alloc2 (ac_lista_allocator env l) k w =
        (⟨(env.malloc k w).1, k⟩, (env.malloc k w).2) := by
      intro k
      rw [ha]
      rfl
    cases hm : (env.malloc (env.element_size * new_cap) w).1 with
    | none =>
      have hp : (ac_alloc2 (ac_lista_allocator env l) (env.element_size * new_cap) w).1.data
          = none := by
        rw [hreq]
        exact hm
      have he := lista_realloc_none env l new_cap w hp
      rw [hreq, ha] at he
      refine ⟨_, he, rfl, ?_, ?_⟩
      · intro p hp2
        cases hp2
      · intro _
        exact ⟨hd, rfl, rfl⟩
    | some p =>
      have hp : (ac_alloc2 (ac_lista_allocator env l) (env.element_size * new_cap) w).1.data
          = some p := by
        rw [hreq]
        exact hm
      obtain ⟨es, he, hl, _⟩ := lista_realloc_some env l new_cap w p
        (by
          intro ob hob
          rw [hd] at hob
          cases hob) hp
      have hfree : ac_free2 (ac_lista_allocator env l) (ac_lista_mem l)
          (ac_alloc2 (ac_lista_allocator env l) (env.element_size * new_cap) w).2 =
          (env.malloc (env.element_size * new_cap) w).2 := by
        rw [hreq, ha]
        unfold ac_lista_mem
        rw [hd]
        rfl
      rw [hfree, ha] at he
      refine ⟨_, he, rfl, ?_, ?_⟩
      · intro q hq
        have hq2 : p = q := Option.some.inj hq
        subst hq2
        exact ⟨⟨p, es⟩, rfl, rfl, hl, rfl, rfl⟩
      · intro hn
        cases hn
  · intro ob hd
    have ha : ac_lista_allocator env l = l.alloc := lista_allocator_of_data env l ob hd
    have hnone : l.alloc.alloc = none := by
      unfold ac_allocator2_is_empty at hempty
      simp only [Bool.and_eq_true, Option.isNone_iff_eq_none] at hempty
      exact hempty.1.2
    have hreq : ∀ k, ac_alloc2 (ac_lista_allocator env l) k w = (⟨none, 0⟩, w) := by
      intro k
      rw [ha]
      unfold ac_alloc2
      rw [hnone]
    have he := lista_realloc_none env l new_cap w (by rw [hreq])
    rw [hreq, ha] at he
    exact he

theorem ac_lista_realloc_empty_allocator_witness :
    ((⟨ac_allocator2_zero, none, 0, 0⟩ : ac_lista demo_world (Fin 256)).data = none →
      ∃ l1, ac_lista_realloc (demo_env 100) ⟨ac_allocator2_zero, none, 0, 0⟩ 5 (1000, []) =
          some (l1, ((demo_env 100).malloc ((demo_env 100).element_size * 5) (1000, [])).2) ∧
        l1.alloc = ac_mallocator2 (demo_env 100) ∧
        (∀ p, ((demo_env 100).malloc ((demo_env 100).element_size * 5) (1000, [])).1 = some p →
          ∃ nb, l1.data = some nb ∧ nb.addr = p ∧ nb.elems.length = 5 ∧
            l1.cap = 5 ∧
            l1.len = min (⟨ac_allocator2_zero, none, 0, 0⟩ :
              ac_lista demo_world (Fin 256)).len 5) ∧
        (((demo_env 100).malloc ((demo_env 100).element_size * 5) (1000, [])).1 = none →
          l1.data = none ∧
          l1.len = (⟨ac_allocator2_zero, none, 0, 0⟩ : ac_lista demo_world (Fin 256)).len ∧
          l1.cap = (⟨ac_allocator2_zero, none, 0, 0⟩ : ac_lista demo_world (Fin 256)).cap)) ∧
    (∀ ob, (⟨ac_allocator2_zero, none, 0, 0⟩ : ac_lista demo_world (Fin 256)).data = some ob →
      ac_lista_realloc (demo_env 100) ⟨ac_allocator2_zero, none, 0, 0⟩ 5 (1000, []) =
        some (⟨ac_allocator2_zero, none, 0, 0⟩, (1000, []))) :=
  ac_lista_realloc_empty_allocator (demo_env 100) ⟨ac_allocator2_zero, none, 0, 0⟩ 5
    (1000, []) rfl

end AcAlloc

/-! ## Lemmas on the string -/

namespace AcStr

open AcAlloc

theorem snprintf_zero (dst : Option (ac_array (Fin 256))) (off : Nat) (t : List (Fin 256))
    (hn : t.length ≤ INT_MAX) : snprintf dst off 0 t = some (dst, (t.length : Int)) := by
  unfold snprintf
  rw [if_neg (Nat.not_lt.mpr hn)]
  rfl

/-- With room for `size` characters at `off`, `snprintf` writes inside the
block, at `off` and above only, and returns the length of the text. -/
theorem snprintf_any (b : ac_array (Fin 256)) (off size : Nat) (t : List (Fin 256))
    (hn : t.length ≤ INT_MAX) (hroom : off + size ≤ b.elems.length) :
    ∃ es, snprintf (some b) off size t = some (some ⟨b.addr, es⟩, (t.length : Int)) ∧
      es.length = b.elems.length ∧ es.take off = b.elems.take off := by
  by_cases h0 : size = 0
  · subst h0
    exact ⟨b.elems, snprintf_zero (some b) off t hn, rfl, rfl⟩
  · unfold snprintf
    rw [if_neg (Nat.not_lt.mpr hn), if_neg h0]
    have hout : off + (t.take (size - 1) ++ [0]).length ≤ b.elems.length := by
      simp only [List.length_append, List.length_take, List.length_singleton]
      omega
    simp only [hout, if_true]
    refine ⟨_, rfl, ?_, ?_⟩
    · simp only [List.length_append, List.length_take, List.length_singleton,
        List.length_drop] at hout ⊢
      omega
    · rw [List.append_assoc, List.take_append_of_le_length (by simp; omega)]
      simp

/-- With room for `size` characters at `off` and a text shorter than `size`,
`snprintf` writes the text and a NUL at `off`. -/
theorem snprintf_fits (b : ac_array (Fin 256)) (off size : Nat) (t : List (Fin 256))
    (hn : t.length ≤ INT_MAX) (hsz : t.length < size) (hroom : off + size ≤ b.elems.length) :
    ∃ es, snprintf (some b) off size t = some (some ⟨b.addr, es⟩, (t.length : Int)) ∧
      es.length = b.elems.length ∧ es.take (off + t.length) = b.elems.take off ++ t ∧
      es[off + t.length]? = some 0 := by
  have h0 : size ≠ 0 := by omega
  have htake : t.take (size - 1) = t := List.take_of_length_le (by omega)
  unfold snprintf
  rw [if_neg (Nat.not_lt.mpr hn), if_neg h0]
  have hout : off + (t.take (size - 1) ++ [0]).length ≤ b.elems.length := by
    simp only [List.length_append, List.length_take, List.length_singleton]
    omega
  rw [htake] at hout
  simp only [htake]
  rw [if_pos hout]
  have hlen : (b.elems.take off ++ t).length = off + t.length := by
    simp only [List.length_append, List.length_take]
    omega
  have hshape : b.elems.take off ++ (t ++ [0]) ++ b.elems.drop (off + (t ++ [0]).length) =
      (b.elems.take off ++ t) ++ (0 :: b.elems.drop (off + (t ++ [0]).length)) := by
    simp
  refine ⟨_, rfl, ?_, ?_, ?_⟩
  · simp only [List.length_append, List.length_take, List.length_singleton,
      List.length_drop] at hout ⊢
    omega
  · rw [hshape, ← hlen, List.take_left]
  · rw [hshape, ← hlen, List.getElem?_append_right (Nat.le_refl _)]
    simp

end AcStr

namespace AcStr

open AcAlloc

theorem to_str_fit_cap (cap n : Nat) (h : cap + n + 1 < SIZE_MOD) :
    (((cap : Int) + (n : Int) + 1) % (SIZE_MOD : Int)).toNat = cap + n + 1 := by
  unfold SIZE_MOD at h ⊢
  omega

/-- The second half of `ac_to_str` when the allocator gives no block and the
string is full: the value is `printed` and the string is as it was. -/
theorem to_str_grow_full_fail {ω : Type} (env : ac_env ω (Fin 256)) (s : ac_str ω)
    (printed : Int) (t : List (Fin 256)) (w : ω) (hfull : s.cap ≤ s.len)
    (hfail : (ac_alloc2 (ac_lista_allocator env s)
      (env.element_size * ac_to_str_cap s.cap printed) w).1.data = none) :
    ac_to_str_grow env s printed t w =
      some (printed, ⟨ac_lista_allocator env s, s.data, s.len, s.cap⟩,
        (ac_alloc2 (ac_lista_allocator env s)
          (env.element_size * ac_to_str_cap s.cap printed) w).2) := by
  unfold ac_to_str_grow
  simp only [lista_realloc_none env s _ w hfail]
  have h : ¬ (s.cap > s.len) := by omega
  simp only [h, if_false]

/-- The second half of `ac_to_str` when the allocator gives a block: the text
is appended. -/
theorem to_str_grow_ok {ω : Type} (env : ac_env ω (Fin 256)) (s : ac_str ω)
    (t : List (Fin 256)) (w : ω) (hwf : ac_lista_wf s) (hlen : s.len ≤ s.cap)
    (hn : t.length ≤ INT_MAX) (hsize : s.cap + t.length + 1 < SIZE_MOD)
    (halloc : (ac_alloc2 (ac_lista_allocator env s)
      (env.element_size * ac_to_str_cap s.cap (t.length : Int)) w).1.data ≠ none) :
    ∃ s1 w1 b, ac_to_str_grow env s (t.length : Int) t w = some ((t.length : Int), s1, w1) ∧
      s1.len = s.len + t.length ∧ s1.len < s1.cap ∧ s1.data = some b ∧
      b.elems.length = s1.cap ∧ b.elems.take s1.len = ac_lista_elems s ++ t ∧
      b.elems[s1.len]? = some 0 := by
  unfold ac_to_str_grow
  have hge : s.cap + t.length + 1 ≤ ac_to_str_cap s.cap (t.length : Int) := by
    unfold ac_to_str_cap
    simp only [to_str_fit_cap s.cap t.length hsize]
    split <;> omega
  generalize ac_to_str_cap s.cap (t.length : Int) = cap at halloc hge ⊢
  cases hp : (ac_alloc2 (ac_lista_allocator env s) (env.element_size * cap) w).1.data with
  | none => exact absurd hp halloc
  | some p =>
    obtain ⟨es, he, hl, hk⟩ := lista_realloc_some env s cap w p (lista_wf_back s hwf hlen) hp
    have hmin : min s.len cap = s.len := Nat.min_eq_left (by omega)
    rw [hmin] at he hk
    simp only [he]
    have hgt : cap > s.len := by omega
    simp only [hgt, if_true]
    obtain ⟨es1, hs, hl1, ht1, hz1⟩ :=
      snprintf_fits ⟨p, es⟩ s.len (cap - s.len) t hn (by omega)
        (by
          show s.len + (cap - s.len) ≤ es.length
          omega)
    rw [hs]
    have hc : (0 : Int) ≤ (t.length : Int) ∧ (t.length : Int) < ((cap - s.len : Nat) : Int) :=
      ⟨Int.ofNat_nonneg _, Int.ofNat_lt.mpr (by omega)⟩
    simp only [hc, and_self, if_true, Int.toNat_ofNat]
    refine ⟨_, _, ⟨p, es1⟩, rfl, rfl, ?_, rfl, ?_, ?_, hz1⟩
    · show s.len + t.length < cap
      omega
    · show es1.length = cap
      rw [hl1]
      exact hl
    · show es1.take (s.len + t.length) = ac_lista_elems s ++ t
      rw [ht1]
      show es.take s.len ++ t = _
      cases hd : s.data with
      | none =>
        have hc0 : s.cap = 0 := by
          unfold ac_lista_wf at hwf
          rw [hd] at hwf
          exact hwf
        have h0 : s.len = 0 := by omega
        rw [lista_elems_zero s h0, h0]
        rfl
      | some ob => rw [hk ob hd, lista_elems_some s ob hd]

/-- C29: `ac_to_str` on a string with `len ≤ cap` whose block holds `cap`
characters, for a text `t` whose length is an `int`, when any allocation it
needs succeeds: either `t` and its NUL fit the room the first `snprintf` is
given (`min(cap - len, print_max)` characters, with `len < cap`), and then
nothing is asked of the allocator, or the allocator gives a block for the one
request made (of a size that is a `size_t`). It returns the length of `t`,
`len` grows by that length, the characters below the new `len` are the old
ones followed by `t`, the character at the new `len` is NUL, and `len < cap`. -/
theorem ac_to_str_appends {ω : Type} (env : ac_env ω (Fin 256)) (print_max : Nat)
    (s : ac_str ω) (t : List (Fin 256)) (w : ω) (hwf : ac_lista_wf s)
    (hlen : s.len ≤ s.cap) (hn : t.length ≤ INT_MAX)
    (hneed : (s.len < s.cap ∧
        t.length < (if s.cap - s.len < print_max then s.cap - s.len else print_max)) ∨
      (s.cap + t.length + 1 < SIZE_MOD ∧
        (ac_alloc2 (ac_lista_allocator env s)
          (env.element_size * ac_to_str_cap s.cap (t.length : Int)) w).1.data ≠ none)) :
    ∃ s1 w1 b, ac_to_str env print_max s t w = some ((t.length : Int), s1, w1) ∧
      s1.len = s.len + t.length ∧ s1.len < s1.cap ∧ s1.data = some b ∧
      b.elems.length = s1.cap ∧ b.elems.take s1.len = ac_lista_elems s ++ t ∧
      b.elems[s1.len]? = some 0 := by
  by_cases hroom : s.cap > s.len
  · obtain ⟨b, hb, hbl⟩ := lista_wf_some s hwf (by omega)
    unfold ac_to_str
    simp only [hroom, if_true]
    by_cases hfit :
        t.length < (if s.cap - s.len < print_max then s.cap - s.len else print_max)
    · generalize hsz :
        (if s.cap - s.len < print_max then s.cap - s.len else print_max) = size at hfit ⊢
      have hsle : size ≤ s.cap - s.len := by
        rw [← hsz]
        split <;> omega
      obtain ⟨es1, hs, hl1, ht1, hz1⟩ :=
        snprintf_fits b s.len size t hn hfit (by omega)
      rw [hb, hs]
      have hc : (0 : Int) ≤ (t.length : Int) ∧ (t.length : Int) < (size : Int) :=
        ⟨Int.ofNat_nonneg _, Int.ofNat_lt.mpr hfit⟩
      simp only [hc, and_self, if_true, Int.toNat_ofNat]
      refine ⟨_, _, ⟨b.addr, es1⟩, rfl, rfl, ?_, rfl, ?_, ?_, hz1⟩
      · show s.len + t.length < s.cap
        omega
      · show es1.length = s.cap
        rw [hl1]
        exact hbl
      · show es1.take (s.len + t.length) = ac_lista_elems s ++ t
        rw [ht1, lista_elems_some s b hb]
    · obtain ⟨hsize, halloc⟩ : s.cap + t.length + 1 < SIZE_MOD ∧
          (ac_alloc2 (ac_lista_allocator env s)
            (env.element_size * ac_to_str_cap s.cap (t.length : Int)) w).1.data ≠ none := by
        rcases hneed with h | h
        · exact absurd h.2 hfit
        · exact h
      generalize hsz :
        (if s.cap - s.len < print_max then s.cap - s.len else print_max) = size at hfit ⊢
      have hsle : size ≤ s.cap - s.len := by
        rw [← hsz]
        split <;> omega
      obtain ⟨es1, hs, hl1, ht1⟩ := snprintf_any b s.len size t hn (by omega)
      rw [hb, hs]
      have hc : ¬ ((0 : Int) ≤ (t.length : Int) ∧ (t.length : Int) < (size : Int)) := by
        intro hc
        exact hfit (Int.ofNat_lt.mp hc.2)
      simp only [hc, if_false]
      have hwf2 : ac_lista_wf (⟨s.alloc, some ⟨b.addr, es1⟩, s.len, s.cap⟩ : ac_str ω) := by
        show es1.length = s.cap
        rw [hl1]
        exact hbl
      have ha2 : ac_lista_allocator env
          (⟨s.alloc, some ⟨b.addr, es1⟩, s.len, s.cap⟩ : ac_str ω) =
          ac_lista_allocator env s := by
        rw [lista_allocator_of_data env _ ⟨b.addr, es1⟩ rfl, lista_allocator_of_data env s b hb]
      have he2 : ac_lista_elems (⟨s.alloc, some ⟨b.addr, es1⟩, s.len, s.cap⟩ : ac_str ω) =
          ac_lista_elems s := by
        rw [lista_elems_some s b hb]
        exact ht1
      obtain ⟨s1, w1, b1, hg, h1, h2, h3, h4, h5, h6⟩ :=
        to_str_grow_ok env (⟨s.alloc, some ⟨b.addr, es1⟩, s.len, s.cap⟩ : ac_str ω) t w hwf2
          hlen hn hsize
          (by
            rw [ha2]
            exact halloc)
      rw [he2] at h5
      exact ⟨s1, w1, b1, hg, h1, h2, h3, h4, h5, h6⟩
  · obtain ⟨hsize, halloc⟩ : s.cap + t.length + 1 < SIZE_MOD ∧
        (ac_alloc2 (ac_lista_allocator env s)
          (env.element_size * ac_to_str_cap s.cap (t.length : Int)) w).1.data ≠ none := by
      rcases hneed with h | h
      · exact absurd h.1 (by omega)
      · exact h
    unfold ac_to_str
    simp only [hroom, if_false]
    rw [snprintf_zero none 0 t hn]
    exact to_str_grow_ok env s t w hwf hlen hn hsize halloc

end AcStr

namespace AcStr

open AcAlloc

/-- C29 at two strings. In place: `"de"` appended to `demo_str_fixed`, a fixed
buffer of six characters with the empty allocator, which could not serve any
request; the text and its NUL fit the three characters left. Growing: `"de"`
appended to the full string `demo_str 100`, whose allocator gives the block
asked for. -/
theorem ac_to_str_appends_witness :
    (∃ s1 w1 b, ac_to_str (demo_env 100) INT_MAX demo_str_fixed [100, 101] (1000, []) =
        some ((([100, 101] : List (Fin 256)).length : Int), s1, w1) ∧
      s1.len = demo_str_fixed.len + ([100, 101] : List (Fin 256)).length ∧
      s1.len < s1.cap ∧ s1.data = some b ∧
      b.elems.length = s1.cap ∧
      b.elems.take s1.len = ac_lista_elems demo_str_fixed ++ [100, 101] ∧
      b.elems[s1.len]? = some 0) ∧
    (ac_alloc2 (ac_lista_allocator (demo_env 100) demo_str_fixed) 1 (1000, [])).1.data = none ∧
    ∃ s1 w1 b, ac_to_str (demo_env 100) INT_MAX (demo_str 100) [100, 101] (1000, []) =
        some ((([100, 101] : List (Fin 256)).length : Int), s1, w1) ∧
      s1.len = (demo_str 100).len + ([100, 101] : List (Fin 256)).length ∧
      s1.len < s1.cap ∧ s1.data = some b ∧
      b.elems.length = s1.cap ∧
      b.elems.take s1.len = ac_lista_elems (demo_str 100) ++ [100, 101] ∧
      b.elems[s1.len]? = some 0 :=
  ⟨ac_to_str_appends (demo_env 100) INT_MAX demo_str_fixed [100, 101] (1000, []) rfl
      (by decide) (by decide) (Or.inl (by decide)),
    rfl,
    ac_to_str_appends (demo_env 100) INT_MAX (demo_str 100) [100, 101] (1000, []) rfl
      (by decide) (by decide) (Or.inr (by decide))⟩

/-- C30: on a full string (`cap ≤ len`), when the allocator gives no block,
`ac_to_str` returns the length of the text, not 0: for a text that is not
empty the value is not 0. The string keeps `data`, `len` and `cap`. -/
theorem ac_to_str_full_alloc_fails {ω : Type} (env : ac_env ω (Fin 256)) (print_max : Nat)
    (s : ac_str ω) (t : List (Fin 256)) (w : ω) (hfull : s.cap ≤ s.len)
    (hn : t.length ≤ INT_MAX)
    (hfail : (ac_alloc2 (ac_lista_allocator env s)
      (env.element_size * ac_to_str_cap s.cap (t.length : Int)) w).1.data = none) :
    ∃ s1 w1, ac_to_str env print_max s t w = some ((t.length : Int), s1, w1) ∧
      s1.data = s.data ∧ s1.len = s.len ∧ s1.cap = s.cap ∧
      (t ≠ [] → (t.length : Int) ≠ 0) := by
  have hroom : ¬ (s.cap > s.len) := by omega
  refine ⟨⟨ac_lista_allocator env s, s.data, s.len, s.cap⟩,
    (ac_alloc2 (ac_lista_allocator env s)
      (env.element_size * ac_to_str_cap s.cap (t.length : Int)) w).2, ?_, rfl, rfl, rfl, ?_⟩
  · unfold ac_to_str
    simp only [hroom, if_false]
    rw [snprintf_zero none 0 t hn]
    exact to_str_grow_full_fail env s (t.length : Int) t w hfull hfail
  · intro ht h0
    exact ht (List.length_eq_zero.mp (Int.ofNat_eq_zero.mp h0))

theorem ac_to_str_full_alloc_fails_witness :
    ∃ s1 w1, ac_to_str (demo_env 0) INT_MAX (demo_str 0) [100, 101] (1000, []) =
        some ((([100, 101] : List (Fin 256)).length : Int), s1, w1) ∧
      s1.data = (demo_str 0).data ∧ s1.len = (demo_str 0).len ∧ s1.cap = (demo_str 0).cap ∧
      (([100, 101] : List (Fin 256)) ≠ [] →
        ((([100, 101] : List (Fin 256)).length : Nat) : Int) ≠ 0) :=
  ac_to_str_full_alloc_fails (demo_env 0) INT_MAX (demo_str 0) [100, 101] (1000, [])
    (by decide) (by decide) rfl

/-- C25: `len ≤ cap` holds for the string `ac_str_init` returns and for the
string `ac_str_free` leaves, and every list that `ac_lista_realloc` or
`ac_lista_next_exg` returns from a list with `len ≤ cap` has `len ≤ cap`,
whatever the capacity, the growth parameters and the allocator's answer. Both
return on every list whose block holds `cap` elements. -/
theorem ac_lista_len_le_cap {ω τ : Type} (env : ac_env ω τ) :
    (∀ a : ac_allocator2 ω, (ac_str_init a).len ≤ (ac_str_init a).cap) ∧
    (∀ (l : ac_lista ω τ) (new_cap : Nat) (w : ω), l.len ≤ l.cap →
      ∀ r, ac_lista_realloc env l new_cap w = some r → r.1.len ≤ r.1.cap) ∧
    (∀ (l : ac_lista ω τ) (m b min_cap : Nat) (w : ω), l.len ≤ l.cap →
      ∀ r, ac_lista_next_exg env m b min_cap l w = some r → r.2.1.len ≤ r.2.1.cap) ∧
    (∀ (s : ac_str ω) (w : ω), (ac_str_free s w).1.len ≤ (ac_str_free s w).1.cap) ∧
    (∀ (l : ac_lista ω τ), ac_lista_wf l → l.len ≤ l.cap →
      (∀ new_cap w, ∃ r, ac_lista_realloc env l new_cap w = some r) ∧
      (∀ m b min_cap w, ∃ r, ac_lista_next_exg env m b min_cap l w = some r)) :=
  ⟨fun _ => Nat.le_refl 0,
    fun l new_cap w hlen r hr => lista_realloc_len_le env l new_cap w hlen r hr,
    fun l m b min_cap w hlen r hr => lista_next_exg_len_le env m b min_cap l w hlen r hr,
    fun _ _ => Nat.le_refl 0,
    fun l hwf hlen =>
      ⟨fun new_cap w => lista_realloc_total env l new_cap w (lista_wf_back l hwf hlen),
        fun m b min_cap w =>
          lista_next_exg_total env m b min_cap l w (lista_wf_back l hwf hlen)⟩⟩

end AcStr

/-! ## Lemmas on deleting from a list -/

namespace AcMem

theorem size_pred_pos (n : Nat) (h : 0 < n) : size_pred n = n - 1 := by
  unfold size_pred
  rw [if_neg (by omega)]

/-- Deleting at an index of the list: the last element goes there unless the
index is the last, and `len` is one less. -/
theorem del_nth_some {τ : Type} (l : ac_list τ) (es : List τ) (i : Nat) (x : τ)
    (hd : l.data = some es) (hlen : l.len ≤ es.length) (hi : i < l.len)
    (hx : es[l.len - 1]? = some x) :
    ac_list_del_nth l i =
      some ⟨some (if i < l.len - 1 then es.set i x else es), l.len - 1, l.cap⟩ := by
  unfold ac_list_del_nth
  rw [size_pred_pos l.len (by omega)]
  by_cases h : i < l.len - 1
  · have hi2 : i < es.length := by omega
    simp only [h, if_true, ac_list_load, ac_list_store, hd, hx, hi2]
    rw [size_pred_pos l.len (by omega)]
  · simp only [h, if_false, hd]
    rw [size_pred_pos l.len (by omega), ← hd]

/-- The loop stops at the first index that holds the value. -/
theorem del_value_loop_found {τ : Type} [DecidableEq τ] (l : ac_list τ) (es : List τ)
    (v : τ) (hd : l.data = some es) (hlen : l.len ≤ es.length) (k : Nat) (hk : k < l.len)
    (hv : es[k]? = some v) :
    ∀ n i, i + n = l.len → i ≤ k → (∀ j, i ≤ j → j < k → es[j]? ≠ some v) →
      ac_list_del_value_loop l v n i =
        match ac_list_del_nth l k with
        | none => none
        | some l1 => some (true, l1) := by
  intro n
  induction n with
  | zero =>
    intro i h1 h2 _
    omega
  | succ n ih =>
    intro i h1 h2 h3
    have hi : i < es.length := by omega
    unfold ac_list_del_value_loop
    have hload : ac_list_load l i = some (es[i]) := by
      unfold ac_list_load
      rw [hd]
      exact List.getElem?_eq_getElem hi
    simp only [hload]
    by_cases hx : es[i] = v
    · have hik : i = k := by
        by_contra hne
        have hlt : i < k := by omega
        exact h3 i (Nat.le_refl i) hlt (by rw [List.getElem?_eq_getElem hi, hx])
      subst hik
      simp only [hx, if_true]
    · have hik : i ≠ k := by
        intro he
        subst he
        rw [List.getElem?_eq_getElem hi] at hv
        exact hx (Option.some.inj hv)
      simp only [hx, if_false]
      exact ih (i + 1) (by omega) (by omega) (fun j hj1 hj2 => h3 j (by omega) hj2)

/-- The loop ends with `false` and the list as it was when no index holds the
value. -/
theorem del_value_loop_none {τ : Type} [DecidableEq τ] (l : ac_list τ) (es : List τ)
    (v : τ) (hd : l.data = some es) (hlen : l.len ≤ es.length) :
    ∀ n i, i + n = l.len → (∀ j, i ≤ j → j < l.len → es[j]? ≠ some v) →
      ac_list_del_value_loop l v n i = some (false, l) := by
  intro n
  induction n with
  | zero =>
    intro i _ _
    rfl
  | succ n ih =>
    intro i h1 h3
    have hi : i < es.length := by omega
    unfold ac_list_del_value_loop
    have hload : ac_list_load l i = some (es[i]) := by
      unfold ac_list_load
      rw [hd]
      exact List.getElem?_eq_getElem hi
    simp only [hload]
    have hx : ¬ es[i] = v := by
      intro hx
      exact h3 i (Nat.le_refl i) (by omega) (by rw [List.getElem?_eq_getElem hi, hx])
    simp only [hx, if_false]
    exact ih (i + 1) (by omega) (fun j hj1 hj2 => h3 j (by omega) hj2)

theorem erase_eq_eraseIdx_first {τ : Type} [DecidableEq τ] (v : τ) :
    ∀ (xs : List τ) (k : Nat), xs[k]? = some v → (∀ j, j < k → xs[j]? ≠ some v) →
      xs.erase v = xs.eraseIdx k := by
  intro xs
  induction xs with
  | nil =>
    intro k hk _
    simp at hk
  | cons y ys ih =>
    intro k hk hfirst
    cases k with
    | zero =>
      simp only [List.getElem?_cons_zero, Option.some.injEq] at hk
      subst hk
      simp
    | succ k =>
      have hy : y ≠ v := by
        intro hy
        exact hfirst 0 (Nat.succ_pos k) (by simp [hy])
      rw [List.erase_cons_tail (by simpa using hy), List.eraseIdx_cons_succ]
      rw [ih k (by simpa using hk)
        (fun j hj => by simpa using hfirst (j + 1) (Nat.succ_lt_succ hj))]

theorem set_last_take_perm {τ : Type} (x : τ) :
    ∀ (xs : List τ) (k : Nat), k + 1 < xs.length → xs[xs.length - 1]? = some x →
      ((xs.set k x).take (xs.length - 1)).Perm (xs.eraseIdx k) := by
  intro xs
  induction xs with
  | nil =>
    intro k hk _
    simp at hk
  | cons y ys ih =>
    intro k hk hx
    have hne : ys ≠ [] := by
      intro h
      subst h
      simp at hk
    have hpos : 0 < ys.length := List.length_pos.mpr hne
    have hlast : ys[ys.length - 1]? = some x := by
      have h1 : (y :: ys).length - 1 = (ys.length - 1) + 1 := by
        simp only [List.length_cons]
        omega
      rw [h1, List.getElem?_cons_succ] at hx
      exact hx
    have hsplit : (y :: ys).length - 1 = (ys.length - 1) + 1 := by
      simp only [List.length_cons]
      omega
    cases k with
    | zero =>
      rw [List.set_cons_zero, hsplit, List.take_succ_cons, List.eraseIdx_cons_zero]
      have hdl : ys.take (ys.length - 1) ++ [x] = ys := by
        have h2 : ys.getLast hne = x := by
          rw [List.getLast_eq_getElem]
          have h3 : ys[ys.length - 1]? = some (ys[ys.length - 1]) :=
            List.getElem?_eq_getElem (by omega)
          rw [h3] at hlast
          exact Option.some.inj hlast
        rw [← h2, ← List.dropLast_eq_take]
        exact List.dropLast_append_getLast hne
      have hp : (x :: ys.take (ys.length - 1)).Perm (ys.take (ys.length - 1) ++ [x]) :=
        (List.perm_append_singleton x _).symm
      rw [hdl] at hp
      exact hp
    | succ k =>
      rw [List.set_cons_succ, hsplit, List.take_succ_cons, List.eraseIdx_cons_succ]
      exact List.Perm.cons y (ih k (by simpa using hk) hlast)

end AcMem

namespace AcMem

/-- The run of `ac_list_del_value` for a value first found at index `i`,
with `x` the last element. -/
theorem del_value_run {τ : Type} [DecidableEq τ] (l : ac_list τ) (es : List τ)
    (v x : τ) (i : Nat) (hd : l.data = some es) (hlen : l.len ≤ es.length) (hi : i < l.len)
    (hv : es[i]? = some v) (hfirst : ∀ j, j < i → es[j]? ≠ some v)
    (hx : es[l.len - 1]? = some x) :
    ac_list_del_value l v = some (true,
      ⟨some (if i < l.len - 1 then es.set i x else es), l.len - 1, l.cap⟩) := by
  unfold ac_list_del_value
  rw [del_value_loop_found l es v hd hlen i hi hv l.len 0 (by omega) (Nat.zero_le i)
    (fun j _ hj => hfirst j hj)]
  rw [del_nth_some l es i x hd hlen hi hx]

theorem last_some {τ : Type} (es : List τ) (n : Nat) (h1 : 0 < n) (h2 : n ≤ es.length) :
    ∃ x, es[n - 1]? = some x :=
  ⟨es[n - 1], List.getElem?_eq_getElem (by omega)⟩

/-- C27: on a list whose first `len` elements are in its block, for a value
`v` that first occurs at index `i < len`, `ac_list_del_value` returns `true`,
`len` is one less, index `i` holds the old last element unless `i` was the
last index, every other index below the new `len` holds what it held, and the
elements are a permutation of the old elements with the first `v` erased. -/
theorem ac_list_del_value_found {τ : Type} [DecidableEq τ] (l : ac_list τ) (es : List τ)
    (v : τ) (i : Nat) (hd : l.data = some es) (hlen : l.len ≤ es.length) (hi : i < l.len)
    (hv : es[i]? = some v) (hfirst : ∀ j, j < i → es[j]? ≠ some v) :
    ∃ l1 es1, ac_list_del_value l v = some (true, l1) ∧ l1.data = some es1 ∧
      l1.len = l.len - 1 ∧ l1.cap = l.cap ∧
      (i < l.len - 1 → es1[i]? = es[l.len - 1]?) ∧
      (∀ j, j < l.len - 1 → j ≠ i → es1[j]? = es[j]?) ∧
      (ac_list_elems l1).Perm ((ac_list_elems l).erase v) := by
  obtain ⟨x, hx⟩ := last_some es l.len (by omega) hlen
  have hrun := del_value_run l es v x i hd hlen hi hv hfirst hx
  have hxs : (es.take l.len).length = l.len := by
    rw [List.length_take]
    omega
  have herase : (es.take l.len).erase v = (es.take l.len).eraseIdx i := by
    apply erase_eq_eraseIdx_first
    · rw [List.getElem?_take, if_pos hi]
      exact hv
    · intro j hj
      rw [List.getElem?_take, if_pos (by omega)]
      exact hfirst j hj
  refine ⟨_, _, hrun, rfl, rfl, rfl, ?_, ?_, ?_⟩
  · intro h
    rw [if_pos h, hx]
    exact List.getElem?_set_self (by omega)
  · intro j _ hj
    by_cases h : i < l.len - 1
    · rw [if_pos h]
      exact List.getElem?_set_ne (fun e => hj e.symm)
    · rw [if_neg h]
  · show (List.take (l.len - 1) (if i < l.len - 1 then es.set i x else es)).Perm
      ((ac_list_elems l).erase v)
    have hel : ac_list_elems l = es.take l.len := by
      unfold ac_list_elems
      rw [hd]
    rw [hel, herase]
    by_cases h : i < l.len - 1
    · rw [if_pos h]
      have hp := set_last_take_perm x (es.take l.len) i (by omega)
        (by
          rw [hxs, List.getElem?_take, if_pos (by omega)]
          exact hx)
      rw [hxs, ← List.set_take, List.take_take, Nat.min_eq_left (Nat.sub_le _ _)] at hp
      exact hp
    · rw [if_neg h]
      have hil : i = l.len - 1 := by omega
      rw [List.eraseIdx_eq_take_drop_succ, hil, List.take_take,
        Nat.min_eq_left (Nat.sub_le _ _)]
      have hdrop : List.drop (l.len - 1 + 1) (es.take l.len) = [] :=
        List.drop_eq_nil_of_le (by omega)
      rw [hdrop, List.append_nil]

theorem ac_list_del_value_found_witness :
    ∃ l1 es1, ac_list_del_value demo_list 7 = some (true, l1) ∧ l1.data = some es1 ∧
      l1.len = demo_list.len - 1 ∧ l1.cap = demo_list.cap ∧
      (0 < demo_list.len - 1 → es1[0]? = [7, 8, 7, 9, 0][demo_list.len - 1]?) ∧
      (∀ j, j < demo_list.len - 1 → j ≠ 0 → es1[j]? = [7, 8, 7, 9, 0][j]?) ∧
      (ac_list_elems l1).Perm ((ac_list_elems demo_list).erase 7) :=
  ac_list_del_value_found demo_list [7, 8, 7, 9, 0] 7 0 rfl (by decide) (by decide) rfl
    (fun j hj => absurd hj (Nat.not_lt_zero j))

/-- C28: on a list whose first `len` elements are in its block,
`ac_list_del_value` returns; its value is `true` if and only if the value is
among the elements, and when it is `false` the list is as it was. -/
theorem ac_list_del_value_iff {τ : Type} [DecidableEq τ] (l : ac_list τ) (v : τ)
    (hwf : ac_list_wf l) :
    ∃ r, ac_list_del_value l v = some r ∧ (r.1 = true ↔ v ∈ ac_list_elems l) ∧
      (r.1 = false → r.2 = l) := by
  cases hd : l.data with
  | none =>
    have h0 : l.len = 0 := by
      unfold ac_list_wf at hwf
      rw [hd] at hwf
      exact hwf
    have hrun : ac_list_del_value l v = some (false, l) := by
      unfold ac_list_del_value
      rw [h0]
      rfl
    have hel : ac_list_elems l = [] := by
      unfold ac_list_elems
      rw [hd]
    refine ⟨_, hrun, ?_, fun _ => rfl⟩
    rw [hel]
    simp
  | some es =>
    have hlen : l.len ≤ es.length := by
      unfold ac_list_wf at hwf
      rw [hd] at hwf
      exact hwf
    have hel : ac_list_elems l = es.take l.len := by
      unfold ac_list_elems
      rw [hd]
    by_cases hex : ∃ k, k < l.len ∧ es[k]? = some v
    · have hk := Nat.find_spec hex
      have hmin : ∀ j, j < Nat.find hex → es[j]? ≠ some v := by
        intro j hj hjv
        exact Nat.find_min hex hj ⟨by omega, hjv⟩
      obtain ⟨x, hx⟩ := last_some es l.len (by omega) hlen
      have hrun := del_value_run l es v x (Nat.find hex) hd hlen hk.1 hk.2 hmin hx
      refine ⟨_, hrun, ?_, ?_⟩
      · constructor
        · intro _
          rw [hel, List.mem_iff_getElem?]
          refine ⟨Nat.find hex, ?_⟩
          rw [List.getElem?_take, if_pos hk.1]
          exact hk.2
        · intro _
          rfl
      · intro h
        cases h
    · have hnone : ∀ j, 0 ≤ j → j < l.len → es[j]? ≠ some v := by
        intro j _ hj hjv
        exact hex ⟨j, hj, hjv⟩
      have hrun : ac_list_del_value l v = some (false, l) := by
        unfold ac_list_del_value
        exact del_value_loop_none l es v hd hlen l.len 0 (by omega) hnone
      refine ⟨_, hrun, ?_, fun _ => rfl⟩
      constructor
      · intro h
        cases h
      · intro hmem
        rw [hel, List.mem_iff_getElem?] at hmem
        obtain ⟨n, hn⟩ := hmem
        rw [List.getElem?_take] at hn
        by_cases hnl : n < l.len
        · rw [if_pos hnl] at hn
          exact absurd hn (hnone n (Nat.zero_le n) hnl)
        · rw [if_neg hnl] at hn
          cases hn

theorem ac_list_del_value_iff_witness :
    ∃ r, ac_list_del_value demo_list 5 = some r ∧ (r.1 = true ↔ 5 ∈ ac_list_elems demo_list) ∧
      (r.1 = false → r.2 = demo_list) :=
  ac_list_del_value_iff demo_list 5 (show (4 : Nat) ≤ 5 by decide)

end AcMem

/-! ## Name and comment together -/

namespace AcGzip

/-- C37: for every buffer with magic `1f 8b`, method byte 8 and the NAME and
COMMENT flags set while EXTRA and HCRC are clear: if `k1` is the index of the
first zero byte at or after offset 10, `k2` the index of the first zero byte
after `k1`, and `k2 + 1 < size`, then `ac_gzip_init` succeeds, `name` points
at offset 10 and the string there is bytes `[10, k1)`, `comment` points at
offset `k1 + 1` and the string there is bytes `[k1 + 1, k2)`, and `rest` is
bytes `[k2 + 1, size)`. -/
theorem ac_gzip_init_name_comment (g : ac_gzip) (file : List Byte) (k1 k2 : Nat)
    (h0 : byte file 0 = 0x1f) (h1 : byte file 1 = 0x8b)
    (_h2 : byte file 2 = AC_GZIP_COMPRESSION_DEFLATE)
    (hN : byte file 3 &&& AC_GZIP_FLAG_NAME ≠ 0)
    (hC : byte file 3 &&& AC_GZIP_FLAG_COMMENT ≠ 0)
    (hE : byte file 3 &&& AC_GZIP_FLAG_EXTRA = 0)
    (hH : byte file 3 &&& AC_GZIP_FLAG_HCRC = 0)
    (hk1 : 10 ≤ k1) (hz1 : byte file k1 = 0)
    (hnz1 : ∀ i, i < k1 → 10 ≤ i → byte file i ≠ 0)
    (hk2 : k1 + 1 ≤ k2) (hz2 : byte file k2 = 0)
    (hnz2 : ∀ i, i < k2 → k1 + 1 ≤ i → byte file i ≠ 0)
    (hsz : k2 + 1 < file.length) :
    ∃ r, ac_gzip_init g file = some (true, r) ∧
      r.name = some 10 ∧ ac_cstr file 10 = (file.drop 10).take (k1 - 10) ∧
      r.comment = some (k1 + 1) ∧
      ac_cstr file (k1 + 1) = (file.drop (k1 + 1)).take (k2 - (k1 + 1)) ∧
      r.rest = ⟨some (k2 + 1), file.length - (k2 + 1)⟩ ∧
      ac_buf_bytes file r.rest = file.drop (k2 + 1) := by
  have hm : byte file 0 + 256 * byte file 1 = AC_GZIP_MAGIC := (magic_iff file).mpr ⟨h0, h1⟩
  have hb := body_of_magic (show 10 ≤ file.length by omega) hm
  have hs1 : ¬ k1 + 1 ≥ file.length := by omega
  have hs2 : ¬ k2 + 1 ≥ file.length := by omega
  simp only [extras_clear hE, cstr_set hN (scan_first_zero hk1 (by omega) hz1 hnz1), hs1,
    if_false, cstr_set hC (scan_first_zero hk2 (by omega) hz2 hnz2), hs2,
    hcrc_clear hH] at hb
  exact ⟨_, init_true_iff.mpr hb, rfl, cstr_eq_take hk1 (by omega) hz1 hnz1, rfl,
    cstr_eq_take hk2 (by omega) hz2 hnz2, rfl, by simp [ac_buf_bytes]⟩

/-- C37 at `demo_named_commented`: `k1 = 11`, `k2 = 14`. -/
theorem ac_gzip_init_name_comment_witness :
    ∃ r, ac_gzip_init demo_dirty demo_named_commented = some (true, r) ∧
      r.name = some 10 ∧
      ac_cstr demo_named_commented 10 = (demo_named_commented.drop 10).take (11 - 10) ∧
      r.comment = some (11 + 1) ∧
      ac_cstr demo_named_commented (11 + 1) =
        (demo_named_commented.drop (11 + 1)).take (14 - (11 + 1)) ∧
      r.rest = ⟨some (14 + 1), demo_named_commented.length - (14 + 1)⟩ ∧
      ac_buf_bytes demo_named_commented r.rest = demo_named_commented.drop (14 + 1) :=
  ac_gzip_init_name_comment demo_dirty demo_named_commented 11 14
    (by decide) (by decide) (by decide) (by decide) (by decide) (by decide) (by decide)
    (by decide) (by decide) (by decide) (by decide) (by decide) (by decide) (by decide)

end AcGzip

/-! ## Claims on rounding up, time and rotations -/

namespace AcMem

theorem align_up_eq (offset align : Nat) (ha : 0 < align)
    (ho : offset + (align - 1) < 18446744073709551616) :
    ac_align_up offset align = some ((offset + (align - 1)) / align * align) := by
  unfold ac_align_up
  rw [if_neg (by omega), size_pred_pos align ha, Nat.mod_eq_of_lt ho]
  have h1 : (offset + (align - 1)) / align * align ≤ offset + (align - 1) :=
    Nat.div_mul_le_self _ _
  rw [Nat.mod_eq_of_lt (by omega)]

theorem align_up_multiple (q align : Nat) (ha : 0 < align) :
    (q * align + (align - 1)) / align * align = q * align := by
  have h : (q * align + (align - 1)) / align = q := by
    rw [Nat.add_comm, Nat.add_mul_div_right _ _ ha, Nat.div_eq_of_lt (by omega)]
    omega
  rw [h]

/-- C32, the counterexample: with `align = 3 * 2 ^ 62` and `offset = 1` the sum
`offset + align - 1` does not overflow and `ac_align_up` returns `align`, but
`ac_align_up` of that value is 0. -/
theorem ac_align_up_not_idempotent :
    1 + 13835058055282163712 - 1 < 18446744073709551616 ∧
    ac_align_up 1 13835058055282163712 = some 13835058055282163712 ∧
    ac_align_up 13835058055282163712 13835058055282163712 = some 0 := by
  decide

/-- C32, amended: for `align > 0` with `offset + align - 1` below `2 ^ 64`,
`ac_align_up offset align` is the smallest multiple of `align` that is at
least `offset`, and is below `offset + align`. Applying `ac_align_up` to the
result returns it again when the result plus `align - 1` is below `2 ^ 64`,
which is so whenever `align` divides `2 ^ 64`. -/
theorem ac_align_up_least (offset align : Nat) (ha : 0 < align)
    (ho : offset + align - 1 < 18446744073709551616) :
    ∃ r, ac_align_up offset align = some r ∧ align ∣ r ∧ offset ≤ r ∧
      (∀ m, align ∣ m → offset ≤ m → r ≤ m) ∧ r < offset + align ∧
      (r + align - 1 < 18446744073709551616 → ac_align_up r align = some r) ∧
      (align ∣ 18446744073709551616 → ac_align_up r align = some r) := by
  have ho2 : offset + (align - 1) < 18446744073709551616 := by omega
  have hle : (offset + (align - 1)) / align * align ≤ offset + (align - 1) :=
    Nat.div_mul_le_self _ _
  have hge : offset ≤ (offset + (align - 1)) / align * align := by
    have h1 := Nat.div_add_mod (offset + (align - 1)) align
    have h2 := Nat.mod_lt (offset + (align - 1)) ha
    rw [Nat.mul_comm] at h1
    omega
  have hidem : (offset + (align - 1)) / align * align + align - 1 < 18446744073709551616 →
      ac_align_up ((offset + (align - 1)) / align * align) align =
        some ((offset + (align - 1)) / align * align) := by
    intro h
    rw [align_up_eq _ align ha (by omega), align_up_multiple _ align ha]
  refine ⟨_, align_up_eq offset align ha ho2, Dvd.intro_left _ rfl, hge, ?_, by omega,
    hidem, ?_⟩
  · intro m hm hom
    obtain ⟨j, rfl⟩ := hm
    have hq : (offset + (align - 1)) / align ≤ j := by
      apply Nat.le_of_lt_succ
      have e : align * (j + 1) = align * j + align := Nat.mul_succ align j
      exact Nat.div_lt_of_lt_mul (by rw [e]; omega)
    calc (offset + (align - 1)) / align * align ≤ j * align := Nat.mul_le_mul_right _ hq
      _ = align * j := Nat.mul_comm _ _
  · intro hdvd
    apply hidem
    obtain ⟨t, ht⟩ := hdvd
    have hlt : (offset + (align - 1)) / align * align < align * t := by omega
    have hqt : (offset + (align - 1)) / align < t := by
      rw [Nat.mul_comm align t] at hlt
      exact Nat.lt_of_mul_lt_mul_right hlt
    have : ((offset + (align - 1)) / align + 1) * align ≤ t * align :=
      Nat.mul_le_mul_right _ hqt
    have h3 : ((offset + (align - 1)) / align + 1) * align =
        (offset + (align - 1)) / align * align + align := by ring
    rw [Nat.mul_comm t align] at this
    omega

theorem ac_align_up_least_witness :
    ∃ r, ac_align_up 13 8 = some r ∧ 8 ∣ r ∧ 13 ≤ r ∧
      (∀ m, 8 ∣ m → 13 ≤ m → r ≤ m) ∧ r < 13 + 8 ∧
      (r + 8 - 1 < 18446744073709551616 → ac_align_up r 8 = some r) ∧
      (8 ∣ 18446744073709551616 → ac_align_up r 8 = some r) :=
  ac_align_up_least 13 8 (by decide) (by decide)

end AcMem

namespace AcTime

theorem to_int64_small (n : Nat) (h : n < 9223372036854775808) : to_int64 n = (n : Int) := by
  unfold to_int64
  rw [if_pos h]

theorem to_uint64_to_int64 (n : Nat) (h : n < 18446744073709551616) :
    to_uint64 (to_int64 n) = n := by
  unfold to_uint64 to_int64
  split <;> omega

theorem time_diff_1970 (a : ac_time) (h : a.ticks < 18446744073709551616) :
    ac_time_diff a ac_time_1970_midnight = ⟨to_int64 a.ticks⟩ := by
  unfold ac_time_diff ac_time_1970_midnight
  have e : (a.ticks + 18446744073709551616 - 0 % 18446744073709551616)
      % 18446744073709551616 = a.ticks := by
    omega
  rw [e]

/-- On Linux and macOS `ac_time_ms_since_1970` is the `uint64_t` quotient of
the ticks by 1000. -/
theorem ms_since_1970_eq (a : ac_time) (h : a.ticks < 18446744073709551616) :
    ac_time_ms_since_1970 a = ((a.ticks / 1000 : Nat) : Int) := by
  unfold ac_time_ms_since_1970
  have hf : ac_time_freq / 1000 = 1000 := by decide
  simp only [hf, time_diff_1970 a h, to_uint64_to_int64 a.ticks h]
  exact to_int64_small _ (by omega)

theorem from_ms_since_1970_eq (x : Nat) (hx : x * 1000 < 18446744073709551616) :
    ac_time_from_ms_since_1970 x = ⟨x * 1000⟩ := by
  unfold ac_time_from_ms_since_1970 ac_time_1970_midnight
  have hf : ac_time_freq / 1000 = 1000 := by decide
  simp only [hf, Nat.add_zero, Nat.mod_eq_of_lt hx]

/-- C33: for `x` with `x * 1000` below `2 ^ 64`, converting `x` milliseconds to
an `ac_time` and back gives `x` again, so the two differ by at most 1. -/
theorem ac_time_ms_round_trip (x : Nat) (hx : x * 1000 < 18446744073709551616) :
    ac_time_ms_since_1970 (ac_time_from_ms_since_1970 x) = (x : Int) ∧
    |ac_time_ms_since_1970 (ac_time_from_ms_since_1970 x) - (x : Int)| ≤ 1 := by
  have h : ac_time_ms_since_1970 (ac_time_from_ms_since_1970 x) = (x : Int) := by
    rw [from_ms_since_1970_eq x hx, ms_since_1970_eq _ hx]
    show ((x * 1000 / 1000 : Nat) : Int) = (x : Int)
    rw [Nat.mul_div_cancel x (by decide)]
  rw [h, sub_self, abs_zero]
  exact ⟨rfl, Int.one_nonneg⟩

theorem ac_time_ms_round_trip_witness :
    ac_time_ms_since_1970 (ac_time_from_ms_since_1970 123456) = ((123456 : Nat) : Int) ∧
    |ac_time_ms_since_1970 (ac_time_from_ms_since_1970 123456) - ((123456 : Nat) : Int)| ≤ 1 :=
  ac_time_ms_round_trip 123456 (by decide)

/-- C39: the ticks from `ac_time_1970_midnight` to `ac_time_2000_noon` are
10957.5 days of 86400 seconds of `ac_time_freq` ticks, and
`ac_time_ms_since_1970` of `ac_time_2000_noon` is 946728000000. -/
theorem ac_time_2000_noon_consistent :
    ((ac_time_2000_noon.ticks : ℚ) - (ac_time_1970_midnight.ticks : ℚ) =
      10957.5 * 86400 * (ac_time_freq : ℚ)) ∧
    2 * (ac_time_2000_noon.ticks - ac_time_1970_midnight.ticks) = 21915 * 86400 * ac_time_freq ∧
    ac_time_ms_since_1970 ac_time_2000_noon = 946728000000 := by
  refine ⟨?_, by decide, by decide⟩
  unfold ac_time_2000_noon ac_time_1970_midnight ac_time_freq
  norm_num

end AcTime

namespace AcVec

theorem ac_v4f_ext_iff {R : Type} (a b : ac_v4f R) :
    a = b ↔ a.x = b.x ∧ a.y = b.y ∧ a.z = b.z ∧ a.w = b.w := by
  constructor
  · intro h
    subst h
    exact ⟨rfl, rfl, rfl, rfl⟩
  · intro h
    cases a
    cases b
    simp only at h
    obtain ⟨h1, h2, h3, h4⟩ := h
    subst h1 h2 h3 h4
    rfl

theorem ac_mat4f_ext_iff {R : Type} (a b : ac_mat4f R) :
    a = b ↔ a.col0 = b.col0 ∧ a.col1 = b.col1 ∧ a.col2 = b.col2 ∧ a.col3 = b.col3 := by
  constructor
  · intro h
    subst h
    exact ⟨rfl, rfl, rfl, rfl⟩
  · intro h
    cases a
    cases b
    simp only at h
    obtain ⟨h1, h2, h3, h4⟩ := h
    subst h1 h2 h3 h4
    rfl

/-- C40: over the real numbers, `ac_mat4f_rot_cs` about the x axis has 2 where
`ac_mat4f_rotx_cs` has 1, for every `c` and `s`, so the two never agree; about
the y axis it agrees with `ac_mat4f_roty_cs` only for `c = 1` and `s = 0`, and
about the z axis with `ac_mat4f_rotz_cs` only for `c = 1`. -/
theorem ac_mat4f_rot_cs_axes_differ (c s : ℝ) :
    (ac_mat4f_rot_cs (ac_v3f_x : ac_v3f ℝ) c s).col0.x = 2 ∧
    (ac_mat4f_rotx_cs c s).col0.x = 1 ∧
    ac_mat4f_rot_cs (ac_v3f_x : ac_v3f ℝ) c s ≠ ac_mat4f_rotx_cs c s ∧
    (ac_mat4f_rot_cs (ac_v3f_y : ac_v3f ℝ) c s = ac_mat4f_roty_cs c s ↔ c = 1 ∧ s = 0) ∧
    (ac_mat4f_rot_cs (ac_v3f_z : ac_v3f ℝ) c s = ac_mat4f_rotz_cs c s ↔ c = 1) := by
  refine ⟨?_, rfl, ?_, ?_, ?_⟩
  · simp only [ac_mat4f_rot_cs, ac_v3f_x]
    ring
  · intro h
    have h1 := congrArg (fun m => m.col0.x) h
    simp only [ac_mat4f_rot_cs, ac_mat4f_rotx_cs, ac_v3f_x, ac_v4f_x] at h1
    linarith
  · rw [ac_mat4f_ext_iff]
    simp only [ac_v4f_ext_iff, ac_mat4f_rot_cs, ac_mat4f_roty_cs, ac_v3f_y, ac_v4f_y, ac_v4f_w]
    constructor
    · rintro ⟨⟨h1, _, h3, _⟩, _, _, _⟩
      constructor
      · linarith
      · linarith
    · rintro ⟨rfl, rfl⟩
      norm_num
  · rw [ac_mat4f_ext_iff]
    simp only [ac_v4f_ext_iff, ac_mat4f_rot_cs, ac_mat4f_rotz_cs, ac_v3f_z, ac_v4f_z, ac_v4f_w]
    constructor
    · rintro ⟨⟨h1, _, _, _⟩, _, _, _⟩
      linarith
    · rintro rfl
      norm_num

end AcVec

/-! ## Claims on repeating a character and on pushing -/

namespace AcStr

open AcAlloc

/-- When there is room, or the allocator gives a block, `ac_str_repeat_char`
appends `count` copies of the character. -/
theorem repeat_char_ok {ω : Type} (env : ac_env ω (Fin 256)) (s : ac_str ω) (c : Fin 256)
    (count : Nat) (w : ω) (hwf : ac_lista_wf s) (hlen : s.len ≤ s.cap)
    (halloc : s.len + count < s.cap ∨
      (ac_alloc2 (ac_lista_allocator env s) (env.element_size * (s.len + count)) w).1.data
        ≠ none) :
    ∃ s1 w1, ac_str_repeat_char env s c count w = some (s1, w1) ∧
      s1.len = s.len + count ∧ s1.len ≤ s1.cap ∧
      ac_lista_elems s1 = ac_lista_elems s ++ List.replicate count c := by
  have hset : ∀ (b : ac_array (Fin 256)) (a : ac_allocator2 ω) (cap : Nat) (w1 : ω),
      s.len + count ≤ b.elems.length → b.elems.length = cap →
      b.elems.take s.len = ac_lista_elems s →
      ∃ s1, (match ac_memset (some b) s.len c count with
          | none => none
          | some d => some ((⟨a, d, s.len + count, cap⟩ : ac_str ω), w1)) = some (s1, w1) ∧
        s1.len = s.len + count ∧ s1.len ≤ s1.cap ∧
        ac_lista_elems s1 = ac_lista_elems s ++ List.replicate count c := by
    intro b a cap w1 hb hcap hel
    by_cases h0 : count = 0
    · subst h0
      refine ⟨⟨a, some b, s.len + 0, cap⟩, ?_, rfl, by show s.len + 0 ≤ cap; omega, ?_⟩
      · simp [ac_memset]
      · show b.elems.take (s.len + 0) = _
        simp [hel]
    · refine ⟨⟨a, some ⟨b.addr, b.elems.take s.len ++ List.replicate count c ++
        b.elems.drop (s.len + count)⟩, s.len + count, cap⟩, ?_, rfl,
        by show s.len + count ≤ cap; omega, ?_⟩
      · simp [ac_memset, h0, hb]
      · show (b.elems.take s.len ++ List.replicate count c ++
          b.elems.drop (s.len + count)).take (s.len + count) = _
        have hl : (b.elems.take s.len ++ List.replicate count c).length = s.len + count := by
          simp only [List.length_append, List.length_take, List.length_replicate]
          omega
        rw [← hl, List.take_left, hel]
  by_cases hroom : s.len + count < s.cap
  · obtain ⟨b, hb, hbl⟩ := lista_wf_some s hwf (by omega)
    unfold ac_str_repeat_char
    have h1 : ¬ (s.len + count ≥ s.cap) := by omega
    simp only [h1, if_false, hb]
    obtain ⟨s1, h2, h3, h4, h5⟩ := hset b s.alloc s.cap w (by omega) hbl
      (lista_elems_some s b hb).symm
    exact ⟨s1, w, h2, h3, h4, h5⟩
  · have hp : (ac_alloc2 (ac_lista_allocator env s)
        (env.element_size * (s.len + count)) w).1.data ≠ none := by
      rcases halloc with h | h
      · exact absurd h hroom
      · exact h
    cases hq : (ac_alloc2 (ac_lista_allocator env s)
        (env.element_size * (s.len + count)) w).1.data with
    | none => exact absurd hq hp
    | some p =>
      obtain ⟨es, he, hl, hk⟩ :=
        lista_realloc_some env s (s.len + count) w p (lista_wf_back s hwf hlen) hq
      have hmin : min s.len (s.len + count) = s.len := Nat.min_eq_left (by omega)
      rw [hmin] at he hk
      unfold ac_str_repeat_char
      have h1 : s.len + count ≥ s.cap := by omega
      simp only [h1, if_true, he]
      have hel : es.take s.len = ac_lista_elems s := by
        cases hd : s.data with
        | none =>
          have hc0 : s.cap = 0 := by
            unfold ac_lista_wf at hwf
            rw [hd] at hwf
            exact hwf
          have h0 : s.len = 0 := by omega
          rw [lista_elems_zero s h0, h0]
          rfl
        | some ob => rw [hk ob hd, lista_elems_some s ob hd]
      obtain ⟨s1, h2, h3, h4, h5⟩ := hset ⟨p, es⟩ (ac_lista_allocator env s) (s.len + count)
        (ac_free2 (ac_lista_allocator env s) (ac_lista_mem s)
          (ac_alloc2 (ac_lista_allocator env s) (env.element_size * (s.len + count)) w).2)
        (by show s.len + count ≤ es.length; omega) hl hel
      exact ⟨s1, _, h2, h3, h4, h5⟩

/-- C31: on a string with `len ≤ cap` whose block holds `cap` characters, when
`len + count` is above `cap` and the allocator gives no block,
`ac_str_repeat_char` writes outside the block: the list is not grown and the
`memset` of `count` characters at `len` runs all the same. -/
theorem ac_str_repeat_char_overflow {ω : Type} (env : ac_env ω (Fin 256)) (s : ac_str ω)
    (c : Fin 256) (count : Nat) (w : ω) (hwf : ac_lista_wf s) (hlen : s.len ≤ s.cap)
    (hbig : s.cap < s.len + count)
    (hfail : (ac_alloc2 (ac_lista_allocator env s)
      (env.element_size * (s.len + count)) w).1.data = none) :
    ac_str_repeat_char env s c count w = none := by
  unfold ac_str_repeat_char
  have h1 : s.len + count ≥ s.cap := by omega
  have h0 : count ≠ 0 := by omega
  simp only [h1, if_true, lista_realloc_none env s (s.len + count) w hfail]
  cases hd : s.data with
  | none => simp [ac_memset, h0]
  | some b =>
    have hb : b.elems.length = s.cap := by
      unfold ac_lista_wf at hwf
      rw [hd] at hwf
      exact hwf
    have h2 : ¬ (s.len + count ≤ b.elems.length) := by omega
    simp [ac_memset, h0, h2]

theorem ac_str_repeat_char_overflow_witness :
    ac_str_repeat_char (demo_env 0) (demo_str 0) 46 2 (1000, []) = none :=
  ac_str_repeat_char_overflow (demo_env 0) (demo_str 0) 46 2 (1000, []) rfl (by decide)
    (by decide) rfl

end AcStr

namespace AcAlloc

theorem take_succ_set {τ : Type} (es : List τ) (n : Nat) (v : τ) (h : n < es.length) :
    (es.set n v).take (n + 1) = es.take n ++ [v] := by
  induction es generalizing n with
  | nil => simp at h
  | cons y ys ih =>
    cases n with
    | zero => rfl
    | succ n =>
      have h1 : n < ys.length := by simpa using h
      rw [List.set_cons_succ, List.take_succ_cons, List.take_succ_cons, ih n h1]
      rfl

/-- One push on a list that holds `done`: the slot is index `done.length`, the
list then holds `done ++ [v]`, and the capacity stays or doubles. -/
theorem lista_push_step {ω τ : Type} (env : ac_env ω τ) (a : ac_allocator2 ω)
    (ha : ac_alloc2_succeeds a) (l : ac_lista ω τ) (done : List τ) (v : τ) (w : ω)
    (hwf : ac_lista_wf l) (hlen : l.len = done.length) (hel : ac_lista_elems l = done)
    (hal : ac_lista_allocator env l = a) (hle : l.len ≤ l.cap) :
    ∃ q l1 w1, ac_lista_push env l v w = some (q, l1, w1) ∧ q.index = done.length ∧
      ac_lista_wf l1 ∧ l1.len = (done ++ [v]).length ∧ ac_lista_elems l1 = done ++ [v] ∧
      ac_lista_allocator env l1 = a ∧ l1.len ≤ l1.cap ∧
      l1.cap = (if l.len < l.cap then l.cap else ac_lista_next_cap 2 0 1 l) := by
  by_cases hroom : l.len < l.cap
  · obtain ⟨b, hb, hbl⟩ := lista_wf_some l hwf (by omega)
    have hn : ac_lista_next_ex env l w =
        some (⟨some b.addr, l.len⟩, ⟨l.alloc, l.data, l.len + 1, l.cap⟩, w) := by
      unfold ac_lista_next_ex
      rw [lista_next_exg_room env 2 0 1 l w hroom, hb]
      rfl
    have hi : l.len < b.elems.length := by omega
    refine ⟨⟨some b.addr, l.len⟩,
      ⟨l.alloc, some ⟨b.addr, b.elems.set l.len v⟩, l.len + 1, l.cap⟩, w, ?_, hlen, ?_, ?_,
      ?_, ?_, ?_, ?_⟩
    · unfold ac_lista_push
      simp only [hn, hb, hi, if_true]
    · show (b.elems.set l.len v).length = l.cap
      rw [List.length_set]
      exact hbl
    · show l.len + 1 = (done ++ [v]).length
      rw [List.length_append, hlen]
      rfl
    · show (b.elems.set l.len v).take (l.len + 1) = done ++ [v]
      rw [take_succ_set b.elems l.len v hi, ← hel, lista_elems_some l b hb]
    · rw [← hal, lista_allocator_of_data env l b hb]
      exact lista_allocator_of_data env _ ⟨b.addr, b.elems.set l.len v⟩ rfl
    · show l.len + 1 ≤ l.cap
      omega
    · rw [if_pos hroom]
  · have hfull : l.cap ≤ l.len := by omega
    have hcap : l.len < ac_lista_next_cap 2 0 1 l := by
      unfold ac_lista_next_cap
      simp only
      split <;> omega
    cases hq : (ac_alloc2 (ac_lista_allocator env l)
        (env.element_size * ac_lista_next_cap 2 0 1 l) w).1.data with
    | none =>
      rw [hal] at hq
      exact absurd hq (ha _ _)
    | some p =>
      obtain ⟨es, he, hl, hk⟩ :=
        lista_realloc_some env l (ac_lista_next_cap 2 0 1 l) w p (lista_wf_back l hwf hle) hq
      have hmin : min l.len (ac_lista_next_cap 2 0 1 l) = l.len :=
        Nat.min_eq_left (Nat.le_of_lt hcap)
      rw [hmin] at he hk
      have hn : ac_lista_next_ex env l w =
          some (⟨some p, l.len⟩,
            ⟨ac_lista_allocator env l, some ⟨p, es⟩, l.len + 1, ac_lista_next_cap 2 0 1 l⟩,
            ac_free2 (ac_lista_allocator env l) (ac_lista_mem l)
              (ac_alloc2 (ac_lista_allocator env l)
                (env.element_size * ac_lista_next_cap 2 0 1 l) w).2) := by
        unfold ac_lista_next_ex
        rw [lista_next_exg_full env 2 0 1 l w hfull _ _ he]
        simp only [hcap, if_true]
        rfl
      have hi : l.len < es.length := by omega
      have hes : es.take l.len = done := by
        rw [← hel]
        cases hd : l.data with
        | none =>
          have hc0 : l.cap = 0 := by
            unfold ac_lista_wf at hwf
            rw [hd] at hwf
            exact hwf
          have h0 : l.len = 0 := by omega
          rw [lista_elems_zero l h0, h0]
          rfl
        | some ob => rw [hk ob hd, lista_elems_some l ob hd]
      refine ⟨⟨some p, l.len⟩,
        ⟨ac_lista_allocator env l, some ⟨p, es.set l.len v⟩, l.len + 1,
          ac_lista_next_cap 2 0 1 l⟩,
        ac_free2 (ac_lista_allocator env l) (ac_lista_mem l)
          (ac_alloc2 (ac_lista_allocator env l)
            (env.element_size * ac_lista_next_cap 2 0 1 l) w).2,
        ?_, hlen, ?_, ?_, ?_, ?_, ?_, ?_⟩
      · unfold ac_lista_push
        simp only [hn, hi, if_true]
      · show (es.set l.len v).length = ac_lista_next_cap 2 0 1 l
        rw [List.length_set]
        exact hl
      · show l.len + 1 = (done ++ [v]).length
        rw [List.length_append, hlen]
        rfl
      · show (es.set l.len v).take (l.len + 1) = done ++ [v]
        rw [take_succ_set es l.len v hi, hes]
      · rw [← hal]
        exact lista_allocator_of_data env _ ⟨p, es.set l.len v⟩ rfl
      · show l.len + 1 ≤ ac_lista_next_cap 2 0 1 l
        omega
      · rw [if_neg hroom]

/-- A capacity that pushes from the empty list reach at length `n`: 0 at
`n = 0`, else a power of two with `n ≤ cap < 2 * n`. -/
theorem lista_cap_step (n cap : Nat)
    (h : (n = 0 ∧ cap = 0) ∨ ∃ k, cap = 2 ^ k ∧ n ≤ cap ∧ cap < 2 * n) :
    ∃ k, (if n < cap then cap else if cap * 2 + 0 ≠ 0 then cap * 2 + 0 else 1) = 2 ^ k ∧
      n + 1 ≤ 2 ^ k ∧ 2 ^ k < 2 * (n + 1) := by
  rcases h with ⟨h1, h2⟩ | ⟨k, h1, h2, h3⟩
  · subst h1 h2
    exact ⟨0, by simp, by simp, by simp⟩
  · by_cases hlt : n < cap
    · refine ⟨k, ?_, ?_, ?_⟩
      · rw [if_pos hlt, h1]
      · omega
      · omega
    · have hpos : 0 < cap := by
        rw [h1]
        exact Nat.pow_pos (by decide)
      refine ⟨k + 1, ?_, ?_, ?_⟩
      · rw [if_neg hlt, if_pos (by omega), Nat.pow_succ, h1]
        rfl
      · rw [Nat.pow_succ]
        omega
      · rw [Nat.pow_succ]
        omega

/-- The pushes of `vs` onto a list that holds `done`. -/
theorem lista_push_all_inv {ω τ : Type} (env : ac_env ω τ) (a : ac_allocator2 ω)
    (ha : ac_alloc2_succeeds a) (vs : List τ) :
    ∀ (l : ac_lista ω τ) (done : List τ) (w : ω), ac_lista_wf l → l.len = done.length →
      ac_lista_elems l = done → ac_lista_allocator env l = a →
      ((l.len = 0 ∧ l.cap = 0) ∨ ∃ k, l.cap = 2 ^ k ∧ l.len ≤ l.cap ∧ l.cap < 2 * l.len) →
      ∃ qs l2 w2, ac_lista_push_all env vs l w = some (qs, l2, w2) ∧
        qs.map (fun q => q.index) = List.range' done.length vs.length ∧
        l2.len = (done ++ vs).length ∧ ac_lista_elems l2 = done ++ vs ∧
        ((l2.len = 0 ∧ l2.cap = 0) ∨
          ∃ k, l2.cap = 2 ^ k ∧ l2.len ≤ l2.cap ∧ l2.cap < 2 * l2.len) := by
  induction vs with
  | nil =>
    intro l done w _ hlen hel _ hcap
    refine ⟨[], l, w, rfl, rfl, ?_, ?_, hcap⟩
    · rw [List.append_nil]
      exact hlen
    · rw [List.append_nil]
      exact hel
  | cons v vs ih =>
    intro l done w hwf hlen hel hal hcap
    have hle : l.len ≤ l.cap := by
      rcases hcap with ⟨h1, h2⟩ | ⟨k, _, h2, _⟩
      · omega
      · exact h2
    obtain ⟨q, l1, w1, hp, hq, hwf1, hlen1, hel1, hal1, hle1, hc1⟩ :=
      lista_push_step env a ha l done v w hwf hlen hel hal hle
    have hcap1 : (l1.len = 0 ∧ l1.cap = 0) ∨
        ∃ k, l1.cap = 2 ^ k ∧ l1.len ≤ l1.cap ∧ l1.cap < 2 * l1.len := by
      obtain ⟨k, hk1, hk2, hk3⟩ := lista_cap_step l.len l.cap hcap
      have hl1 : l1.len = l.len + 1 := by
        rw [hlen1, List.length_append, hlen]
        rfl
      have hc2 : l1.cap = 2 ^ k := by
        rw [hc1, ← hk1]
        rfl
      right
      exact ⟨k, hc2, by omega, by omega⟩
    obtain ⟨qs, l2, w2, hp2, hq2, hlen2, hel2, hcap2⟩ :=
      ih l1 (done ++ [v]) w1 hwf1 hlen1 hel1 hal1 hcap1
    refine ⟨q :: qs, l2, w2, ?_, ?_, ?_, ?_, hcap2⟩
    · show (match ac_lista_push env l v w with
        | none => none
        | some (q, l1, w1) =>
          match ac_lista_push_all env vs l1 w1 with
          | none => none
          | some (qs, l2, w2) => some (q :: qs, l2, w2)) = _
      simp only [hp, hp2]
    · rw [List.map_cons, hq, hq2, List.length_append, List.length_cons, List.length_cons,
        List.length_nil]
      rfl
    · rw [hlen2, List.append_assoc]
      rfl
    · rw [hel2, List.append_assoc]
      rfl

/-- C38: from a list with no data and `len = cap = 0`, whose allocator gives a
block for every request, the pushes of `n ≥ 1` values with `ac_lista_next_ex`
return the slots of index 0 to `n - 1` in order and leave `len = n`, the
pushed values as the elements, and `cap` the smallest power of two that is at
least `n`. -/
theorem ac_lista_push_all_geometric {ω τ : Type} (env : ac_env ω τ) (l : ac_lista ω τ)
    (vs : List τ) (w : ω) (hd : l.data = none) (hl : l.len = 0) (hc : l.cap = 0)
    (hn : 1 ≤ vs.length) (halloc : ac_alloc2_succeeds (ac_lista_allocator env l)) :
    ∃ qs l2 w2, ac_lista_push_all env vs l w = some (qs, l2, w2) ∧
      qs.map (fun q => q.index) = List.range vs.length ∧
      l2.len = vs.length ∧ ac_lista_elems l2 = vs ∧
      ∃ k, l2.cap = 2 ^ k ∧ vs.length ≤ 2 ^ k ∧ ∀ j, vs.length ≤ 2 ^ j → 2 ^ k ≤ 2 ^ j := by
  have hwf : ac_lista_wf l := by
    unfold ac_lista_wf
    rw [hd]
    exact hc
  obtain ⟨qs, l2, w2, hp, hq, hlen2, hel2, hcap2⟩ :=
    lista_push_all_inv env (ac_lista_allocator env l) halloc vs l [] w hwf hl
      (lista_elems_zero l hl) rfl (Or.inl ⟨hl, hc⟩)
  rw [List.nil_append] at hlen2 hel2
  refine ⟨qs, l2, w2, hp, ?_, hlen2, hel2, ?_⟩
  · rw [hq, List.range_eq_range']
    rfl
  · rcases hcap2 with ⟨h1, _⟩ | ⟨k, h1, h2, h3⟩
    · omega
    · refine ⟨k, h1, by omega, ?_⟩
      intro j hj
      by_contra hlt
      have hjk : j < k := by
        by_contra hge
        exact hlt (Nat.pow_le_pow_right (by decide) (by omega))
      have h4 : 2 ^ (j + 1) ≤ 2 ^ k := Nat.pow_le_pow_right (by decide) hjk
      rw [Nat.pow_succ] at h4
      omega

theorem ac_lista_push_all_geometric_witness :
    ∃ qs l2 w2, ac_lista_push_all demo_env_all [7, 8, 9]
        (⟨ac_allocator2_zero, none, 0, 0⟩ : ac_lista demo_world (Fin 256)) (1000, []) =
        some (qs, l2, w2) ∧
      qs.map (fun q => q.index) = List.range ([7, 8, 9] : List (Fin 256)).length ∧
      l2.len = ([7, 8, 9] : List (Fin 256)).length ∧ ac_lista_elems l2 = [7, 8, 9] ∧
      ∃ k, l2.cap = 2 ^ k ∧ ([7, 8, 9] : List (Fin 256)).length ≤ 2 ^ k ∧
        ∀ j, ([7, 8, 9] : List (Fin 256)).length ≤ 2 ^ j → 2 ^ k ≤ 2 ^ j :=
  ac_lista_push_all_geometric demo_env_all ⟨ac_allocator2_zero, none, 0, 0⟩ [7, 8, 9]
    (1000, []) rfl rfl rfl (by decide) (fun _ _ => Option.some_ne_none _)

end AcAlloc

/-! ## Lemmas on the test harness -/

namespace AcTest

theorem bump_length (stack : List ac_test_stack_node) (i : Nat) :
    (ac_test_bump stack i).length = stack.length := by
  unfold ac_test_bump
  split
  · rw [List.length_set]
  · rfl

theorem bump_last (pre : List ac_test_stack_node) (n : ac_test_stack_node) :
    ac_test_bump (pre ++ [n]) pre.length = pre ++ [⟨n.failures + 1⟩] := by
  unfold ac_test_bump
  have h : (pre ++ [n])[pre.length]? = some n := by simp
  rw [h]
  simp

theorem bump_front (pre : List ac_test_stack_node) (n : ac_test_stack_node) (i : Nat)
    (hi : i < pre.length) : ac_test_bump (pre ++ [n]) i = ac_test_bump pre i ++ [n] := by
  unfold ac_test_bump
  have h : (pre ++ [n])[i]? = pre[i]? := List.getElem?_append_left hi
  rw [h]
  cases hp : pre[i]? with
  | none => rfl
  | some m =>
    simp only
    rw [List.set_append_left _ _ hi]

theorem fail_value (s : ac_test_state) : (ac_test_fail s).1 = false := rfl

theorem fail_cases_run (s : ac_test_state) : (ac_test_fail s).2.cases_run = s.cases_run := by
  unfold ac_test_fail ac_test_fail_fn
  dsimp only
  split <;> rfl

theorem fail_failures (s : ac_test_state) : (ac_test_fail s).2.failures = s.failures + 1 := by
  unfold ac_test_fail ac_test_fail_fn
  dsimp only
  split <;> rfl

theorem fail_trace (s : ac_test_state) : (ac_test_fail s).2.trace = s.trace ++ [.failed] := by
  unfold ac_test_fail ac_test_fail_fn
  dsimp only
  split <;> rfl

theorem fail_flag (s : ac_test_state) :
    (ac_test_fail s).2.expect_test_begin = s.expect_test_begin := by
  unfold ac_test_fail ac_test_fail_fn
  dsimp only
  split <;> rfl

theorem fail_stack_nil (s : ac_test_state) (h : s.stack = []) :
    (ac_test_fail s).2.stack = [] := by
  unfold ac_test_fail ac_test_fail_fn
  dsimp only
  rw [h]
  rfl

theorem fail_stack (s : ac_test_state) (pre : List ac_test_stack_node)
    (n : ac_test_stack_node) (h : s.stack = pre ++ [n]) :
    (ac_test_fail s).2.stack = pre ++ [⟨n.failures + 1⟩] := by
  unfold ac_test_fail ac_test_fail_fn
  dsimp only
  rw [h]
  have h1 : (pre ++ [n]).length ≠ 0 := by simp
  have h2 : (pre ++ [n]).length - 1 = pre.length := by simp
  rw [if_pos h1]
  dsimp only
  rw [h2, bump_last]

theorem expect_value (cond : Bool) (s : ac_test_state) : (ac_test_expect cond s).1 = cond := by
  cases cond <;> rfl

theorem expect_true (s : ac_test_state) : ac_test_expect true s = (true, s) := rfl

theorem expect_false (s : ac_test_state) :
    ac_test_expect false s = (false, (ac_test_fail s).2) := rfl

/-- What `ac_test_after_call_` does on a stack whose top is `n`. -/
theorem after_call_concat (s : ac_test_state) (pre : List ac_test_stack_node)
    (n : ac_test_stack_node) (h : s.stack = pre ++ [n]) :
    ac_test_after_call_ s = (decide (n.failures = 0),
      { s with stack := if n.failures = 0 then pre
                        else if 2 ≤ pre.length then ac_test_bump pre (pre.length - 1)
                        else pre }) := by
  unfold ac_test_after_call_
  have h1 : ¬ (s.stack.length = 0) := by
    rw [h]
    simp
  have h2 : s.stack[s.stack.length - 1]? = some n := by
    rw [h]
    simp
  have h3 : s.stack.length - 1 = pre.length := by
    rw [h]
    simp
  have h4 : s.stack.length = pre.length + 1 := by
    rw [h]
    simp
  rw [if_neg h1, h2]
  dsimp only
  by_cases hn : n.failures = 0
  · simp only [hn, decide_True, Bool.not_true, Bool.false_eq_true, if_false, if_true, h3]
    rw [h, List.take_left]
  · simp only [hn, decide_False, Bool.not_false, if_true, if_false, h3]
    by_cases hp : 2 ≤ pre.length
    · have h5 : s.stack.length > 2 := by omega
      have h6 : s.stack.length - 2 = pre.length - 1 := by omega
      simp only [h5, hp, if_true, h6]
      rw [h, bump_front pre n (pre.length - 1) (by omega)]
      have h7 : (ac_test_bump pre (pre.length - 1)).length = pre.length := bump_length _ _
      rw [List.take_left' h7]
    · have h5 : ¬ (s.stack.length > 2) := by omega
      simp only [h5, hp, if_false]
      rw [h, List.take_left]

end AcTest

namespace AcTest

theorem tally_fail (s : ac_test_state) (h : ac_test_tally_ok s) :
    ac_test_tally_ok (ac_test_fail s).2 := by
  unfold ac_test_tally_ok at h ⊢
  rw [fail_cases_run, fail_failures, fail_trace, List.count_append, List.count_append, h.1, h.2]
  exact ⟨rfl, rfl⟩

theorem tally_expect (cond : Bool) (s : ac_test_state) (h : ac_test_tally_ok s) :
    ac_test_tally_ok (ac_test_expect cond s).2 := by
  cases cond
  · exact tally_fail s h
  · exact h

theorem tally_begin (s : ac_test_state) (h : ac_test_tally_ok s) :
    ac_test_tally_ok (ac_test_begin s).2 := by
  have hp := tally_expect (decide (s.stack.length ≠ 0) && s.expect_test_begin) s h
  unfold ac_test_begin
  dsimp only
  split
  · exact hp
  · exact hp

theorem tally_after_call (s : ac_test_state) (h : ac_test_tally_ok s) :
    ac_test_tally_ok (ac_test_after_call_ s).2 := by
  unfold ac_test_after_call_
  split
  · exact h
  · split
    · exact h
    · exact h

theorem tally_run (func : ac_test_state → ac_test_state)
    (hf : ∀ s, ac_test_tally_ok s → ac_test_tally_ok (func s)) (s : ac_test_state)
    (h : ac_test_tally_ok s) : ac_test_tally_ok (ac_test_run func s).2 := by
  unfold ac_test_run
  dsimp only
  apply tally_after_call
  apply tally_expect
  apply hf
  unfold ac_test_tally_ok at h ⊢
  unfold ac_test_before_call_
  dsimp only
  rw [List.count_append, List.count_append, h.1, h.2]
  exact ⟨rfl, rfl⟩

theorem tally_begin_then (k : ac_test_state → ac_test_state)
    (hk : ∀ s, ac_test_tally_ok s → ac_test_tally_ok (k s)) (s : ac_test_state)
    (h : ac_test_tally_ok s) : ac_test_tally_ok (ac_test_begin_then k s) := by
  unfold ac_test_begin_then
  split
  · exact hk _ (tally_begin s h)
  · exact tally_begin s h

theorem tally_exec (body : ac_test_body) :
    ∀ s, ac_test_tally_ok s → ac_test_tally_ok (ac_test_exec body s) := by
  induction body with
  | done =>
    intro s h
    exact h
  | fail returns rest ih =>
    intro s h
    unfold ac_test_exec
    split
    · exact tally_fail s h
    · exact ih _ (tally_fail s h)
  | expect cond returns rest ih =>
    intro s h
    unfold ac_test_exec
    split
    · exact tally_expect cond s h
    · exact ih _ (tally_expect cond s h)
  | run callee returns rest ihc ih =>
    intro s h
    have hr := tally_run (ac_test_begin_then (ac_test_exec callee))
      (fun s1 h1 => tally_begin_then _ ihc s1 h1) s h
    unfold ac_test_exec
    split
    · exact hr
    · exact ih _ hr
  | run_no_begin returns rest ih =>
    intro s h
    have hr := tally_run id (fun s1 h1 => h1) s h
    unfold ac_test_exec
    split
    · exact hr
    · exact ih _ hr

end AcTest

namespace AcTest

theorem expect_flag (cond : Bool) (s : ac_test_state) :
    (ac_test_expect cond s).2.expect_test_begin = s.expect_test_begin := by
  cases cond
  · exact fail_flag s
  · rfl

theorem expect_stack (cond : Bool) (s : ac_test_state) (pre : List ac_test_stack_node)
    (n : ac_test_stack_node) (h : s.stack = pre ++ [n]) :
    ∃ m, (ac_test_expect cond s).2.stack = pre ++ [m] := by
  cases cond
  · exact ⟨_, fail_stack s pre n h⟩
  · exact ⟨n, h⟩

theorem after_call_flag (s : ac_test_state) :
    (ac_test_after_call_ s).2.expect_test_begin = s.expect_test_begin := by
  unfold ac_test_after_call_
  split
  · rfl
  · split <;> rfl

theorem after_call_counts (s : ac_test_state) :
    (ac_test_after_call_ s).2.cases_run = s.cases_run ∧
    (ac_test_after_call_ s).2.failures = s.failures := by
  unfold ac_test_after_call_
  split
  · exact ⟨rfl, rfl⟩
  · split <;> exact ⟨rfl, rfl⟩

/-- After `ac_test_before_call_` the `ac_test_begin` of the callee passes. -/
theorem begin_ok (s : ac_test_state) (pre : List ac_test_stack_node)
    (n : ac_test_stack_node) (h : s.stack = pre ++ [n]) (hf : s.expect_test_begin = true) :
    ac_test_begin s = (true, { s with expect_test_begin := false }) := by
  unfold ac_test_begin
  have h1 : (decide (s.stack.length ≠ 0) && s.expect_test_begin) = true := by
    rw [hf, h]
    simp
  rw [h1]
  rfl

theorem begin_stack (s : ac_test_state) (pre : List ac_test_stack_node)
    (n : ac_test_stack_node) (h : s.stack = pre ++ [n]) :
    ∃ m, (ac_test_begin s).2.stack = pre ++ [m] := by
  obtain ⟨m, hm⟩ := expect_stack (decide (s.stack.length ≠ 0) && s.expect_test_begin) s pre n h
  unfold ac_test_begin
  dsimp only
  split
  · exact ⟨m, hm⟩
  · exact ⟨m, hm⟩

theorem begin_then_frame (k : ac_test_state → ac_test_state)
    (hk : ∀ s pre n, s.stack = pre ++ [n] → ∃ m, (k s).stack = pre ++ [m])
    (s : ac_test_state) (pre : List ac_test_stack_node) (n : ac_test_stack_node)
    (h : s.stack = pre ++ [n]) : ∃ m, (ac_test_begin_then k s).stack = pre ++ [m] := by
  obtain ⟨m, hm⟩ := begin_stack s pre n h
  unfold ac_test_begin_then
  split
  · exact hk _ pre m hm
  · exact ⟨m, hm⟩

/-- A nested `ac_test_run` changes the stack at most in the node of its
caller, and not at all when the caller is the only node. -/
theorem run_frame (func : ac_test_state → ac_test_state)
    (hf : ∀ s pre n, s.stack = pre ++ [n] → ∃ m, (func s).stack = pre ++ [m])
    (s : ac_test_state) (pre : List ac_test_stack_node) (n : ac_test_stack_node)
    (h : s.stack = pre ++ [n]) :
    ∃ m, (ac_test_run func s).2.stack = pre ++ [m] ∧ (pre = [] → m = n) := by
  unfold ac_test_run
  dsimp only
  have h1 : (ac_test_before_call_ { s with trace := s.trace ++ [.run] }).stack =
      (pre ++ [n]) ++ [⟨0⟩] := by
    unfold ac_test_before_call_
    dsimp only
    rw [h]
  obtain ⟨m1, h2⟩ := hf _ _ _ h1
  obtain ⟨m2, h3⟩ := expect_stack _ _ _ _ h2
  rw [after_call_concat _ _ m2 h3]
  dsimp only
  by_cases hm : m2.failures = 0
  · rw [if_pos hm]
    exact ⟨n, rfl, fun _ => rfl⟩
  · rw [if_neg hm]
    by_cases hp : 2 ≤ (pre ++ [n]).length
    · rw [if_pos hp]
      have h4 : (pre ++ [n]).length - 1 = pre.length := by simp
      rw [h4, bump_last]
      refine ⟨_, rfl, ?_⟩
      intro hnil
      subst hnil
      simp at hp
    · rw [if_neg hp]
      exact ⟨n, rfl, fun _ => rfl⟩

/-- An `ac_test_run` on the empty stack leaves the stack empty. -/
theorem run_frame_nil (func : ac_test_state → ac_test_state)
    (hf : ∀ s pre n, s.stack = pre ++ [n] → ∃ m, (func s).stack = pre ++ [m])
    (s : ac_test_state) (h : s.stack = []) : (ac_test_run func s).2.stack = [] := by
  unfold ac_test_run
  dsimp only
  have h1 : (ac_test_before_call_ { s with trace := s.trace ++ [.run] }).stack =
      [] ++ [⟨0⟩] := by
    unfold ac_test_before_call_
    dsimp only
    rw [h]
  obtain ⟨m1, h2⟩ := hf _ _ _ h1
  obtain ⟨m2, h3⟩ := expect_stack _ _ _ _ h2
  rw [after_call_concat _ _ m2 h3]
  dsimp only
  split
  · rfl
  · rfl

theorem id_frame (s : ac_test_state) (pre : List ac_test_stack_node)
    (n : ac_test_stack_node) (h : s.stack = pre ++ [n]) : ∃ m, (id s).stack = pre ++ [m] :=
  ⟨n, h⟩

/-- The steps of a test function change the stack in its top node only. -/
theorem exec_frame (body : ac_test_body) :
    ∀ s pre n, s.stack = pre ++ [n] → ∃ m, (ac_test_exec body s).stack = pre ++ [m] := by
  induction body with
  | done =>
    intro s pre n h
    exact ⟨n, h⟩
  | fail returns rest ih =>
    intro s pre n h
    have h1 := fail_stack s pre n h
    unfold ac_test_exec
    split
    · exact ⟨_, h1⟩
    · exact ih _ pre _ h1
  | expect cond returns rest ih =>
    intro s pre n h
    obtain ⟨m, h1⟩ := expect_stack cond s pre n h
    unfold ac_test_exec
    split
    · exact ⟨m, h1⟩
    · exact ih _ pre m h1
  | run callee returns rest ihc ih =>
    intro s pre n h
    obtain ⟨m, h1, _⟩ := run_frame (ac_test_begin_then (ac_test_exec callee))
      (begin_then_frame _ ihc) s pre n h
    unfold ac_test_exec
    split
    · exact ⟨m, h1⟩
    · exact ih _ pre m h1
  | run_no_begin returns rest ih =>
    intro s pre n h
    obtain ⟨m, h1, _⟩ := run_frame id id_frame s pre n h
    unfold ac_test_exec
    split
    · exact ⟨m, h1⟩
    · exact ih _ pre m h1

theorem case_frame (body : ac_test_body) (s : ac_test_state)
    (pre : List ac_test_stack_node) (n : ac_test_stack_node) (h : s.stack = pre ++ [n]) :
    ∃ m, (ac_test_case body s).stack = pre ++ [m] :=
  begin_then_frame _ (exec_frame body) s pre n h

/-- The state in which the callee of an `ac_test_run` starts after its
`ac_test_begin`. -/
theorem run_enter (s : ac_test_state) :
    ac_test_begin (ac_test_before_call_ { s with trace := s.trace ++ [.run] }) =
      (true, ⟨s.stack ++ [⟨0⟩], false, s.cases_run + 1, s.failures, s.trace ++ [.run]⟩) := by
  rw [begin_ok _ s.stack ⟨0⟩ rfl rfl]
  rfl

/-- An `ac_test_run` of a function that leaves `expect_test_begin` false after
its `ac_test_begin`: the value and the state, from the state `t` the function
leaves. -/
theorem run_of_begun (k : ac_test_state → ac_test_state) (s : ac_test_state)
    (m : ac_test_stack_node)
    (hflag : (k ⟨s.stack ++ [⟨0⟩], false, s.cases_run + 1, s.failures,
      s.trace ++ [.run]⟩).expect_test_begin = false)
    (hstack : (k ⟨s.stack ++ [⟨0⟩], false, s.cases_run + 1, s.failures,
      s.trace ++ [.run]⟩).stack = s.stack ++ [m]) :
    ac_test_run (ac_test_begin_then k) s =
      ac_test_after_call_ (k ⟨s.stack ++ [⟨0⟩], false, s.cases_run + 1, s.failures,
        s.trace ++ [.run]⟩) := by
  unfold ac_test_run
  dsimp only
  have hb : ac_test_begin_then k (ac_test_before_call_ { s with trace := s.trace ++ [.run] }) =
      k ⟨s.stack ++ [⟨0⟩], false, s.cases_run + 1, s.failures, s.trace ++ [.run]⟩ := by
    unfold ac_test_begin_then
    rw [run_enter]
    rfl
  rw [hb]
  have hc : (decide ((k ⟨s.stack ++ [⟨0⟩], false, s.cases_run + 1, s.failures,
      s.trace ++ [.run]⟩).stack.length ≠ 0) &&
      !(k ⟨s.stack ++ [⟨0⟩], false, s.cases_run + 1, s.failures,
        s.trace ++ [.run]⟩).expect_test_begin) = true := by
    rw [hflag, hstack]
    simp
  rw [hc, expect_true]

/-- Steps whose nested functions all call `ac_test_begin` leave
`expect_test_begin` false. -/
theorem exec_flag (body : ac_test_body) :
    ∀ s, ac_test_all_begin body = true → s.expect_test_begin = false →
      (ac_test_exec body s).expect_test_begin = false := by
  induction body with
  | done =>
    intro s _ h
    exact h
  | fail returns rest ih =>
    intro s hb h
    have h1 : (ac_test_fail s).2.expect_test_begin = false := by rw [fail_flag, h]
    unfold ac_test_exec
    split
    · exact h1
    · exact ih _ hb h1
  | expect cond returns rest ih =>
    intro s hb h
    have h1 : (ac_test_expect cond s).2.expect_test_begin = false := by rw [expect_flag, h]
    unfold ac_test_exec
    split
    · exact h1
    · exact ih _ hb h1
  | run callee returns rest ihc ih =>
    intro s hb h
    unfold ac_test_all_begin at hb
    rw [Bool.and_eq_true] at hb
    obtain ⟨m, hm⟩ := exec_frame callee
      ⟨s.stack ++ [⟨0⟩], false, s.cases_run + 1, s.failures, s.trace ++ [.run]⟩ s.stack ⟨0⟩ rfl
    have hfl := ihc ⟨s.stack ++ [⟨0⟩], false, s.cases_run + 1, s.failures, s.trace ++ [.run]⟩
      hb.1 rfl
    have hr := run_of_begun (ac_test_exec callee) s m hfl hm
    have h1 : (ac_test_run (ac_test_begin_then (ac_test_exec callee)) s).2.expect_test_begin
        = false := by
      rw [hr, after_call_flag, hfl]
    unfold ac_test_exec
    split
    · exact h1
    · exact ih _ hb.2 h1
  | run_no_begin returns rest ih =>
    intro s hb _
    unfold ac_test_all_begin at hb
    cases hb

end AcTest

namespace AcTest

/-- Without early returns and with every nested function calling
`ac_test_begin`, the steps add their number of runs and of failing steps to
the counters. -/
theorem exec_counts (body : ac_test_body) :
    ∀ s, ac_test_all_begin body = true → ac_test_no_returns body = true →
      s.expect_test_begin = false →
      (ac_test_exec body s).cases_run = s.cases_run + ac_test_runs body ∧
      (ac_test_exec body s).failures = s.failures + ac_test_fails body := by
  induction body with
  | done =>
    intro s _ _ _
    exact ⟨rfl, rfl⟩
  | fail returns rest ih =>
    intro s hb hr h
    unfold ac_test_no_returns at hr
    rw [Bool.and_eq_true] at hr
    have hret : returns = false := by simpa using hr.1
    have h1 : (ac_test_fail s).2.expect_test_begin = false := by rw [fail_flag, h]
    obtain ⟨h2, h3⟩ := ih (ac_test_fail s).2 hb hr.2 h1
    unfold ac_test_exec
    rw [hret]
    simp only [Bool.false_and, Bool.false_eq_true, if_false]
    rw [h2, h3, fail_cases_run, fail_failures]
    exact ⟨by simp only [ac_test_runs], by simp only [ac_test_fails]; omega⟩
  | expect cond returns rest ih =>
    intro s hb hr h
    unfold ac_test_no_returns at hr
    rw [Bool.and_eq_true] at hr
    have hret : returns = false := by simpa using hr.1
    have h1 : (ac_test_expect cond s).2.expect_test_begin = false := by rw [expect_flag, h]
    obtain ⟨h2, h3⟩ := ih (ac_test_expect cond s).2 hb hr.2 h1
    unfold ac_test_exec
    rw [hret]
    simp only [Bool.false_and, Bool.false_eq_true, if_false]
    rw [h2, h3]
    cases cond
    · rw [expect_false, fail_cases_run, fail_failures]
      exact ⟨by simp only [ac_test_runs], by simp [ac_test_fails]; omega⟩
    · rw [expect_true]
      exact ⟨by simp only [ac_test_runs], by simp [ac_test_fails]⟩
  | run callee returns rest ihc ih =>
    intro s hb hr h
    unfold ac_test_no_returns at hr
    rw [Bool.and_eq_true, Bool.and_eq_true] at hr
    have hret : returns = false := by simpa using hr.1.1
    unfold ac_test_all_begin at hb
    rw [Bool.and_eq_true] at hb
    obtain ⟨m, hm⟩ := exec_frame callee
      ⟨s.stack ++ [⟨0⟩], false, s.cases_run + 1, s.failures, s.trace ++ [.run]⟩ s.stack ⟨0⟩ rfl
    have hfl := exec_flag callee
      ⟨s.stack ++ [⟨0⟩], false, s.cases_run + 1, s.failures, s.trace ++ [.run]⟩ hb.1 rfl
    have hrun := run_of_begun (ac_test_exec callee) s m hfl hm
    obtain ⟨c1, c2⟩ := ihc
      ⟨s.stack ++ [⟨0⟩], false, s.cases_run + 1, s.failures, s.trace ++ [.run]⟩ hb.1 hr.1.2 rfl
    have h1 : (ac_test_run (ac_test_begin_then (ac_test_exec callee)) s).2.expect_test_begin
        = false := by
      rw [hrun, after_call_flag, hfl]
    obtain ⟨h2, h3⟩ := ih _ hb.2 hr.2 h1
    unfold ac_test_exec
    rw [hret]
    simp only [Bool.false_and, Bool.false_eq_true, if_false]
    rw [h2, h3, hrun, (after_call_counts _).1, (after_call_counts _).2, c1, c2]
    exact ⟨by simp only [ac_test_runs]; omega, by simp only [ac_test_fails]; omega⟩
  | run_no_begin returns rest ih =>
    intro s hb _ _
    unfold ac_test_all_begin at hb
    cases hb

/-- Steps with no failing step of their own, run in the outermost test
function: the one node of the stack is as it was. -/
theorem exec_nested_only (body : ac_test_body) :
    ∀ s n, ac_test_nested_only body = true → s.stack = [n] → s.expect_test_begin = false →
      (ac_test_exec body s).stack = [n] ∧ (ac_test_exec body s).expect_test_begin = false := by
  induction body with
  | done =>
    intro s n _ h1 h2
    exact ⟨h1, h2⟩
  | fail returns rest ih =>
    intro s n hb _ _
    unfold ac_test_nested_only at hb
    cases hb
  | expect cond returns rest ih =>
    intro s n hb h1 h2
    unfold ac_test_nested_only at hb
    rw [Bool.and_eq_true] at hb
    have hc : cond = true := hb.1
    subst hc
    unfold ac_test_exec
    rw [expect_true]
    simp only [Bool.not_true, Bool.and_false, Bool.false_eq_true, if_false]
    exact ih s n hb.2 h1 h2
  | run callee returns rest ihc ih =>
    intro s n hb h1 h2
    unfold ac_test_nested_only at hb
    rw [Bool.and_eq_true] at hb
    obtain ⟨m, hm⟩ := exec_frame callee
      ⟨s.stack ++ [⟨0⟩], false, s.cases_run + 1, s.failures, s.trace ++ [.run]⟩ s.stack ⟨0⟩ rfl
    have hfl := exec_flag callee
      ⟨s.stack ++ [⟨0⟩], false, s.cases_run + 1, s.failures, s.trace ++ [.run]⟩ hb.1 rfl
    have hrun := run_of_begun (ac_test_exec callee) s m hfl hm
    have hf : (ac_test_run (ac_test_begin_then (ac_test_exec callee)) s).2.expect_test_begin
        = false := by
      rw [hrun, after_call_flag, hfl]
    obtain ⟨m2, hs, hnil⟩ := run_frame (ac_test_begin_then (ac_test_exec callee))
      (begin_then_frame _ (exec_frame callee)) s [] n h1
    have hs2 : (ac_test_run (ac_test_begin_then (ac_test_exec callee)) s).2.stack = [n] := by
      rw [hs, hnil rfl]
      rfl
    unfold ac_test_exec
    split
    · exact ⟨hs2, hf⟩
    · exact ih _ n hb.2 hs2 hf
  | run_no_begin returns rest ih =>
    intro s n hb _ _
    unfold ac_test_nested_only at hb
    cases hb

/-- The steps of a function without nested runs add the same number `k` to the
top node and to the total, and `k` is 0 exactly when no step fails. -/
theorem exec_leaf (body : ac_test_body) :
    ∀ s pre n, ac_test_leaf body = true → s.stack = pre ++ [n] →
      ∃ k, (ac_test_exec body s).stack = pre ++ [⟨n.failures + k⟩] ∧
        (ac_test_exec body s).failures = s.failures + k ∧
        (k = 0 ↔ ac_test_leaf_passes body = true) ∧
        (ac_test_exec body s).expect_test_begin = s.expect_test_begin := by
  induction body with
  | done =>
    intro s pre n _ h
    exact ⟨0, h, rfl, by simp [ac_test_leaf_passes], rfl⟩
  | fail returns rest ih =>
    intro s pre n hb h
    unfold ac_test_leaf at hb
    have h1 := fail_stack s pre n h
    obtain ⟨k, h2, h3, _, h5⟩ := ih (ac_test_fail s).2 pre ⟨n.failures + 1⟩ hb h1
    unfold ac_test_exec
    split
    · exact ⟨1, h1, fail_failures s, by simp [ac_test_leaf_passes], fail_flag s⟩
    · refine ⟨1 + k, ?_, ?_, ?_, ?_⟩
      · rw [h2]
        show pre ++ [⟨n.failures + 1 + k⟩] = pre ++ [⟨n.failures + (1 + k)⟩]
        rw [Nat.add_assoc]
      · rw [h3, fail_failures]
        omega
      · simp [ac_test_leaf_passes]
      · rw [h5, fail_flag]
  | expect cond returns rest ih =>
    intro s pre n hb h
    unfold ac_test_leaf at hb
    cases cond
    · have h1 := fail_stack s pre n h
      obtain ⟨k, h2, h3, _, h5⟩ := ih (ac_test_fail s).2 pre ⟨n.failures + 1⟩ hb h1
      unfold ac_test_exec
      rw [expect_false]
      split
      · exact ⟨1, h1, fail_failures s, by simp [ac_test_leaf_passes], fail_flag s⟩
      · refine ⟨1 + k, ?_, ?_, ?_, ?_⟩
        · rw [h2]
          show pre ++ [⟨n.failures + 1 + k⟩] = pre ++ [⟨n.failures + (1 + k)⟩]
          rw [Nat.add_assoc]
        · rw [h3, fail_failures]
          omega
        · simp [ac_test_leaf_passes]
        · rw [h5, fail_flag]
    · obtain ⟨k, h2, h3, h4, h5⟩ := ih s pre n hb h
      unfold ac_test_exec
      rw [expect_true]
      simp only [Bool.not_true, Bool.and_false, Bool.false_eq_true, if_false]
      refine ⟨k, h2, h3, ?_, h5⟩
      rw [h4]
      simp [ac_test_leaf_passes]
  | run callee returns rest ihc ih =>
    intro s pre n hb _
    unfold ac_test_leaf at hb
    cases hb
  | run_no_begin returns rest ih =>
    intro s pre n hb _
    unfold ac_test_leaf at hb
    cases hb

end AcTest

/-! ## Claims on the test harness -/

namespace AcTest

/-- C34: from the state `ac_test_init` leaves, after any steps (runs, nested to
any depth, expectations and `ac_test_fail`), `cases_run` is the number of
`ac_test_run` entered and `failures` the number of expectations that failed
and `ac_test_fail` evaluated. When no step returns early and every function
calls `ac_test_begin`, these are the numbers of such steps in the text. A
failure two runs below the outermost one counts once. -/
theorem ac_test_counts_exact (body : ac_test_body) :
    (ac_test_exec body ac_test_init).cases_run =
      (ac_test_exec body ac_test_init).trace.count .run ∧
    (ac_test_exec body ac_test_init).failures =
      (ac_test_exec body ac_test_init).trace.count .failed ∧
    (ac_test_all_begin body = true → ac_test_no_returns body = true →
      (ac_test_exec body ac_test_init).cases_run = ac_test_runs body ∧
      (ac_test_exec body ac_test_init).failures = ac_test_fails body) ∧
    (ac_test_exec (.run (.run nested_case_fail false .done) false .done) ac_test_init).cases_run
      = 3 ∧
    (ac_test_exec (.run (.run nested_case_fail false .done) false .done) ac_test_init).failures
      = 1 := by
  have h := tally_exec body ac_test_init ⟨rfl, rfl⟩
  refine ⟨h.1, h.2, ?_, by decide, by decide⟩
  intro hb hr
  have hc := exec_counts body ac_test_init hb hr rfl
  rw [hc.1, hc.2]
  exact ⟨Nat.zero_add _, Nat.zero_add _⟩

/-- C35: an outermost `ac_test_run` of a function with no failing step of its
own evaluates to true, whatever its nested functions record: so it does for
`nested_case_fail`, whose nested `single_case_fail` records a failure. -/
theorem ac_test_run_outermost_ignores_nested (body : ac_test_body)
    (hb : ac_test_nested_only body = true) :
    (ac_test_run (ac_test_case body) ac_test_init).1 = true ∧
    (ac_test_run (ac_test_case nested_case_fail) ac_test_init).1 = true ∧
    (ac_test_run (ac_test_case nested_case_fail) ac_test_init).2.failures = 1 ∧
    (ac_test_run (ac_test_case single_case_fail)
      ⟨[⟨0⟩], false, 1, 0, [.run]⟩).1 = false := by
  refine ⟨?_, by decide, by decide, by decide⟩
  obtain ⟨hs, hf⟩ := exec_nested_only body
    ⟨ac_test_init.stack ++ [⟨0⟩], false, ac_test_init.cases_run + 1, ac_test_init.failures,
      ac_test_init.trace ++ [.run]⟩ ⟨0⟩ hb rfl rfl
  unfold ac_test_case
  rw [run_of_begun (ac_test_exec body) ac_test_init ⟨0⟩ hf hs,
    after_call_concat _ [] ⟨0⟩ hs]
  rfl

theorem ac_test_run_outermost_ignores_nested_witness :
    (ac_test_run (ac_test_case nested_case_2_fail) ac_test_init).1 = true ∧
    (ac_test_run (ac_test_case nested_case_fail) ac_test_init).1 = true ∧
    (ac_test_run (ac_test_case nested_case_fail) ac_test_init).2.failures = 1 ∧
    (ac_test_run (ac_test_case single_case_fail)
      ⟨[⟨0⟩], false, 1, 0, [.run]⟩).1 = false :=
  ac_test_run_outermost_ignores_nested nested_case_2_fail (by decide)

/-- C36: for a test function that calls `ac_test_begin` and runs no nested
function, from any state, `ac_test_run` evaluates to true exactly when no step
of the function fails, which is exactly when `failures` is as before;
`ac_test_fail` evaluates to false and `ac_test_expect` to its condition. -/
theorem ac_test_run_leaf (body : ac_test_body) (s : ac_test_state)
    (hb : ac_test_leaf body = true) :
    (ac_test_run (ac_test_case body) s).1 = ac_test_leaf_passes body ∧
    ((ac_test_run (ac_test_case body) s).1 = true ↔
      (ac_test_run (ac_test_case body) s).2.failures = s.failures) ∧
    (∀ t, (ac_test_fail t).1 = false) ∧
    (∀ cond t, (ac_test_expect cond t).1 = cond) := by
  obtain ⟨k, h1, h2, h3, h4⟩ := exec_leaf body
    ⟨s.stack ++ [⟨0⟩], false, s.cases_run + 1, s.failures, s.trace ++ [.run]⟩ s.stack ⟨0⟩ hb rfl
  have hrun : ac_test_run (ac_test_case body) s =
      ac_test_after_call_ (ac_test_exec body
        ⟨s.stack ++ [⟨0⟩], false, s.cases_run + 1, s.failures, s.trace ++ [.run]⟩) := by
    unfold ac_test_case
    exact run_of_begun (ac_test_exec body) s ⟨0 + k⟩ h4 h1
  have hval : (ac_test_run (ac_test_case body) s).1 = decide (k = 0) := by
    rw [hrun, after_call_concat _ s.stack ⟨0 + k⟩ h1]
    simp
  have hfail : (ac_test_run (ac_test_case body) s).2.failures = s.failures + k := by
    rw [hrun, (after_call_counts _).2, h2]
  refine ⟨?_, ?_, fail_value, expect_value⟩
  · rw [hval]
    by_cases hk : k = 0
    · rw [decide_eq_true hk, h3.mp hk]
    · have hp : ac_test_leaf_passes body ≠ true := fun hp => hk (h3.mpr hp)
      rw [decide_eq_false hk]
      cases hq : ac_test_leaf_passes body
      · rfl
      · exact absurd hq hp
  · rw [hval, hfail, decide_eq_true_eq]
    omega

theorem ac_test_run_leaf_witness :
    (ac_test_run (ac_test_case (.expect true true (.expect false false .done)))
      ⟨[⟨0⟩], false, 1, 0, [.run]⟩).1 =
      ac_test_leaf_passes (.expect true true (.expect false false .done)) ∧
    ((ac_test_run (ac_test_case (.expect true true (.expect false false .done)))
      ⟨[⟨0⟩], false, 1, 0, [.run]⟩).1 = true ↔
      (ac_test_run (ac_test_case (.expect true true (.expect false false .done)))
        ⟨[⟨0⟩], false, 1, 0, [.run]⟩).2.failures =
        (⟨[⟨0⟩], false, 1, 0, [.run]⟩ : ac_test_state).failures) ∧
    (∀ t, (ac_test_fail t).1 = false) ∧
    (∀ cond t, (ac_test_expect cond t).1 = cond) :=
  ac_test_run_leaf (.expect true true (.expect false false .done))
    ⟨[⟨0⟩], false, 1, 0, [.run]⟩ rfl

end AcTest
